import Mathlib

/-!
# libdatastructures: the AVL tree engine, the map and the linear containers

Shallow embedding of the node engine and of the tree wrapper (tree-node.c, tree.c), of
the map built on it (pair.c, map.c), of the circular linked lists with the stack, the
queue and the deque built on them, and of the array, followed by the invariants and
functional properties of each.

Modelling conventions.

* An element pointer (`void *`) that is stored in a node is a value of an arbitrary
  type `α` of references; two references may compare equal under the comparator and
  still be different references.  A pointer argument that may be `NULL` is an `Option`.
* A node pointer is a `tree_node_s α`; `NULL` is `tree_node_s.null`.  Every node is
  owned by exactly one parent, so the in-place updates of the C code are modelled by
  rebuilding the node.
* A comparator is a function `α → α → Int`; an absent callback is `none`.
* A dereference of `NULL` is undefined behaviour in C.  Every function that can
  dereference a pointer it has not tested returns an `Option`, and `none` stands for
  such a dereference.  The theorems prove that it does not happen on the trees the
  library builds.
* `int` heights and balance factors are mathematical integers: a stored height is
  bounded by the number of nodes, far below `2^31`.  `size_t count` is a natural
  number; `count++` is not wrapped (allocation is assumed to succeed, and the number
  of live nodes is bounded by the address space), `count--` wraps at zero as in C.
* The nodes of the circular lists point to each other in a cycle: they live in an
  explicit heap of cells, and the lists are related to the sequences they hold by a
  representation predicate.
-/

/-! ## tree-node.h / tree-node.c -/

/-- The `struct tree_node` of tree-node.h: the element, the stored balance factor, the
stored height and the two children. `null` is the `NULL` node pointer. -/
inductive tree_node_s (α : Type) where
  | null : tree_node_s α
  | node (elem : α) (balance_factor : Int) (height : Int)
      (left right : tree_node_s α) : tree_node_s α
  deriving DecidableEq, Repr

/-- The function `tree_node_init` followed by the return of `tree_node_new`: a `NULL`
element gives `NULL`, otherwise a node of height 0 and balance factor 0 without children. -/
def tree_node_new {α : Type} (elem : Option α) : tree_node_s α :=
  match elem with
  | none => .null
  | some e => .node e 0 0 .null .null

/-- The function `tree_node_find`: the first node on the search path whose element
compares equal to `elem`, or `NULL`. -/
def tree_node_find {α : Type} (root : tree_node_s α) (elem : Option α)
    (elem_compare : Option (α → α → Int)) : tree_node_s α :=
  match root, elem, elem_compare with
  | .node x b h l r, some e, some cmp =>
    if cmp x e < 0 then tree_node_find l elem elem_compare
    else if cmp x e > 0 then tree_node_find r elem elem_compare
    else .node x b h l r
  | _, _, _ => .null

/-- The function `tree_node_find_elem`: the element of the node found, or `NULL`. -/
def tree_node_find_elem {α : Type} (root : tree_node_s α) (elem : Option α)
    (elem_compare : Option (α → α → Int)) : Option α :=
  match tree_node_find root elem elem_compare with
  | .null => none
  | .node x _ _ _ _ => some x

/-- The test `NULL == n` on a node pointer. -/
def is_null {α : Type} : tree_node_s α → Bool
  | .null => true
  | .node _ _ _ _ _ => false

/-- The expression `NULL == n ? -1 : n->height` of
`tree_node_update_height_and_balance_factor`. -/
def node_height {α : Type} : tree_node_s α → Int
  | .null => -1
  | .node _ _ h _ _ => h

/-- The function `tree_node_update_height_and_balance_factor`: recompute the stored
height and balance factor of one node from the stored heights of its children. -/
def tree_node_update_height_and_balance_factor {α : Type} :
    tree_node_s α → tree_node_s α
  | .null => .null
  | .node x _ _ l r =>
    .node x (node_height r - node_height l) (1 + max (node_height l) (node_height r)) l r

/-- The function `tree_node_right_rotation`; `none` when `node` or `node->left` is `NULL`. -/
def tree_node_right_rotation {α : Type} : tree_node_s α → Option (tree_node_s α)
  | .node x b h (.node lx lb lh ll lr) r =>
    some (tree_node_update_height_and_balance_factor
      (.node lx lb lh ll (tree_node_update_height_and_balance_factor (.node x b h lr r))))
  | _ => none

/-- The function `tree_node_left_rotation`; `none` when `node` or `node->right` is `NULL`. -/
def tree_node_left_rotation {α : Type} : tree_node_s α → Option (tree_node_s α)
  | .node x b h l (.node rx rb rh rl rr) =>
    some (tree_node_update_height_and_balance_factor
      (.node rx rb rh (tree_node_update_height_and_balance_factor (.node x b h l rl)) rr))
  | _ => none

/-- The function `tree_node_balance_left_left_case`. -/
def tree_node_balance_left_left_case {α : Type} (node : tree_node_s α) :
    Option (tree_node_s α) :=
  tree_node_right_rotation node

/-- The function `tree_node_balance_left_right_case`. -/
def tree_node_balance_left_right_case {α : Type} : tree_node_s α → Option (tree_node_s α)
  | .null => none
  | .node x b h l r =>
    (tree_node_left_rotation l).bind fun l' =>
      tree_node_balance_left_left_case (.node x b h l' r)

/-- The function `tree_node_balance_right_right_case`. -/
def tree_node_balance_right_right_case {α : Type} (node : tree_node_s α) :
    Option (tree_node_s α) :=
  tree_node_left_rotation node

/-- The function `tree_node_balance_right_left_case`. -/
def tree_node_balance_right_left_case {α : Type} : tree_node_s α → Option (tree_node_s α)
  | .null => none
  | .node x b h l r =>
    (tree_node_right_rotation r).bind fun r' =>
      tree_node_balance_right_right_case (.node x b h l r')

/-- The function `tree_node_balance`: dispatch on the stored balance factor of `node`. -/
def tree_node_balance {α : Type} : tree_node_s α → Option (tree_node_s α)
  | .null => some .null
  | .node x b h l r =>
    if b = -2 then
      match l with
      | .null => none
      | .node _ lb _ _ _ =>
        if lb ≤ 0 then tree_node_balance_left_left_case (.node x b h l r)
        else tree_node_balance_left_right_case (.node x b h l r)
    else if b = 2 then
      match r with
      | .null => none
      | .node _ rb _ _ _ =>
        if rb ≥ 0 then tree_node_balance_right_right_case (.node x b h l r)
        else tree_node_balance_right_left_case (.node x b h l r)
    else some (.node x b h l r)

/-- The function `tree_node_find_max`: the rightmost node of the subtree. -/
def tree_node_find_max {α : Type} : tree_node_s α → tree_node_s α
  | .null => .null
  | .node x b h l .null => .node x b h l .null
  | .node _ _ _ _ (.node rx rb rh rl rr) => tree_node_find_max (.node rx rb rh rl rr)

/-- The function `tree_node_find_min`: the leftmost node of the subtree. -/
def tree_node_find_min {α : Type} : tree_node_s α → tree_node_s α
  | .null => .null
  | .node x b h .null r => .node x b h .null r
  | .node _ _ _ (.node lx lb lh ll lr) _ => tree_node_find_min (.node lx lb lh ll lr)

/-- The function `tree_node_insert`. -/
def tree_node_insert {α : Type} (root : tree_node_s α) (elem : Option α)
    (elem_compare : Option (α → α → Int)) (allow_duplicates : Bool) :
    Option (tree_node_s α) :=
  match elem with
  | none => some root
  | some e =>
    match root with
    | .null => some (tree_node_new elem)
    | .node x b h l r =>
      match elem_compare with
      | none => some root
      | some cmp =>
        if cmp x e < 0 then
          (tree_node_insert l elem elem_compare allow_duplicates).bind fun l' =>
            tree_node_balance (tree_node_update_height_and_balance_factor (.node x b h l' r))
        else if cmp x e > 0 ∨ allow_duplicates = true then
          (tree_node_insert r elem elem_compare allow_duplicates).bind fun r' =>
            tree_node_balance (tree_node_update_height_and_balance_factor (.node x b h l r'))
        else some root

/-- The function `tree_node_remove`. In the two-children case the element of the
matched node is overwritten with the element of the predecessor or successor node,
and that element is then removed from the subtree by comparison. -/
def tree_node_remove {α : Type} (root : tree_node_s α) (elem : Option α)
    (elem_compare : Option (α → α → Int)) : Option (tree_node_s α) :=
  match root with
  | .null => some .null
  | .node x b h l r =>
    match elem, elem_compare with
    | some e, some cmp =>
      if cmp x e < 0 then
        (tree_node_remove l elem elem_compare).bind fun l' =>
          tree_node_balance (tree_node_update_height_and_balance_factor (.node x b h l' r))
      else if cmp x e > 0 then
        (tree_node_remove r elem elem_compare).bind fun r' =>
          tree_node_balance (tree_node_update_height_and_balance_factor (.node x b h l r'))
      else
        match l, r with
        | .null, .null =>
          tree_node_balance (tree_node_update_height_and_balance_factor .null)
        | .node lx lb lh ll lr, .null =>
          tree_node_balance (tree_node_update_height_and_balance_factor (.node lx lb lh ll lr))
        | .null, .node rx rb rh rl rr =>
          tree_node_balance (tree_node_update_height_and_balance_factor (.node rx rb rh rl rr))
        | .node lx lb lh ll lr, .node rx rb rh rl rr =>
          if lh > rh then
            match tree_node_find_max (.node lx lb lh ll lr) with
            | .null => none
            | .node m _ _ _ _ =>
              (tree_node_remove (.node lx lb lh ll lr) (some m) elem_compare).bind fun l' =>
                tree_node_balance
                  (tree_node_update_height_and_balance_factor (.node m b h l' (.node rx rb rh rl rr)))
          else
            match tree_node_find_min (.node rx rb rh rl rr) with
            | .null => none
            | .node m _ _ _ _ =>
              (tree_node_remove (.node rx rb rh rl rr) (some m) elem_compare).bind fun r' =>
                tree_node_balance
                  (tree_node_update_height_and_balance_factor (.node m b h (.node lx lb lh ll lr) r'))
    | _, _ => some (.node x b h l r)

/-- The three traversal functions thread the effect of the visitor callback through a
state `σ`; an absent visitor leaves the state alone.  This is `tree_node_traverse_inorder`:
left subtree, the node itself, right subtree. -/
def tree_node_traverse_inorder {α σ : Type} (root : tree_node_s α)
    (elem_visit : Option (σ → α → σ)) (s : σ) : σ :=
  match root, elem_visit with
  | .node x _ _ l r, some visit =>
    tree_node_traverse_inorder r elem_visit
      (visit (tree_node_traverse_inorder l elem_visit s) x)
  | _, _ => s

/-- The function `tree_node_traverse_preorder`: the node itself, left subtree, right
subtree. -/
def tree_node_traverse_preorder {α σ : Type} (root : tree_node_s α)
    (elem_visit : Option (σ → α → σ)) (s : σ) : σ :=
  match root, elem_visit with
  | .node x _ _ l r, some visit =>
    tree_node_traverse_preorder r elem_visit
      (tree_node_traverse_preorder l elem_visit (visit s x))
  | _, _ => s

/-- The function `tree_node_traverse_postorder`: left subtree, right subtree, the node
itself. -/
def tree_node_traverse_postorder {α σ : Type} (root : tree_node_s α)
    (elem_visit : Option (σ → α → σ)) (s : σ) : σ :=
  match root, elem_visit with
  | .node x _ _ l r, some visit =>
    visit (tree_node_traverse_postorder r elem_visit
      (tree_node_traverse_postorder l elem_visit s)) x
  | _, _ => s

/-- The function `tree_node_destroy`: every node is freed and the root pointer is set to
`NULL`; the result also lists the elements handed to the destructor, in the order of the
calls (left subtree, right subtree, the node itself), which is empty without a destructor. -/
def tree_node_destroy {α : Type} (root : tree_node_s α) (elem_destroy : Bool) :
    tree_node_s α × List α :=
  match root with
  | .null => (.null, [])
  | .node x _ _ l r =>
    (.null, (tree_node_destroy l elem_destroy).2 ++ (tree_node_destroy r elem_destroy).2
      ++ (if elem_destroy then [x] else []))

/-! ## tree.h / tree.c -/

/-- The `struct tree` of tree.h. -/
structure tree_s (α : Type) where
  root : tree_node_s α
  allow_duplicates : Bool
  count : Nat
  deriving DecidableEq, Repr

/-- The `enum tree_rc` of tree.h. -/
inductive tree_rc_e where
  | TREE_RC_OK
  | TREE_RC_NULL
  | TREE_RC_EMPTY
  | TREE_RC_ELEM_NULL
  | TREE_RC_ELEM_DUPL
  | TREE_RC_ELEM_CB_NULL
  deriving DecidableEq, Repr

/-- The largest value of `size_t` (64-bit). -/
def SIZE_MAX : Nat := 2 ^ 64 - 1

/-- The statement `tree->count--` on a `size_t`: it wraps around at zero. -/
def size_t_decrement (count : Nat) : Nat :=
  if count = 0 then SIZE_MAX else count - 1

/-- The function `tree_init`: a `NULL` tree is left alone. -/
def tree_init {α : Type} (tree : Option (tree_s α)) (allow_duplicates : Bool) :
    Option (tree_s α) :=
  match tree with
  | none => none
  | some _ => some { root := .null, allow_duplicates := allow_duplicates, count := 0 }

/-- The function `tree_new`: allocate (assumed to succeed) and initialise. -/
def tree_new {α : Type} (allow_duplicates : Bool) : Option (tree_s α) :=
  tree_init (some { root := .null, allow_duplicates := false, count := 0 }) allow_duplicates

/-- The function `tree_find`. -/
def tree_find {α : Type} (tree : Option (tree_s α)) (elem : Option α)
    (elem_compare : Option (α → α → Int)) : Option α :=
  match tree, elem, elem_compare with
  | some t, some _, some _ => tree_node_find_elem t.root elem elem_compare
  | _, _, _ => none

/-- The function `tree_insert`: the return code and the tree after the call. -/
def tree_insert {α : Type} (tree : Option (tree_s α)) (elem : Option α)
    (elem_compare : Option (α → α → Int)) : Option (tree_rc_e × Option (tree_s α)) :=
  match tree with
  | none => some (.TREE_RC_NULL, tree)
  | some t =>
    match elem with
    | none => some (.TREE_RC_ELEM_NULL, tree)
    | some _ =>
      match elem_compare with
      | none => some (.TREE_RC_ELEM_CB_NULL, tree)
      | some _ =>
        if is_null (tree_node_find t.root elem elem_compare) = false ∧ t.allow_duplicates = false then
          some (.TREE_RC_ELEM_DUPL, tree)
        else
          (tree_node_insert t.root elem elem_compare t.allow_duplicates).bind fun root' =>
            some (.TREE_RC_OK, some { t with root := root', count := t.count + 1 })

/-- The function `tree_remove`: the element returned and the tree after the call. -/
def tree_remove {α : Type} (tree : Option (tree_s α)) (elem : Option α)
    (elem_compare : Option (α → α → Int)) : Option (Option α × Option (tree_s α)) :=
  match tree, elem, elem_compare with
  | some t, some _, some _ =>
    if is_null t.root = true then some (none, tree)
    else
      match tree_node_find t.root elem elem_compare with
      | .null => some (none, tree)
      | .node removed _ _ _ _ =>
        (tree_node_remove t.root elem elem_compare).bind fun root' =>
          some (some removed, some { t with root := root', count := size_t_decrement t.count })
  | _, _, _ => some (none, tree)

/-- The function `tree_clear`: the return code and the tree after the call.  The
argument `elem_destroy` tells whether a destructor callback was supplied. -/
def tree_clear {α : Type} (tree : Option (tree_s α)) (elem_destroy : Bool) :
    tree_rc_e × Option (tree_s α) :=
  match tree with
  | none => (.TREE_RC_NULL, none)
  | some t =>
    let rc : tree_rc_e :=
      if is_null t.root = true then .TREE_RC_EMPTY
      else if elem_destroy = false then .TREE_RC_ELEM_CB_NULL
      else .TREE_RC_OK
    let root' := if rc ≠ .TREE_RC_EMPTY then (tree_node_destroy t.root elem_destroy).1 else t.root
    (rc, some { t with root := root', count := 0 })

/-- The `enum tree_traversal` of tree.h. -/
inductive tree_traversal_e where
  | TREE_TRAVERSAL_PREORDER
  | TREE_TRAVERSAL_INORDER
  | TREE_TRAVERSAL_POSTORDER
  deriving DecidableEq, Repr

/-- The function `tree_traverse`: the return code and the state left by the visitor
calls.  The emptiness of the tree is tested before the presence of the visitor. -/
def tree_traverse {α σ : Type} (tree : Option (tree_s α)) (order : tree_traversal_e)
    (elem_visit : Option (σ → α → σ)) (s : σ) : tree_rc_e × σ :=
  match tree with
  | none => (.TREE_RC_NULL, s)
  | some t =>
    if is_null t.root = true then (.TREE_RC_EMPTY, s)
    else
      match elem_visit with
      | none => (.TREE_RC_ELEM_CB_NULL, s)
      | some _ =>
        match order with
        | .TREE_TRAVERSAL_PREORDER => (.TREE_RC_OK, tree_node_traverse_preorder t.root elem_visit s)
        | .TREE_TRAVERSAL_INORDER => (.TREE_RC_OK, tree_node_traverse_inorder t.root elem_visit s)
        | .TREE_TRAVERSAL_POSTORDER =>
          (.TREE_RC_OK, tree_node_traverse_postorder t.root elem_visit s)

/-- The function `tree_destroy` on a pointer to a tree pointer: the return code of
`tree_clear`, and unless that is `TREE_RC_NULL` the tree is freed and the tree pointer
set to `NULL`. -/
def tree_destroy {α : Type} (tree : Option (Option (tree_s α))) (elem_destroy : Bool) :
    tree_rc_e × Option (Option (tree_s α)) :=
  match tree with
  | none => (.TREE_RC_NULL, none)
  | some p =>
    let rc := (tree_clear p elem_destroy).1
    if rc ≠ .TREE_RC_NULL then (rc, some none) else (rc, some p)

/-! ## pair.h / pair.c and map.h / map.c -/

/-- The `struct pair` of pair.h: a key pointer and a value pointer, either of which may
be `NULL`. -/
structure pair_s (κ ν : Type) where
  key : Option κ
  value : Option ν
  deriving DecidableEq, Repr

/-- The function `pair_new` (allocation assumed to succeed). -/
def pair_new {κ ν : Type} (key : Option κ) (value : Option ν) : pair_s κ ν :=
  { key := key, value := value }

/-- The type `map_s` of map.h: a tree whose elements are pairs. -/
abbrev map_s (κ ν : Type) := tree_s (pair_s κ ν)

/-- The `enum map_rc` of map.h. -/
inductive map_rc_e where
  | MAP_RC_OK
  | MAP_RC_NULL
  | MAP_RC_EMPTY
  | MAP_RC_KEY_NULL
  | MAP_RC_KEY_DUPL
  | MAP_RC_PAIR_CB_NULL
  deriving DecidableEq, Repr

/-- The function `tree_rc_to_map_rc` of map.c. -/
def tree_rc_to_map_rc : tree_rc_e → map_rc_e
  | .TREE_RC_OK => .MAP_RC_OK
  | .TREE_RC_EMPTY => .MAP_RC_EMPTY
  | .TREE_RC_ELEM_NULL => .MAP_RC_KEY_NULL
  | .TREE_RC_ELEM_DUPL => .MAP_RC_KEY_DUPL
  | .TREE_RC_ELEM_CB_NULL => .MAP_RC_PAIR_CB_NULL
  | .TREE_RC_NULL => .MAP_RC_NULL

/-- The function `map_init`. -/
def map_init {κ ν : Type} (map : Option (map_s κ ν)) : Option (map_s κ ν) :=
  tree_init map false

/-- The function `map_new`. -/
def map_new {κ ν : Type} : Option (map_s κ ν) :=
  tree_new false

/-- The function `map_find`: the value field of the pair that `tree_find` returns for
the probe pair `(key, NULL)`, or `NULL`. -/
def map_find {κ ν : Type} (map : Option (map_s κ ν)) (key : Option κ)
    (map_pair_compare : Option (pair_s κ ν → pair_s κ ν → Int)) : Option ν :=
  match map, key, map_pair_compare with
  | some _, some _, some _ =>
    match tree_find map (some (pair_new key none)) map_pair_compare with
    | none => none
    | some found_pair => found_pair.value
  | _, _, _ => none

/-- The function `map_insert`: the return code and the map after the call. -/
def map_insert {κ ν : Type} (map : Option (map_s κ ν)) (key : Option κ) (value : Option ν)
    (map_pair_compare : Option (pair_s κ ν → pair_s κ ν → Int)) :
    Option (map_rc_e × Option (map_s κ ν)) :=
  match map with
  | none => some (.MAP_RC_NULL, map)
  | some _ =>
    match key with
    | none => some (.MAP_RC_KEY_NULL, map)
    | some _ =>
      match map_pair_compare with
      | none => some (.MAP_RC_PAIR_CB_NULL, map)
      | some _ =>
        (tree_insert map (some (pair_new key value)) map_pair_compare).map fun r =>
          (tree_rc_to_map_rc r.1, r.2)

/-- A write through the element pointer that `tree_find` returns.  The tree stores its
elements in the nodes, so the write replaces the element of the node that
`tree_node_find` finds (same search path) by its image under `f`; every other node and
every stored height and balance factor is untouched.  In a map each pair is stored in
one node only. -/
def tree_node_store_found {α : Type} (root : tree_node_s α) (elem : Option α)
    (elem_compare : Option (α → α → Int)) (f : α → α) : tree_node_s α :=
  match root, elem, elem_compare with
  | .node x b h l r, some e, some cmp =>
    if cmp x e < 0 then .node x b h (tree_node_store_found l elem elem_compare f) r
    else if cmp x e > 0 then .node x b h l (tree_node_store_found r elem elem_compare f)
    else .node (f x) b h l r
  | .null, _, _ => .null
  | .node x b h l r, _, _ => .node x b h l r

/-- The function `map_replace`: the value returned and the map after the call.  The
statement `found->value = new_value` writes the value field of the pair found. -/
def map_replace {κ ν : Type} (map : Option (map_s κ ν)) (key : Option κ)
    (new_value : Option ν) (map_pair_compare : Option (pair_s κ ν → pair_s κ ν → Int)) :
    Option ν × Option (map_s κ ν) :=
  match map, key, map_pair_compare with
  | some m, some _, some _ =>
    match tree_find map (some (pair_new key none)) map_pair_compare with
    | none => (none, map)
    | some found =>
      (found.value,
        some { m with
          root := tree_node_store_found m.root (some (pair_new key none)) map_pair_compare
            fun p => { p with value := new_value } })
  | _, _, _ => (none, map)

/-- The function `map_traverse`: an in-order `tree_traverse`. -/
def map_traverse {κ ν σ : Type} (map : Option (map_s κ ν))
    (map_pair_visit : Option (σ → pair_s κ ν → σ)) (s : σ) : map_rc_e × σ :=
  let r := tree_traverse map .TREE_TRAVERSAL_INORDER map_pair_visit s
  (tree_rc_to_map_rc r.1, r.2)

/-- The function `map_remove`: the pair returned and the map after the call. -/
def map_remove {κ ν : Type} (map : Option (map_s κ ν)) (key : Option κ)
    (map_pair_compare : Option (pair_s κ ν → pair_s κ ν → Int)) :
    Option (Option (pair_s κ ν) × Option (map_s κ ν)) :=
  match map, key, map_pair_compare with
  | some _, some _, some _ => tree_remove map (some (pair_new key none)) map_pair_compare
  | _, _, _ => some (none, map)

/-- The function `map_clear`: the return code and the map after the call. -/
def map_clear {κ ν : Type} (map : Option (map_s κ ν)) (map_pair_destroy : Bool) :
    map_rc_e × Option (map_s κ ν) :=
  let r := tree_clear map map_pair_destroy
  (tree_rc_to_map_rc r.1, r.2)

/-- One call on a map: `map_insert`, `map_replace`, `map_remove` or `map_clear`.  The key
and the value may be `NULL`; the flags tell whether the comparator, respectively the
destructor, is supplied. -/
inductive map_op (κ ν : Type) where
  | insert (key : Option κ) (value : Option ν) (with_compare : Bool)
  | replace (key : Option κ) (new_value : Option ν) (with_compare : Bool)
  | remove (key : Option κ) (with_compare : Bool)
  | clear (with_destroy : Bool)
  deriving DecidableEq, Repr

/-- The map left by one call, with the fixed pair comparator `cmp` passed whenever the
call supplies a comparator. -/
def map_step {κ ν : Type} (cmp : pair_s κ ν → pair_s κ ν → Int) (map : Option (map_s κ ν)) :
    map_op κ ν → Option (Option (map_s κ ν))
  | .insert k v w => (map_insert map k v (if w then some cmp else none)).map Prod.snd
  | .replace k v w => some (map_replace map k v (if w then some cmp else none)).2
  | .remove k w => (map_remove map k (if w then some cmp else none)).map Prod.snd
  | .clear d => some (map_clear map d).2

/-- The map left by a sequence of calls, made one after the other. -/
def map_run {κ ν : Type} (cmp : pair_s κ ν → pair_s κ ν → Int) (map : Option (map_s κ ν)) :
    List (map_op κ ν) → Option (Option (map_s κ ν))
  | [] => some map
  | op :: ops => (map_step cmp map op).bind fun map' => map_run cmp map' ops

/-! ## singly-linked-list-node.c, singly-linked-list.c, stack.c, queue.c

The nodes of a circular list point to each other in a cycle, so they live in an explicit
heap: a node pointer is an address (`NULL` is `none`), the heap maps an address to the node
stored there (`none` for an address that is not allocated), and a read through a `NULL` or
dangling pointer is `none`.  `malloc` is assumed to succeed and returns an address never
used before (`brk`); `free` empties the cell. -/

/-- The `struct singly_linked_list_node`: the element pointer and the `next` pointer. -/
structure s_l_list_node_s (α : Type) where
  elem : Option α
  next : Option Nat
  deriving DecidableEq, Repr

/-- The heap of singly linked nodes: the cells and the first address never allocated. -/
structure s_l_heap (α : Type) where
  cells : Nat → Option (s_l_list_node_s α)
  brk : Nat

/-- A write of a node at an address. -/
def s_l_heap.store {α : Type} (h : s_l_heap α) (a : Nat) (node : s_l_list_node_s α) :
    s_l_heap α :=
  { h with cells := Function.update h.cells a (some node) }

/-- The call `free` on a node address. -/
def s_l_heap.free {α : Type} (h : s_l_heap α) (a : Nat) : s_l_heap α :=
  { h with cells := Function.update h.cells a none }

/-- The `struct singly_linked_list`: the pointer to the last node and the node count. -/
structure s_l_list_s where
  back : Option Nat
  count : Nat
  deriving DecidableEq, Repr

/-- The `enum singly_linked_list_rc`. -/
inductive s_l_list_rc_e where
  | S_L_LIST_RC_OK
  | S_L_LIST_RC_NULL
  | S_L_LIST_RC_EMPTY
  | S_L_LIST_RC_ELEM_NULL
  | S_L_LIST_RC_ELEM_CB_NULL
  | S_L_LIST_RC_NODE_ALLOC_ERR
  deriving DecidableEq, Repr

/-- The function `s_l_list_node_new`: a new node whose `next` pointer points to itself. -/
def s_l_list_node_new {α : Type} (h : s_l_heap α) (elem : Option α) :
    s_l_heap α × Option Nat :=
  ({ cells := Function.update h.cells h.brk (some { elem := elem, next := some h.brk }),
     brk := h.brk + 1 }, some h.brk)

/-- The function `s_l_list_init`. -/
def s_l_list_init (list : Option s_l_list_s) : Option s_l_list_s :=
  match list with
  | none => none
  | some _ => some { back := none, count := 0 }

/-- The function `s_l_list_new`. -/
def s_l_list_new : Option s_l_list_s :=
  s_l_list_init (some { back := none, count := 0 })

/-- The function `s_l_list_insert_front`: the return code, the heap and the list after
the call. -/
def s_l_list_insert_front {α : Type} (h : s_l_heap α) (list : Option s_l_list_s)
    (elem : Option α) : Option (s_l_list_rc_e × s_l_heap α × Option s_l_list_s) :=
  match list with
  | none => some (.S_L_LIST_RC_NULL, h, list)
  | some l =>
    match elem with
    | none => some (.S_L_LIST_RC_ELEM_NULL, h, list)
    | some _ =>
      match s_l_list_node_new h elem with
      | (h1, none) => some (.S_L_LIST_RC_NODE_ALLOC_ERR, h1, list)
      | (h1, some n) =>
        match l.back with
        | some b =>
          (h1.cells b).bind fun back_node =>
          (h1.cells n).bind fun new_node =>
          let h2 := h1.store n { new_node with next := back_node.next }
          (h2.cells b).bind fun back_node' =>
          let h3 := h2.store b { back_node' with next := some n }
          some (.S_L_LIST_RC_OK, h3, some { l with count := l.count + 1 })
        | none => some (.S_L_LIST_RC_OK, h1, some { back := some n, count := l.count + 1 })

/-- The function `s_l_list_insert_back`: the return code, the heap and the list after the
call. -/
def s_l_list_insert_back {α : Type} (h : s_l_heap α) (list : Option s_l_list_s)
    (elem : Option α) : Option (s_l_list_rc_e × s_l_heap α × Option s_l_list_s) :=
  match list with
  | none => some (.S_L_LIST_RC_NULL, h, list)
  | some l =>
    match elem with
    | none => some (.S_L_LIST_RC_ELEM_NULL, h, list)
    | some _ =>
      match s_l_list_node_new h elem with
      | (h1, none) => some (.S_L_LIST_RC_NODE_ALLOC_ERR, h1, list)
      | (h1, some n) =>
        match l.back with
        | some b =>
          (h1.cells b).bind fun back_node =>
          (h1.cells n).bind fun new_node =>
          let h2 := h1.store n { new_node with next := back_node.next }
          (h2.cells b).bind fun back_node' =>
          let h3 := h2.store b { back_node' with next := some n }
          some (.S_L_LIST_RC_OK, h3, some { back := some n, count := l.count + 1 })
        | none => some (.S_L_LIST_RC_OK, h1, some { back := some n, count := l.count + 1 })

/-- The function `s_l_list_remove_front`: the element returned, the heap and the list
after the call. -/
def s_l_list_remove_front {α : Type} (h : s_l_heap α) (list : Option s_l_list_s) :
    Option (Option α × s_l_heap α × Option s_l_list_s) :=
  match list with
  | none => some (none, h, list)
  | some l =>
    match l.back with
    | none => some (none, h, list)
    | some b =>
      (h.cells b).bind fun back_node =>
      if back_node.next = some b then
        some (back_node.elem, h.free b,
          some { back := none, count := size_t_decrement l.count })
      else
        back_node.next.bind fun f =>
        (h.cells f).bind fun front_node =>
        let tmp := front_node.next
        let h1 := (h.free f).store b { back_node with next := none }
        (h1.cells b).bind fun back_node' =>
        let h2 := h1.store b { back_node' with next := tmp }
        some (front_node.elem, h2, some { l with count := size_t_decrement l.count })

/-- The `enum stack_rc` of stack.h. -/
inductive stack_rc_e where
  | STACK_RC_OK
  | STACK_RC_NULL
  | STACK_RC_EMPTY
  | STACK_RC_ELEM_NULL
  | STACK_RC_ELEM_CB_NULL
  | STACK_RC_NODE_ALLOC_ERR
  deriving DecidableEq, Repr

/-- The function `s_l_list_rc_to_stack_rc` of stack.c. -/
def s_l_list_rc_to_stack_rc : s_l_list_rc_e → stack_rc_e
  | .S_L_LIST_RC_OK => .STACK_RC_OK
  | .S_L_LIST_RC_EMPTY => .STACK_RC_EMPTY
  | .S_L_LIST_RC_ELEM_NULL => .STACK_RC_ELEM_NULL
  | .S_L_LIST_RC_ELEM_CB_NULL => .STACK_RC_ELEM_CB_NULL
  | .S_L_LIST_RC_NODE_ALLOC_ERR => .STACK_RC_NODE_ALLOC_ERR
  | .S_L_LIST_RC_NULL => .STACK_RC_NULL

/-- The function `stack_new`. -/
def stack_new : Option s_l_list_s := s_l_list_new

/-- The function `stack_push`. -/
def stack_push {α : Type} (h : s_l_heap α) (stack : Option s_l_list_s) (elem : Option α) :
    Option (stack_rc_e × s_l_heap α × Option s_l_list_s) :=
  (s_l_list_insert_front h stack elem).map fun r => (s_l_list_rc_to_stack_rc r.1, r.2)

/-- The function `stack_count`. -/
def stack_count (stack : Option s_l_list_s) : Nat :=
  match stack with
  | none => 0
  | some s => s.count

/-- The function `stack_pick`: it reads the heap and writes nothing. -/
def stack_pick {α : Type} (h : s_l_heap α) (stack : Option s_l_list_s) : Option (Option α) :=
  match stack with
  | none => some none
  | some l =>
    match l.back with
    | none => some none
    | some b =>
      (h.cells b).bind fun back_node =>
      back_node.next.bind fun f =>
      (h.cells f).bind fun front_node => some front_node.elem

/-- The function `stack_pop`. -/
def stack_pop {α : Type} (h : s_l_heap α) (stack : Option s_l_list_s) :
    Option (Option α × s_l_heap α × Option s_l_list_s) :=
  s_l_list_remove_front h stack

/-- The `enum queue_rc` of queue.h. -/
inductive queue_rc_e where
  | QUEUE_RC_OK
  | QUEUE_RC_NULL
  | QUEUE_RC_EMPTY
  | QUEUE_RC_ELEM_NULL
  | QUEUE_RC_ELEM_CB_NULL
  | QUEUE_RC_NODE_ALLOC_ERR
  deriving DecidableEq, Repr

/-- The function `s_l_list_rc_to_queue_rc` of queue.c. -/
def s_l_list_rc_to_queue_rc : s_l_list_rc_e → queue_rc_e
  | .S_L_LIST_RC_OK => .QUEUE_RC_OK
  | .S_L_LIST_RC_EMPTY => .QUEUE_RC_EMPTY
  | .S_L_LIST_RC_ELEM_NULL => .QUEUE_RC_ELEM_NULL
  | .S_L_LIST_RC_ELEM_CB_NULL => .QUEUE_RC_ELEM_CB_NULL
  | .S_L_LIST_RC_NODE_ALLOC_ERR => .QUEUE_RC_NODE_ALLOC_ERR
  | .S_L_LIST_RC_NULL => .QUEUE_RC_NULL

/-- The function `queue_new`. -/
def queue_new : Option s_l_list_s := s_l_list_new

/-- The function `queue_enqueue`. -/
def queue_enqueue {α : Type} (h : s_l_heap α) (queue : Option s_l_list_s) (elem : Option α) :
    Option (queue_rc_e × s_l_heap α × Option s_l_list_s) :=
  (s_l_list_insert_back h queue elem).map fun r => (s_l_list_rc_to_queue_rc r.1, r.2)

/-- The function `queue_count`. -/
def queue_count (queue : Option s_l_list_s) : Nat :=
  match queue with
  | none => 0
  | some q => q.count

/-- The function `queue_pick`: it reads the heap and writes nothing. -/
def queue_pick {α : Type} (h : s_l_heap α) (queue : Option s_l_list_s) : Option (Option α) :=
  match queue with
  | none => some none
  | some l =>
    match l.back with
    | none => some none
    | some b =>
      (h.cells b).bind fun back_node =>
      back_node.next.bind fun f =>
      (h.cells f).bind fun front_node => some front_node.elem

/-- The function `queue_dequeue`. -/
def queue_dequeue {α : Type} (h : s_l_heap α) (queue : Option s_l_list_s) :
    Option (Option α × s_l_heap α × Option s_l_list_s) :=
  s_l_list_remove_front h queue

/-! ## doubly-linked-list-node.c, doubly-linked-list.c, deque.c

The same heap model as for the singly linked list, with nodes that also carry a `prev`
pointer.  Each C statement reads the heap as the statements before it left it. -/

/-- The `struct doubly_linked_list_node`: the element pointer, `prev` and `next`. -/
structure d_l_list_node_s (α : Type) where
  elem : Option α
  prev : Option Nat
  next : Option Nat
  deriving DecidableEq, Repr

/-- The heap of doubly linked nodes: the cells and the first address never allocated. -/
structure d_l_heap (α : Type) where
  cells : Nat → Option (d_l_list_node_s α)
  brk : Nat

/-- A write of a node at an address. -/
def d_l_heap.store {α : Type} (h : d_l_heap α) (a : Nat) (node : d_l_list_node_s α) :
    d_l_heap α :=
  { h with cells := Function.update h.cells a (some node) }

/-- The call `free` on a node address. -/
def d_l_heap.free {α : Type} (h : d_l_heap α) (a : Nat) : d_l_heap α :=
  { h with cells := Function.update h.cells a none }

/-- The `struct doubly_linked_list`: the pointer to the first node and the node count. -/
structure d_l_list_s where
  front : Option Nat
  count : Nat
  deriving DecidableEq, Repr

/-- The `enum doubly_linked_list_rc`. -/
inductive d_l_list_rc_e where
  | D_L_LIST_RC_OK
  | D_L_LIST_RC_NULL
  | D_L_LIST_RC_EMPTY
  | D_L_LIST_RC_ELEM_NULL
  | D_L_LIST_RC_ELEM_CB_NULL
  | D_L_LIST_RC_NODE_ALLOC_ERR
  deriving DecidableEq, Repr

/-- The function `d_l_list_node_new`: a new node whose `prev` and `next` pointers point to
itself. -/
def d_l_list_node_new {α : Type} (h : d_l_heap α) (elem : Option α) :
    d_l_heap α × Option Nat :=
  ({ cells := Function.update h.cells h.brk
       (some { elem := elem, prev := some h.brk, next := some h.brk }),
     brk := h.brk + 1 }, some h.brk)

/-- The function `d_l_list_init`. -/
def d_l_list_init (list : Option d_l_list_s) : Option d_l_list_s :=
  match list with
  | none => none
  | some _ => some { front := none, count := 0 }

/-- The function `d_l_list_new`. -/
def d_l_list_new : Option d_l_list_s :=
  d_l_list_init (some { front := none, count := 0 })

/-- The four statements that link the new node `n` in front of the node `f`:
`new_node->prev = list->front->prev; new_node->next = list->front;
list->front->prev->next = new_node; list->front->prev = new_node;`. -/
def d_l_list_link_before {α : Type} (h1 : d_l_heap α) (f n : Nat) : Option (d_l_heap α) :=
  (h1.cells f).bind fun front_node =>
  (h1.cells n).bind fun new_node =>
  let h2 := h1.store n { new_node with prev := front_node.prev }
  (h2.cells n).bind fun new_node' =>
  let h3 := h2.store n { new_node' with next := some f }
  (h3.cells f).bind fun front_node' =>
  front_node'.prev.bind fun p =>
  (h3.cells p).bind fun prev_node =>
  let h4 := h3.store p { prev_node with next := some n }
  (h4.cells f).bind fun front_node'' =>
  some (h4.store f { front_node'' with prev := some n })

/-- The function `d_l_list_insert_front`: the return code, the heap and the list after
the call. -/
def d_l_list_insert_front {α : Type} (h : d_l_heap α) (list : Option d_l_list_s)
    (elem : Option α) : Option (d_l_list_rc_e × d_l_heap α × Option d_l_list_s) :=
  match list with
  | none => some (.D_L_LIST_RC_NULL, h, list)
  | some l =>
    match elem with
    | none => some (.D_L_LIST_RC_ELEM_NULL, h, list)
    | some _ =>
      match d_l_list_node_new h elem with
      | (h1, none) => some (.D_L_LIST_RC_NODE_ALLOC_ERR, h1, list)
      | (h1, some n) =>
        match l.front with
        | some f =>
          (d_l_list_link_before h1 f n).bind fun h5 =>
          some (.D_L_LIST_RC_OK, h5, some { front := some n, count := l.count + 1 })
        | none => some (.D_L_LIST_RC_OK, h1, some { front := some n, count := l.count + 1 })

/-- The function `d_l_list_insert_back`: the return code, the heap and the list after the
call. -/
def d_l_list_insert_back {α : Type} (h : d_l_heap α) (list : Option d_l_list_s)
    (elem : Option α) : Option (d_l_list_rc_e × d_l_heap α × Option d_l_list_s) :=
  match list with
  | none => some (.D_L_LIST_RC_NULL, h, list)
  | some l =>
    match elem with
    | none => some (.D_L_LIST_RC_ELEM_NULL, h, list)
    | some _ =>
      match d_l_list_node_new h elem with
      | (h1, none) => some (.D_L_LIST_RC_NODE_ALLOC_ERR, h1, list)
      | (h1, some n) =>
        match l.front with
        | some f =>
          (d_l_list_link_before h1 f n).bind fun h5 =>
          some (.D_L_LIST_RC_OK, h5, some { l with count := l.count + 1 })
        | none => some (.D_L_LIST_RC_OK, h1, some { front := some n, count := l.count + 1 })

/-- The function `d_l_list_remove_back`: the element returned, the heap and the list
after the call. -/
def d_l_list_remove_back {α : Type} (h : d_l_heap α) (list : Option d_l_list_s) :
    Option (Option α × d_l_heap α × Option d_l_list_s) :=
  match list with
  | none => some (none, h, list)
  | some l =>
    match l.front with
    | none => some (none, h, list)
    | some f =>
      (h.cells f).bind fun front_node =>
      if some f = front_node.next ∧ some f = front_node.prev then
        some (front_node.elem, h.free f,
          some { front := none, count := size_t_decrement l.count })
      else
        front_node.prev.bind fun tmp =>
        (h.cells tmp).bind fun tmp_node =>
        tmp_node.prev.bind fun tmp_prev =>
        (h.cells tmp_prev).bind fun tmp_prev_node =>
        let h1 := h.store tmp_prev { tmp_prev_node with next := tmp_node.next }
        (h1.cells tmp).bind fun tmp_node' =>
        tmp_node'.next.bind fun tmp_next =>
        (h1.cells tmp_next).bind fun tmp_next_node =>
        let h2 := h1.store tmp_next { tmp_next_node with prev := tmp_node'.prev }
        (h2.cells tmp).bind fun tmp_node'' =>
        some (tmp_node''.elem, h2.free tmp,
          some { l with count := size_t_decrement l.count })

/-- The function `d_l_list_remove_front`: `list->front = list->front->next`, then
`d_l_list_remove_back`. -/
def d_l_list_remove_front {α : Type} (h : d_l_heap α) (list : Option d_l_list_s) :
    Option (Option α × d_l_heap α × Option d_l_list_s) :=
  match list with
  | none => some (none, h, list)
  | some l =>
    match l.front with
    | none => some (none, h, list)
    | some f =>
      (h.cells f).bind fun front_node =>
      d_l_list_remove_back h (some { l with front := front_node.next })

/-- The `enum deque_rc` of deque.h. -/
inductive deque_rc_e where
  | DEQUE_RC_OK
  | DEQUE_RC_NULL
  | DEQUE_RC_EMPTY
  | DEQUE_RC_ELEM_NULL
  | DEQUE_RC_ELEM_CB_NULL
  | DEQUE_RC_NODE_ALLOC_ERR
  deriving DecidableEq, Repr

/-- The function `d_l_list_rc_to_deque_rc` of deque.c. -/
def d_l_list_rc_to_deque_rc : d_l_list_rc_e → deque_rc_e
  | .D_L_LIST_RC_OK => .DEQUE_RC_OK
  | .D_L_LIST_RC_EMPTY => .DEQUE_RC_EMPTY
  | .D_L_LIST_RC_ELEM_NULL => .DEQUE_RC_ELEM_NULL
  | .D_L_LIST_RC_ELEM_CB_NULL => .DEQUE_RC_ELEM_CB_NULL
  | .D_L_LIST_RC_NODE_ALLOC_ERR => .DEQUE_RC_NODE_ALLOC_ERR
  | .D_L_LIST_RC_NULL => .DEQUE_RC_NULL

/-- The function `deque_new`. -/
def deque_new : Option d_l_list_s := d_l_list_new

/-- The function `deque_push_front`. -/
def deque_push_front {α : Type} (h : d_l_heap α) (deque : Option d_l_list_s)
    (elem : Option α) : Option (deque_rc_e × d_l_heap α × Option d_l_list_s) :=
  (d_l_list_insert_front h deque elem).map fun r => (d_l_list_rc_to_deque_rc r.1, r.2)

/-- The function `deque_push_back`. -/
def deque_push_back {α : Type} (h : d_l_heap α) (deque : Option d_l_list_s)
    (elem : Option α) : Option (deque_rc_e × d_l_heap α × Option d_l_list_s) :=
  (d_l_list_insert_back h deque elem).map fun r => (d_l_list_rc_to_deque_rc r.1, r.2)

/-- The function `deque_count`. -/
def deque_count (deque : Option d_l_list_s) : Nat :=
  match deque with
  | none => 0
  | some d => d.count

/-- The function `deque_pick_front`: it reads the heap and writes nothing. -/
def deque_pick_front {α : Type} (h : d_l_heap α) (deque : Option d_l_list_s) :
    Option (Option α) :=
  match deque with
  | none => some none
  | some d =>
    match d.front with
    | none => some none
    | some f => (h.cells f).bind fun front_node => some front_node.elem

/-- The function `deque_pick_back`: it reads the heap and writes nothing. -/
def deque_pick_back {α : Type} (h : d_l_heap α) (deque : Option d_l_list_s) :
    Option (Option α) :=
  match deque with
  | none => some none
  | some d =>
    match d.front with
    | none => some none
    | some f =>
      (h.cells f).bind fun front_node =>
      front_node.prev.bind fun b =>
      (h.cells b).bind fun back_node => some back_node.elem

/-- The function `deque_pop_front`. -/
def deque_pop_front {α : Type} (h : d_l_heap α) (deque : Option d_l_list_s) :
    Option (Option α × d_l_heap α × Option d_l_list_s) :=
  d_l_list_remove_front h deque

/-- The function `deque_pop_back`. -/
def deque_pop_back {α : Type} (h : d_l_heap α) (deque : Option d_l_list_s) :
    Option (Option α × d_l_heap α × Option d_l_list_s) :=
  d_l_list_remove_back h deque

/-! ## array-node.c, array.c

The block `elems` of node pointers is a function from the index to the pointer stored
there (`none` for `NULL`).  Every node belongs to one slot only, so a slot holds the node
itself.  `malloc` is assumed to succeed.  The positions are C `int`s and the count is a
`size_t`: the cast `(int)a->count` is the usual one of a 64-bit platform, the value modulo
`2^32` read as a signed 32-bit number. -/

/-- The `struct array_node`: the element pointer. -/
structure array_node_s (α : Type) where
  elem : Option α
  deriving DecidableEq, Repr

/-- The `struct array`: the capacity, the block of node pointers and the element count. -/
structure array_s (α : Type) where
  length : Nat
  elems : Nat → Option (array_node_s α)
  count : Nat

/-- The `enum array_rc`. -/
inductive array_rc_e where
  | ARRAY_RC_OK
  | ARRAY_RC_NULL
  | ARRAY_RC_EMPTY
  | ARRAY_RC_FULL
  | ARRAY_RC_INVALID_POS
  | ARRAY_RC_ELEM_NULL
  | ARRAY_RC_ELEM_CB_NULL
  | ARRAY_RC_NODE_ALLOC_ERR
  deriving DecidableEq, Repr

/-- The largest `int`. -/
def INT_MAX : Int := 2 ^ 31 - 1

/-- The smallest `int`. -/
def INT_MIN : Int := -(2 ^ 31)

/-- The cast `(int)` of a `size_t`. -/
def size_t_to_int (n : Nat) : Int :=
  if n % 2 ^ 32 < 2 ^ 31 then ((n % 2 ^ 32 : Nat) : Int) else ((n % 2 ^ 32 : Nat) : Int) - 2 ^ 32

/-- The function `array_node_new`. -/
def array_node_new {α : Type} (elem : Option α) : Option (array_node_s α) :=
  some { elem := elem }

/-- The function `array_node_destroy` on a slot: the element returned and the slot after
the call. -/
def array_node_destroy {α : Type} (node : Option (array_node_s α)) :
    Option α × Option (array_node_s α) :=
  match node with
  | none => (none, none)
  | some n => (n.elem, none)

/-- The function `array_init`: `calloc` fills the block with `NULL`. -/
def array_init {α : Type} (a : Option (array_s α)) (length : Nat) : Option (array_s α) :=
  match a with
  | none => none
  | some _ => some { length := length, elems := fun _ => none, count := 0 }

/-- The function `array_new`. -/
def array_new {α : Type} (length : Nat) : Option (array_s α) :=
  array_init (some { length := 0, elems := fun _ => none, count := 0 }) length

/-- The function `array_count`. -/
def array_count {α : Type} (a : Option (array_s α)) : Nat :=
  match a with
  | none => 0
  | some arr => arr.count

/-- The loop `for (int i = ...; i > pos; i--) a->elems[i] = a->elems[i - 1];` of
`array_push_at`, from the value of `i` given. -/
def array_push_at_loop {α : Type} (pos : Int) :
    (Nat → Option (array_node_s α)) → Nat → (Nat → Option (array_node_s α))
  | elems, 0 => elems
  | elems, i + 1 =>
    if pos < ((i + 1 : Nat) : Int) then
      array_push_at_loop pos (Function.update elems (i + 1) (elems i)) i
    else elems

/-- The function `array_push_at`: the return code and the array after the call. -/
def array_push_at {α : Type} (a : Option (array_s α)) (elem : Option α) (pos : Int) :
    array_rc_e × Option (array_s α) :=
  match a with
  | none => (.ARRAY_RC_NULL, none)
  | some arr =>
    if arr.count = arr.length then (.ARRAY_RC_FULL, a)
    else if pos < 0 ∨ pos > size_t_to_int arr.count then (.ARRAY_RC_INVALID_POS, a)
    else
      let elems := array_push_at_loop pos arr.elems (size_t_to_int arr.count).toNat
      (.ARRAY_RC_OK,
        some { arr with
          elems := Function.update elems pos.toNat (array_node_new elem)
          count := arr.count + 1 })

/-- The loop `for (int i = pos; i < (int)a->count - 1; i++) a->elems[i] = a->elems[i + 1];`
of `array_pop_at`: from the value of `i` given, the number of rounds still to run. -/
def array_pop_at_loop {α : Type} :
    (Nat → Option (array_node_s α)) → Nat → Nat → (Nat → Option (array_node_s α))
  | elems, _, 0 => elems
  | elems, i, rounds + 1 =>
    array_pop_at_loop (Function.update elems i (elems (i + 1))) (i + 1) rounds

/-- The function `array_pop_at`: the element returned and the array after the call.  The
result is `none` when `(int)a->count - 1` overflows, which is undefined behaviour. -/
def array_pop_at {α : Type} (a : Option (array_s α)) (pos : Int) :
    Option (Option α × Option (array_s α)) :=
  match a with
  | none => some (none, none)
  | some arr =>
    if arr.count < 1 ∨ pos < 0 then some (none, a)
    else if size_t_to_int arr.count = INT_MIN then none
    else if pos > size_t_to_int arr.count - 1 then some (none, a)
    else
      let destroyed := array_node_destroy (arr.elems pos.toNat)
      let elems1 := Function.update arr.elems pos.toNat destroyed.2
      let elems2 :=
        array_pop_at_loop elems1 pos.toNat (size_t_to_int arr.count - 1 - pos).toNat
      some (destroyed.1,
        some { arr with
          elems := Function.update elems2 (arr.count - 1) none
          count := arr.count - 1 })

/-- The function `array_push_back`: the return code and the array after the call. -/
def array_push_back {α : Type} (a : Option (array_s α)) (elem : Option α) :
    array_rc_e × Option (array_s α) :=
  match a with
  | none => (.ARRAY_RC_NULL, none)
  | some arr =>
    if arr.count = arr.length then (.ARRAY_RC_FULL, a)
    else
      (.ARRAY_RC_OK,
        some { arr with
          elems := Function.update arr.elems arr.count (array_node_new elem)
          count := arr.count + 1 })

/-- The function `array_push_front`: the return code and the array after the call.  Its
loop is the loop of `array_push_at` with 0 for `pos`; it does not run when `(int)a->count`
is negative. -/
def array_push_front {α : Type} (a : Option (array_s α)) (elem : Option α) :
    array_rc_e × Option (array_s α) :=
  match a with
  | none => (.ARRAY_RC_NULL, none)
  | some arr =>
    if arr.count = arr.length then (.ARRAY_RC_FULL, a)
    else
      let elems := array_push_at_loop 0 arr.elems (size_t_to_int arr.count).toNat
      (.ARRAY_RC_OK,
        some { arr with
          elems := Function.update elems 0 (array_node_new elem)
          count := arr.count + 1 })

/-- The function `array_pop_back`: the element returned and the array after the call. -/
def array_pop_back {α : Type} (a : Option (array_s α)) : Option α × Option (array_s α) :=
  match a with
  | none => (none, none)
  | some arr =>
    if arr.count < 1 then (none, a)
    else
      let destroyed := array_node_destroy (arr.elems (arr.count - 1))
      (destroyed.1,
        some { arr with
          elems := Function.update arr.elems (arr.count - 1) destroyed.2
          count := arr.count - 1 })

/-- The function `array_pop_front`: the element returned and the array after the call.
The result is `none` when `(int)a->count - 1` overflows, which is undefined behaviour. -/
def array_pop_front {α : Type} (a : Option (array_s α)) :
    Option (Option α × Option (array_s α)) :=
  match a with
  | none => some (none, none)
  | some arr =>
    if arr.count < 1 then some (none, a)
    else if size_t_to_int arr.count = INT_MIN then none
    else
      let destroyed := array_node_destroy (arr.elems 0)
      let elems1 := Function.update arr.elems 0 destroyed.2
      let elems2 := array_pop_at_loop elems1 0 (size_t_to_int arr.count - 1 - 0).toNat
      some (destroyed.1,
        some { arr with
          elems := Function.update elems2 (arr.count - 1) none
          count := arr.count - 1 })

/-- The function `array_clear`: the return code and the array after the call; the flag
tells whether the destructor is supplied.  The loop empties the slots of the indices
below `(int)a->count`. -/
def array_clear {α : Type} (a : Option (array_s α)) (elem_destroy : Bool) :
    array_rc_e × Option (array_s α) :=
  match a with
  | none => (.ARRAY_RC_NULL, none)
  | some arr =>
    if arr.count = 0 then (.ARRAY_RC_EMPTY, a)
    else
      ((if elem_destroy then .ARRAY_RC_OK else .ARRAY_RC_ELEM_CB_NULL),
        some { arr with
          elems := fun i => if (i : Int) < size_t_to_int arr.count then none else arr.elems i
          count := 0 })

/-! ## Sequences of calls on one array -/

/-- One call that can change the count of an array. -/
inductive array_op (α : Type) where
  | push_back (elem : Option α)
  | push_front (elem : Option α)
  | push_at (elem : Option α) (pos : Int)
  | pop_back
  | pop_front
  | pop_at (pos : Int)
  | clear (with_destroy : Bool)

/-- The array left by one call; `none` when the call has undefined behaviour. -/
def array_step {α : Type} (a : Option (array_s α)) : array_op α → Option (Option (array_s α))
  | .push_back e => some (array_push_back a e).2
  | .push_front e => some (array_push_front a e).2
  | .push_at e pos => some (array_push_at a e pos).2
  | .pop_back => some (array_pop_back a).2
  | .pop_front => (array_pop_front a).map Prod.snd
  | .pop_at pos => (array_pop_at a pos).map Prod.snd
  | .clear d => some (array_clear a d).2

/-- The array left by a sequence of calls, made one after the other. -/
def array_run {α : Type} (a : Option (array_s α)) :
    List (array_op α) → Option (Option (array_s α))
  | [] => some a
  | op :: ops => (array_step a op).bind fun a' => array_run a' ops

/-! ## Sequences of calls on one tree -/

/-- One call on a tree: `tree_insert`, `tree_remove` or `tree_clear`.  The element may be
`NULL`; the flags tell whether the comparator, respectively the destructor, is supplied. -/
inductive tree_op (α : Type) where
  | insert (elem : Option α) (with_compare : Bool)
  | remove (elem : Option α) (with_compare : Bool)
  | clear (with_destroy : Bool)
  deriving DecidableEq, Repr

/-- The tree left by one call, with the fixed comparator `cmp` passed whenever the call
supplies a comparator. -/
def tree_step {α : Type} (cmp : α → α → Int) (tree : Option (tree_s α)) :
    tree_op α → Option (Option (tree_s α))
  | .insert e w => (tree_insert tree e (if w then some cmp else none)).map Prod.snd
  | .remove e w => (tree_remove tree e (if w then some cmp else none)).map Prod.snd
  | .clear d => some (tree_clear tree d).2

/-- The tree left by a sequence of calls, made one after the other. -/
def tree_run {α : Type} (cmp : α → α → Int) (tree : Option (tree_s α)) :
    List (tree_op α) → Option (Option (tree_s α))
  | [] => some tree
  | op :: ops => (tree_step cmp tree op).bind fun tree' => tree_run cmp tree' ops

/-! ## Specification vocabulary -/

/-- The elements of a subtree in in-order: left subtree, node, right subtree. -/
def inorder {α : Type} : tree_node_s α → List α
  | .null => []
  | .node x _ _ l r => inorder l ++ x :: inorder r

/-- The number of nodes reachable from a node pointer. -/
def node_count {α : Type} : tree_node_s α → Nat
  | .null => 0
  | .node _ _ _ l r => node_count l + 1 + node_count r

/-- The true height of a subtree: `-1` for an absent subtree, `0` for a leaf. -/
def true_height {α : Type} : tree_node_s α → Int
  | .null => -1
  | .node _ _ _ l r => 1 + max (true_height l) (true_height r)

/-- A property of nodes holds at every node reachable from `root`. -/
def every_node {α : Type} (p : tree_node_s α → Prop) : tree_node_s α → Prop
  | .null => True
  | .node x b h l r => p (.node x b h l r) ∧ every_node p l ∧ every_node p r

/-- The stored height of a node is `1 + max` of the stored heights of its children,
an absent child counting as `-1`. -/
def height_correct {α : Type} : tree_node_s α → Prop
  | .null => True
  | .node _ _ h l r => h = 1 + max (node_height l) (node_height r)

/-- The stored balance factor of a node is `-1`, `0` or `+1` and is the true height of the
right subtree minus the true height of the left subtree. -/
def balance_correct {α : Type} : tree_node_s α → Prop
  | .null => True
  | .node _ b _ l r => (b = -1 ∨ b = 0 ∨ b = 1) ∧ b = true_height r - true_height l

/-- The AVL invariant on stored fields, at every node of the subtree: the stored height
and balance factor agree with the stored heights of the children, and the balance
factor is between `-1` and `1`. -/
def avl {α : Type} : tree_node_s α → Prop
  | .null => True
  | .node _ b h l r =>
    h = 1 + max (node_height l) (node_height r) ∧ b = node_height r - node_height l
      ∧ -1 ≤ b ∧ b ≤ 1 ∧ avl l ∧ avl r

/-- A consistent three-way comparator: `compare a b` is positive when `b` is greater
than `a`, negative when `b` is lesser, and the relation "`b` is not lesser than `a`" is a
total preorder. -/
structure consistent {α : Type} (cmp : α → α → Int) : Prop where
  antisymm : ∀ a b, cmp a b < 0 ↔ 0 < cmp b a
  trans : ∀ a b c, 0 ≤ cmp a b → 0 ≤ cmp b c → 0 ≤ cmp a c

/-- The ordering invariant: in the in-order sequence no element is followed, at any
distance, by a lesser one. -/
def ordered {α : Type} (cmp : α → α → Int) (root : tree_node_s α) : Prop :=
  (inorder root).Pairwise fun x y => 0 ≤ cmp x y

/-- The ordering invariant of a tree without duplicates: every element is followed only
by greater ones. -/
def strictly_ordered {α : Type} (cmp : α → α → Int) (root : tree_node_s α) : Prop :=
  (inorder root).Pairwise fun x y => 0 < cmp x y

/-- The invariants of the data model, for a tree used with the comparator `cmp`: the
AVL invariant on the stored heights and balance factors, the ordering invariant (strict
when duplicates are disallowed), and `count` equal to the number of nodes. -/
structure tree_invariant {α : Type} (cmp : α → α → Int) (t : tree_s α) : Prop where
  balanced : avl t.root
  sorted : ordered cmp t.root
  strict : t.allow_duplicates = false → strictly_ordered cmp t.root
  counted : t.count = node_count t.root

/-- The visitor that records the elements it is applied to, in the order of the calls. -/
def record_visit {α : Type} : List α → α → List α := fun visited x => visited ++ [x]

/-! ## The numbers of the test programs (test/number/number.c) -/

/-- An element of the tests: the address returned by `number_new` and the `int` stored
there.  Two numbers with the same value are different elements. -/
structure number where
  addr : Nat
  value : Int
  deriving DecidableEq, Repr

/-- The function `number_compare` on two non-null numbers: `*n2 - *n1` (the tree never
passes a `NULL` element or probe to the comparator). -/
def number_compare (n1 n2 : number) : Int := n2.value - n1.value

/-- The calls that insert the elements of a list one after the other, each with the
comparator. -/
def insert_all {α : Type} (elems : List α) : List (tree_op α) :=
  elems.map fun e => tree_op.insert (some e) true

/-- The tree of Scenario A of tree-test.c: the numbers 5, 10, ..., 35 inserted in that
order; 20 is at the root. -/
def scenario_a : tree_s number :=
  { root :=
      .node ⟨4, 20⟩ 0 2
        (.node ⟨2, 10⟩ 0 1 (.node ⟨1, 5⟩ 0 0 .null .null) (.node ⟨3, 15⟩ 0 0 .null .null))
        (.node ⟨6, 30⟩ 0 1 (.node ⟨5, 25⟩ 0 0 .null .null) (.node ⟨7, 35⟩ 0 0 .null .null)),
    allow_duplicates := false,
    count := 7 }

/-- The element inserted first among the elements of `elems` (listed in insertion
order) that compare equal to the probe. -/
def first_inserted {α : Type} (cmp : α → α → Int) (elems : List α) (probe : α) : Option α :=
  elems.find? fun x => decide (cmp x probe = 0)

/-- The tree with duplicates allowed after three numbers of value 7 were inserted, at
the addresses 1, 2 and 3 in that order: the left rotation put the second one at the root. -/
def three_sevens : tree_s number :=
  { root := .node ⟨2, 7⟩ 0 1 (.node ⟨1, 7⟩ 0 0 .null .null) (.node ⟨3, 7⟩ 0 0 .null .null),
    allow_duplicates := true,
    count := 3 }

/-- The tree `three_sevens` after `tree_remove` with a probe of value 7: the root node
now holds the successor's element and the successor's node is gone. -/
def two_sevens : tree_s number :=
  { root := .node ⟨3, 7⟩ (-1) 1 (.node ⟨1, 7⟩ 0 0 .null .null) .null,
    allow_duplicates := true,
    count := 2 }

/-- The calls `tree_insert` of each element of a list in turn, on a non-null tree with
the comparator: the return code of each call with the value of `count` after it, and the
tree after the last call. -/
def insert_each {α : Type} (cmp : α → α → Int) :
    tree_s α → List α → Option (List (tree_rc_e × Nat) × tree_s α)
  | t, [] => some ([], t)
  | t, e :: es =>
    match tree_insert (some t) (some e) (some cmp) with
    | some (rc, some t') =>
      (insert_each cmp t' es).map fun r => ((rc, t'.count) :: r.1, r.2)
    | _ => none

/-- The calls `tree_remove` with each probe of a list in turn, on a non-null tree with
the comparator: the element returned by each call with the value of `count` after it,
and the tree after the last call. -/
def remove_each {α : Type} (cmp : α → α → Int) :
    tree_s α → List α → Option (List (Option α × Nat) × tree_s α)
  | t, [] => some ([], t)
  | t, p :: ps =>
    match tree_remove (some t) (some p) (some cmp) with
    | some (removed, some t') =>
      (remove_each cmp t' ps).map fun r => ((removed, t'.count) :: r.1, r.2)
    | _ => none

/-- The element stored in the root node, if there is a root node. -/
def root_elem {α : Type} (t : tree_s α) : Option α :=
  match t.root with
  | .null => none
  | .node x _ _ _ _ => some x

/-- The elements of a subtree in pre-order: node, left subtree, right subtree. -/
def preorder {α : Type} : tree_node_s α → List α
  | .null => []
  | .node x _ _ l r => x :: (preorder l ++ preorder r)

/-- The elements of a subtree in post-order: left subtree, right subtree, node. -/
def postorder {α : Type} : tree_node_s α → List α
  | .null => []
  | .node x _ _ l r => postorder l ++ postorder r ++ [x]

/-- The elements of a subtree in the requested traversal order. -/
def elements_in {α : Type} (order : tree_traversal_e) (root : tree_node_s α) : List α :=
  match order with
  | .TREE_TRAVERSAL_PREORDER => preorder root
  | .TREE_TRAVERSAL_INORDER => inorder root
  | .TREE_TRAVERSAL_POSTORDER => postorder root

/-- A pair comparator that looks at the key fields only, as map.h requires. -/
def compares_keys {κ ν : Type} (cmp : pair_s κ ν → pair_s κ ν → Int) : Prop :=
  ∀ (p q : pair_s κ ν) (v w : Option ν), cmp ⟨p.key, v⟩ ⟨q.key, w⟩ = cmp p q

/-- The function `fruit_compare` of test/fruit/fruit.c; a fruit is an `int`-sized cell,
modelled like a number, and a `NULL` fruit counts as the value 0. -/
def fruit_compare (f1 f2 : Option number) : Int :=
  match f1, f2 with
  | none, none => 0
  | some a, none => -a.value
  | none, some b => b.value
  | some a, some b => b.value - a.value

/-- The function `fruits_numbers_pair_compare` of map-test.c on two non-null pairs. -/
def fruits_numbers_pair_compare (p1 p2 : pair_s number number) : Int :=
  fruit_compare p1.key p2.key

/-- A map of the tests with three pairs: the keys 1, 3 and 31 bound to the numbers 18,
32 and 25. -/
def fruits_to_numbers : map_s number number :=
  { root :=
      .node ⟨some ⟨12, 3⟩, some ⟨13, 32⟩⟩ 0 1
        (.node ⟨some ⟨10, 1⟩, some ⟨11, 18⟩⟩ 0 0 .null .null)
        (.node ⟨some ⟨14, 31⟩, some ⟨15, 25⟩⟩ 0 0 .null .null),
    allow_duplicates := false,
    count := 3 }

/-- The tree of part 4 of tree-test.c after its first seven insertions: the tree of
Scenario A with duplicates allowed. -/
def scenario_a_duplicates : tree_s number :=
  { scenario_a with allow_duplicates := true }

/-- The node structure of a subtree: the tree with its elements erased, stored heights
and balance factors kept. -/
def tree_shape {α : Type} : tree_node_s α → tree_node_s Unit
  | .null => .null
  | .node _ b h l r => .node () b h (tree_shape l) (tree_shape r)

/-! ## Circular singly linked lists as sequences -/

/-- The nodes at the addresses `as` hold the elements `xs` in this order, each node linked
to the node at the following address and the last node linked to `stop`. -/
def s_l_chain {α : Type} (cells : Nat → Option (s_l_list_node_s α)) :
    List Nat → List α → Nat → Prop
  | [], [], _ => True
  | a :: as, x :: xs, stop =>
    cells a = some { elem := some x, next := some (as.headD stop) } ∧ s_l_chain cells as xs stop
  | _, _, _ => False

/-- The list structure `l` on the heap `h` holds the sequence `xs`, front first: its nodes
are distinct allocated nodes linked in a cycle, `back` points to the last one (it is `NULL`
for the empty sequence) and `count` is the length. -/
def s_l_list_repr {α : Type} (h : s_l_heap α) (l : s_l_list_s) (xs : List α) : Prop :=
  l.count = xs.length ∧
  ∃ as : List Nat, as.Nodup ∧ (∀ a ∈ as, a < h.brk) ∧ l.back = as.getLast? ∧
    s_l_chain h.cells as xs (as.headD 0)

/-- Calls of `stack_push` with the given elements, one after the other. -/
def stack_push_each {α : Type} :
    s_l_heap α → Option s_l_list_s → List α → Option (s_l_heap α × Option s_l_list_s)
  | h, stack, [] => some (h, stack)
  | h, stack, e :: es =>
    (stack_push h stack (some e)).bind fun r => stack_push_each r.2.1 r.2.2 es

/-- The given number of calls of `stack_pop`: the elements returned, in the order of the
calls, and the heap and stack after the last call. -/
def stack_pop_each {α : Type} :
    s_l_heap α → Option s_l_list_s → Nat →
      Option (List (Option α) × s_l_heap α × Option s_l_list_s)
  | h, stack, 0 => some ([], h, stack)
  | h, stack, n + 1 =>
    (stack_pop h stack).bind fun r =>
      (stack_pop_each r.2.1 r.2.2 n).map fun t => (r.1 :: t.1, t.2)

/-- Calls of `queue_enqueue` with the given elements, one after the other. -/
def queue_enqueue_each {α : Type} :
    s_l_heap α → Option s_l_list_s → List α → Option (s_l_heap α × Option s_l_list_s)
  | h, queue, [] => some (h, queue)
  | h, queue, e :: es =>
    (queue_enqueue h queue (some e)).bind fun r => queue_enqueue_each r.2.1 r.2.2 es

/-- The given number of rounds of `queue_pick` followed by `queue_dequeue`: for each round
the element picked, the element dequeued and `queue_count` after the dequeue; and the heap
and queue after the last round. -/
def queue_dequeue_each {α : Type} :
    s_l_heap α → Option s_l_list_s → Nat →
      Option (List (Option α × Option α × Nat) × s_l_heap α × Option s_l_list_s)
  | h, queue, 0 => some ([], h, queue)
  | h, queue, n + 1 =>
    (queue_pick h queue).bind fun picked =>
    (queue_dequeue h queue).bind fun r =>
      (queue_dequeue_each r.2.1 r.2.2 n).map fun t =>
        ((picked, r.1, queue_count r.2.2) :: t.1, t.2)

/-- The heap in which nothing is allocated. -/
def s_l_heap_empty (α : Type) : s_l_heap α := { cells := fun _ => none, brk := 0 }

/-- The rounds expected of a queue holding `es`: the round of an element picks it,
dequeues it and leaves the count at the number of elements behind it. -/
def fifo_rounds {α : Type} : List α → List (Option α × Option α × Nat)
  | [] => []
  | e :: es => (some e, some e, es.length) :: fifo_rounds es

/-- The heap after 1 and then 2 have been pushed onto an empty stack: the node of 1 at
address 0, the node of 2 at address 1. -/
def stack_two_one_heap : s_l_heap Nat :=
  { cells := fun a =>
      if a = 0 then some { elem := some 1, next := some 1 }
      else if a = 1 then some { elem := some 2, next := some 0 } else none,
    brk := 2 }

/-- The stack after 1 and then 2 have been pushed onto an empty stack. -/
def stack_two_one : s_l_list_s := { back := some 0, count := 2 }

/-! ## Circular doubly linked lists as sequences -/

/-- The nodes at the addresses `as` hold the elements `xs` in this order; the first node
has `prev` pointing to `p`, every other node to the address before it; every node has
`next` pointing to the address after it, the last node to `stop`. -/
def d_l_chain {α : Type} (cells : Nat → Option (d_l_list_node_s α)) :
    Nat → List Nat → List α → Nat → Prop
  | _, [], [], _ => True
  | p, a :: as, x :: xs, stop =>
    cells a = some { elem := some x, prev := some p, next := some (as.headD stop) }
      ∧ d_l_chain cells a as xs stop
  | _, _, _, _ => False

/-- The list structure `l` on the heap `h` holds the sequence `xs`, front first: its nodes
are distinct allocated nodes linked in a cycle in both directions, `front` points to the
first one (it is `NULL` for the empty sequence) and `count` is the length. -/
def d_l_list_repr {α : Type} (h : d_l_heap α) (l : d_l_list_s) (xs : List α) : Prop :=
  l.count = xs.length ∧
  ∃ as : List Nat, as.Nodup ∧ (∀ a ∈ as, a < h.brk) ∧ l.front = as.head? ∧
    d_l_chain h.cells (as.getLastD 0) as xs (as.headD 0)

/-- The heap after 1 and then 2 have been pushed at the back of an empty deque: the node
of 1 at address 0, the node of 2 at address 1. -/
def deque_one_two_heap : d_l_heap Nat :=
  { cells := fun a =>
      if a = 0 then some { elem := some 1, prev := some 1, next := some 1 }
      else if a = 1 then some { elem := some 2, prev := some 0, next := some 0 } else none,
    brk := 2 }

/-- The deque after 1 and then 2 have been pushed at the back of an empty deque. -/
def deque_one_two : d_l_list_s := { front := some 0, count := 2 }

/-- The array of capacity 4 that holds 10, 20 and 30. -/
def array_of_three : array_s Nat :=
  { length := 4,
    elems := fun i =>
      if i = 0 then some { elem := some 10 }
      else if i = 1 then some { elem := some 20 }
      else if i = 2 then some { elem := some 30 } else none,
    count := 3 }

/-- An array of capacity `2^31 + 1` that holds `2^31` elements, all of them 0. -/
def array_of_many : array_s Nat :=
  { length := 2 ^ 31 + 1,
    elems := fun i => if i < 2 ^ 31 then some { elem := some 0 } else none,
    count := 2 ^ 31 }

/-- The full array of Part 4 of array-test.c: capacity 3, holding 10, 20 and 30. -/
def array_full : array_s Nat :=
  { length := 3,
    elems := fun i =>
      if i = 0 then some { elem := some 10 }
      else if i = 1 then some { elem := some 20 }
      else if i = 2 then some { elem := some 30 } else none,
    count := 3 }

/-- At every node, no element of the left subtree compares equal to the element of the
node. -/
def no_equal_on_left {α : Type} (cmp : α → α → Int) : tree_node_s α → Prop :=
  every_node fun n =>
    match n with
    | .null => True
    | .node x _ _ l _ => ∀ y ∈ inorder l, cmp y x ≠ 0

/-- At every node, no element of the left subtree is greater than the element of the
node and no element of the right subtree is lesser. -/
def children_bounded {α : Type} (cmp : α → α → Int) : tree_node_s α → Prop :=
  every_node fun n =>
    match n with
    | .null => True
    | .node x _ _ l r => (∀ y ∈ inorder l, 0 ≤ cmp y x) ∧ ∀ y ∈ inorder r, 0 ≤ cmp x y

/-- The numbers 5, 3, 7, 7 and 7, at the addresses 1 to 5, in the order of insertion. -/
def five_three_sevens_elems : List number := [⟨1, 5⟩, ⟨2, 3⟩, ⟨3, 7⟩, ⟨4, 7⟩, ⟨5, 7⟩]

/-- The tree with duplicates allowed after the numbers of `five_three_sevens_elems` were
inserted: the left rotation at the first 7 put the second 7 above it. -/
def five_three_sevens : tree_s number :=
  { root :=
      .node ⟨1, 5⟩ 1 2
        (.node ⟨2, 3⟩ 0 0 .null .null)
        (.node ⟨4, 7⟩ 0 1 (.node ⟨3, 7⟩ 0 0 .null .null) (.node ⟨5, 7⟩ 0 0 .null .null)),
    allow_duplicates := true,
    count := 5 }

/-- The tree of Scenario A after the number 12 was inserted. -/
def scenario_a_with_12 : tree_s number :=
  { root :=
      .node ⟨4, 20⟩ (-1) 3
        (.node ⟨2, 10⟩ 1 2 (.node ⟨1, 5⟩ 0 0 .null .null)
          (.node ⟨3, 15⟩ (-1) 1 (.node ⟨8, 12⟩ 0 0 .null .null) .null))
        (.node ⟨6, 30⟩ 0 1 (.node ⟨5, 25⟩ 0 0 .null .null) (.node ⟨7, 35⟩ 0 0 .null .null)),
    allow_duplicates := false,
    count := 8 }

/-! ## Height and balance bookkeeping -/

theorem avl_node_height_ge {α : Type} (t : tree_node_s α) (h : avl t) : -1 ≤ node_height t := by
  induction t with
  | null => simp [node_height]
  | node x b h l r ihl ihr =>
    obtain ⟨hh, _, _, _, al, ar⟩ := h
    have := ihl al
    have := ihr ar
    simp only [node_height]; omega

theorem avl_node_height_eq_true {α : Type} (t : tree_node_s α) (h : avl t) :
    node_height t = true_height t := by
  induction t with
  | null => rfl
  | node x b h l r ihl ihr =>
    obtain ⟨hh, _, _, _, al, ar⟩ := h
    have e1 := ihl al
    have e2 := ihr ar
    show h = 1 + max (true_height l) (true_height r)
    rw [hh, e1, e2]

theorem avl_update_eq {α : Type} (t : tree_node_s α) (h : avl t) :
    tree_node_update_height_and_balance_factor t = t := by
  cases t with
  | null => rfl
  | node x b h l r =>
    obtain ⟨hh, hb, _⟩ := h
    simp only [tree_node_update_height_and_balance_factor, hh, hb]

theorem avl_balance_eq {α : Type} (t : tree_node_s α) (h : avl t) :
    tree_node_balance t = some t := by
  cases t with
  | null => rfl
  | node x b h l r =>
    obtain ⟨_, _, h1, h2, _⟩ := h
    have h3 : ¬ b = -2 := by omega
    have h4 : ¬ b = 2 := by omega
    simp only [tree_node_balance, h3, h4, if_false]

@[simp] theorem node_height_null {α : Type} : node_height (tree_node_s.null : tree_node_s α) = -1 := rfl

@[simp] theorem node_height_node {α : Type} (x : α) (b h : Int) (l r : tree_node_s α) :
    node_height (tree_node_s.node x b h l r) = h := rfl

theorem update_node {α : Type} (x : α) (b h : Int) (l r : tree_node_s α) :
    tree_node_update_height_and_balance_factor (tree_node_s.node x b h l r)
      = tree_node_s.node x (node_height r - node_height l)
          (1 + max (node_height l) (node_height r)) l r := rfl

theorem avl_node {α : Type} (x : α) (b h : Int) (l r : tree_node_s α) :
    avl (tree_node_s.node x b h l r) ↔
      (h = 1 + max (node_height l) (node_height r) ∧ b = node_height r - node_height l
        ∧ -1 ≤ b ∧ b ≤ 1 ∧ avl l ∧ avl r) := Iff.rfl

/-- Rebalancing step after a child changed: when both children satisfy the AVL invariant
and their stored heights differ by at most two, recomputing the node and balancing it
succeeds, gives an AVL subtree, and the height of the result is known. -/
theorem balance_update_avl {α : Type} (x : α) (b h : Int) (l r : tree_node_s α)
    (al : avl l) (ar : avl r)
    (h1 : -2 ≤ node_height r - node_height l) (h2 : node_height r - node_height l ≤ 2) :
    ∃ t', tree_node_balance (tree_node_update_height_and_balance_factor (.node x b h l r))
        = some t'
      ∧ avl t'
      ∧ max (node_height l) (node_height r) ≤ node_height t'
      ∧ node_height t' ≤ 1 + max (node_height l) (node_height r)
      ∧ (-1 ≤ node_height r - node_height l → node_height r - node_height l ≤ 1 →
          node_height t' = 1 + max (node_height l) (node_height r)) := by
  have gl := avl_node_height_ge l al
  have gr := avl_node_height_ge r ar
  rw [update_node]
  by_cases c1 : node_height r - node_height l = -2
  · cases l with
    | null => simp only [node_height_null] at c1; omega
    | node lx lb lh ll lr =>
      obtain ⟨hlh, hlb, hl1, hl2, all, alr⟩ := al
      have gll := avl_node_height_ge ll all
      have glr := avl_node_height_ge lr alr
      simp only [node_height_node] at c1 h1 h2 gl hlh hlb ⊢
      by_cases c2 : lb ≤ 0
      · simp only [tree_node_balance, c1, if_true, c2, tree_node_balance_left_left_case,
          tree_node_right_rotation, update_node, node_height_node]
        refine ⟨_, rfl, ?_, ?_, ?_, ?_⟩
        · simp only [avl_node, node_height_node]
          simp only [all, alr, ar, and_true, true_and]
          omega
        all_goals simp only [node_height_node]; omega
      · cases lr with
        | null => simp only [node_height_null] at hlb; omega
        | node mx mb mh ml mr =>
          obtain ⟨hmh, hmb, hm1, hm2, aml, amr⟩ := alr
          have gml := avl_node_height_ge ml aml
          have gmr := avl_node_height_ge mr amr
          simp only [node_height_node] at hlh hlb hmh hmb glr
          simp only [tree_node_balance, c1, if_true, c2, if_false,
            tree_node_balance_left_right_case, tree_node_balance_left_left_case,
            tree_node_left_rotation, tree_node_right_rotation, update_node, node_height_node,
            Option.some_bind]
          refine ⟨_, rfl, ?_, ?_, ?_, ?_⟩
          · simp only [avl_node, node_height_node]
            simp only [all, aml, amr, ar, and_true, true_and]
            omega
          all_goals simp only [node_height_node]; omega
  · by_cases c3 : node_height r - node_height l = 2
    · cases r with
      | null => simp only [node_height_null] at c3; omega
      | node rx rb rh rl rr =>
        obtain ⟨hrh, hrb, hr1, hr2, arl, arr⟩ := ar
        have grl := avl_node_height_ge rl arl
        have grr := avl_node_height_ge rr arr
        simp only [node_height_node] at c1 c3 h1 h2 gr hrh hrb ⊢
        have c4 : ¬ ((2 : Int) = -2) := by omega
        by_cases c2 : rb ≥ 0
        · simp only [tree_node_balance, c3, c4, if_true, if_false, c2,
            tree_node_balance_right_right_case,
            tree_node_left_rotation, update_node, node_height_node]
          refine ⟨_, rfl, ?_, ?_, ?_, ?_⟩
          · simp only [avl_node, node_height_node]
            simp only [al, arl, arr, and_true, true_and]
            omega
          all_goals simp only [node_height_node]; omega
        · cases rl with
          | null => simp only [node_height_null] at hrb; omega
          | node mx mb mh ml mr =>
            obtain ⟨hmh, hmb, hm1, hm2, aml, amr⟩ := arl
            have gml := avl_node_height_ge ml aml
            have gmr := avl_node_height_ge mr amr
            simp only [node_height_node] at hrh hrb hmh hmb grl
            simp only [tree_node_balance, c3, c4, if_true, c2, if_false,
              tree_node_balance_right_left_case, tree_node_balance_right_right_case,
              tree_node_left_rotation, tree_node_right_rotation, update_node, node_height_node,
              Option.some_bind]
            refine ⟨_, rfl, ?_, ?_, ?_, ?_⟩
            · simp only [avl_node, node_height_node]
              simp only [al, aml, amr, arr, and_true, true_and]
              omega
            all_goals simp only [node_height_node]; omega
    · simp only [tree_node_balance, c1, c3, if_false]
      refine ⟨_, rfl, ?_, ?_, ?_, ?_⟩
      · simp only [avl_node, node_height_node]
        simp only [al, ar, and_true, true_and]
        omega
      all_goals simp only [node_height_node]
      all_goals first | omega | (intros; trivial)

/-- On a node, `tree_node_find_max` returns a node whose element is the last of the
in-order sequence. -/
theorem tree_node_find_max_spec {α : Type} (r : tree_node_s α) :
    ∀ (x : α) (b h : Int) (l : tree_node_s α),
      ∃ m mb mh ml mr, tree_node_find_max (.node x b h l r) = .node m mb mh ml mr
        ∧ ∃ init, inorder (.node x b h l r) = init ++ [m] := by
  induction r with
  | null =>
    intro x b h l
    exact ⟨x, b, h, l, .null, rfl, inorder l, by simp [inorder]⟩
  | node rx rb rh rl rr _ ihr =>
    intro x b h l
    obtain ⟨m, mb, mh, ml, mr, hm, init, hi⟩ := ihr rx rb rh rl
    refine ⟨m, mb, mh, ml, mr, ?_, inorder l ++ x :: init, ?_⟩
    · simp only [tree_node_find_max, hm]
    · rw [inorder, hi]; simp

/-- On a node, `tree_node_find_min` returns a node whose element is the first of the
in-order sequence. -/
theorem tree_node_find_min_spec {α : Type} (l : tree_node_s α) :
    ∀ (x : α) (b h : Int) (r : tree_node_s α),
      ∃ m mb mh ml mr, tree_node_find_min (.node x b h l r) = .node m mb mh ml mr
        ∧ ∃ rest, inorder (.node x b h l r) = m :: rest := by
  induction l with
  | null =>
    intro x b h r
    exact ⟨x, b, h, .null, r, rfl, inorder r, by simp [inorder]⟩
  | node lx lb lh ll lr ihl _ =>
    intro x b h r
    obtain ⟨m, mb, mh, ml, mr, hm, rest, hi⟩ := ihl lx lb lh lr
    refine ⟨m, mb, mh, ml, mr, ?_, rest ++ x :: inorder r, ?_⟩
    · simp only [tree_node_find_min, hm]
    · rw [inorder, hi]; simp

/-- Insertion at node level keeps the AVL invariant, whatever the comparator does, and
the stored height of the root grows by at most one. -/
theorem tree_node_insert_avl {α : Type} (t : tree_node_s α) (elem : Option α)
    (c : Option (α → α → Int)) (dup : Bool) (h : avl t) :
    ∃ t', tree_node_insert t elem c dup = some t' ∧ avl t'
      ∧ node_height t ≤ node_height t' ∧ node_height t' ≤ node_height t + 1 := by
  induction t with
  | null =>
    cases elem with
    | none => exact ⟨_, rfl, trivial, by simp, by simp⟩
    | some e =>
      refine ⟨_, rfl, ?_, ?_, ?_⟩
      · simp [tree_node_new, avl_node, avl]
      · simp [tree_node_new]
      · simp [tree_node_new]
  | node x b h l r ihl ihr =>
    have h0 := h
    obtain ⟨hh, hb, h1, h2, al, ar⟩ := h
    cases elem with
    | none => exact ⟨_, rfl, h0, by simp, by simp⟩
    | some e =>
      cases c with
      | none => exact ⟨_, rfl, h0, by simp, by simp⟩
      | some cmp =>
        simp only [tree_node_insert]
        by_cases c1 : cmp x e < 0
        · simp only [c1, if_true]
          obtain ⟨l', hl', al', g1, g2⟩ := ihl al
          rw [hl', Option.some_bind]
          obtain ⟨t', ht', at', k1, k2, k3⟩ :=
            balance_update_avl x b h l' r al' ar (by omega) (by omega)
          refine ⟨t', ht', at', ?_, ?_⟩ <;> simp only [node_height_node] <;> omega
        · by_cases c2 : cmp x e > 0 ∨ dup = true
          · simp only [c1, c2, if_true, if_false]
            obtain ⟨r', hr', ar', g1, g2⟩ := ihr ar
            rw [hr', Option.some_bind]
            obtain ⟨t', ht', at', k1, k2, k3⟩ :=
              balance_update_avl x b h l r' al ar' (by omega) (by omega)
            refine ⟨t', ht', at', ?_, ?_⟩ <;> simp only [node_height_node] <;> omega
          · simp only [c1, c2, if_false]
            exact ⟨_, rfl, h0, by simp, by simp⟩

/-! Unfolding equations of `tree_node_remove`, one for each branch of the C function. -/

theorem tree_node_remove_lt {α : Type} (x : α) (b h : Int) (l r : tree_node_s α) (e : α)
    (cmp : α → α → Int) (c1 : cmp x e < 0) :
    tree_node_remove (.node x b h l r) (some e) (some cmp)
      = (tree_node_remove l (some e) (some cmp)).bind fun l' =>
          tree_node_balance (tree_node_update_height_and_balance_factor (.node x b h l' r)) := by
  rw [tree_node_remove.eq_def]; simp only [c1, if_true]

theorem tree_node_remove_gt {α : Type} (x : α) (b h : Int) (l r : tree_node_s α) (e : α)
    (cmp : α → α → Int) (c1 : ¬ cmp x e < 0) (c2 : cmp x e > 0) :
    tree_node_remove (.node x b h l r) (some e) (some cmp)
      = (tree_node_remove r (some e) (some cmp)).bind fun r' =>
          tree_node_balance (tree_node_update_height_and_balance_factor (.node x b h l r')) := by
  rw [tree_node_remove.eq_def]; simp only [c1, c2, if_true, if_false]

theorem tree_node_remove_leaf {α : Type} (x : α) (b h : Int) (e : α)
    (cmp : α → α → Int) (c1 : ¬ cmp x e < 0) (c2 : ¬ cmp x e > 0) :
    tree_node_remove (.node x b h .null .null) (some e) (some cmp) = some .null := by
  rw [tree_node_remove.eq_def]
  simp only [c1, c2, if_false, tree_node_update_height_and_balance_factor, tree_node_balance]

theorem tree_node_remove_left_only {α : Type} (x : α) (b h : Int) (e : α)
    (lx : α) (lb lh : Int) (ll lr : tree_node_s α)
    (cmp : α → α → Int) (c1 : ¬ cmp x e < 0) (c2 : ¬ cmp x e > 0) :
    tree_node_remove (.node x b h (.node lx lb lh ll lr) .null) (some e) (some cmp)
      = tree_node_balance (tree_node_update_height_and_balance_factor (.node lx lb lh ll lr)) := by
  rw [tree_node_remove.eq_def]; simp only [c1, c2, if_false]

theorem tree_node_remove_right_only {α : Type} (x : α) (b h : Int) (e : α)
    (rx : α) (rb rh : Int) (rl rr : tree_node_s α)
    (cmp : α → α → Int) (c1 : ¬ cmp x e < 0) (c2 : ¬ cmp x e > 0) :
    tree_node_remove (.node x b h .null (.node rx rb rh rl rr)) (some e) (some cmp)
      = tree_node_balance (tree_node_update_height_and_balance_factor (.node rx rb rh rl rr)) := by
  rw [tree_node_remove.eq_def]; simp only [c1, c2, if_false]

theorem tree_node_remove_two_left {α : Type} (x : α) (b h : Int) (e : α)
    (lx : α) (lb lh : Int) (ll lr : tree_node_s α) (rx : α) (rb rh : Int) (rl rr : tree_node_s α)
    (cmp : α → α → Int) (c1 : ¬ cmp x e < 0) (c2 : ¬ cmp x e > 0) (c3 : lh > rh)
    (m : α) (mb mh : Int) (ml mr : tree_node_s α)
    (hm : tree_node_find_max (.node lx lb lh ll lr) = .node m mb mh ml mr) :
    tree_node_remove (.node x b h (.node lx lb lh ll lr) (.node rx rb rh rl rr)) (some e) (some cmp)
      = (tree_node_remove (.node lx lb lh ll lr) (some m) (some cmp)).bind fun l' =>
          tree_node_balance
            (tree_node_update_height_and_balance_factor (.node m b h l' (.node rx rb rh rl rr))) := by
  rw [tree_node_remove.eq_def]; simp only [c1, c2, c3, if_true, if_false, hm]

theorem tree_node_remove_two_right {α : Type} (x : α) (b h : Int) (e : α)
    (lx : α) (lb lh : Int) (ll lr : tree_node_s α) (rx : α) (rb rh : Int) (rl rr : tree_node_s α)
    (cmp : α → α → Int) (c1 : ¬ cmp x e < 0) (c2 : ¬ cmp x e > 0) (c3 : ¬ lh > rh)
    (m : α) (mb mh : Int) (ml mr : tree_node_s α)
    (hm : tree_node_find_min (.node rx rb rh rl rr) = .node m mb mh ml mr) :
    tree_node_remove (.node x b h (.node lx lb lh ll lr) (.node rx rb rh rl rr)) (some e) (some cmp)
      = (tree_node_remove (.node rx rb rh rl rr) (some m) (some cmp)).bind fun r' =>
          tree_node_balance
            (tree_node_update_height_and_balance_factor (.node m b h (.node lx lb lh ll lr) r')) := by
  rw [tree_node_remove.eq_def]; simp only [c1, c2, c3, if_false, hm]

/-- Removal at node level keeps the AVL invariant, whatever the comparator does, and the
stored height of the root shrinks by at most one. -/
theorem tree_node_remove_avl {α : Type} (t : tree_node_s α) (h : avl t) :
    ∀ (elem : Option α) (c : Option (α → α → Int)),
    ∃ t', tree_node_remove t elem c = some t' ∧ avl t'
      ∧ node_height t - 1 ≤ node_height t' ∧ node_height t' ≤ node_height t := by
  induction t with
  | null => intro elem c; exact ⟨_, rfl, trivial, by simp, by simp⟩
  | node x b h l r ihl ihr =>
    intro elem c
    have h0 := h
    obtain ⟨hh, hb, h1, h2, al, ar⟩ := h
    cases elem with
    | none => exact ⟨_, rfl, h0, by simp, by simp⟩
    | some e =>
      cases c with
      | none => exact ⟨_, rfl, h0, by simp, by simp⟩
      | some cmp =>
        by_cases c1 : cmp x e < 0
        · obtain ⟨l', hl', al', g1, g2⟩ := ihl al (some e) (some cmp)
          obtain ⟨t', ht', at', k1, k2, k3⟩ :=
            balance_update_avl x b h l' r al' ar (by omega) (by omega)
          refine ⟨t', ?_, at', ?_, ?_⟩
          · rw [tree_node_remove_lt x b h l r e cmp c1, hl', Option.some_bind, ht']
          all_goals simp only [node_height_node]; omega
        · by_cases c2 : cmp x e > 0
          · obtain ⟨r', hr', ar', g1, g2⟩ := ihr ar (some e) (some cmp)
            obtain ⟨t', ht', at', k1, k2, k3⟩ :=
              balance_update_avl x b h l r' al ar' (by omega) (by omega)
            refine ⟨t', ?_, at', ?_, ?_⟩
            · rw [tree_node_remove_gt x b h l r e cmp c1 c2, hr', Option.some_bind, ht']
            all_goals simp only [node_height_node]; omega
          · cases l with
            | null =>
              cases r with
              | null =>
                refine ⟨_, tree_node_remove_leaf x b h e cmp c1 c2, trivial, ?_, ?_⟩
                all_goals simp only [node_height_node, node_height_null] at hh ⊢; omega
              | node rx rb rh rl rr =>
                refine ⟨_, ?_, ar, ?_, ?_⟩
                · rw [tree_node_remove_right_only x b h e rx rb rh rl rr cmp c1 c2,
                    avl_update_eq _ ar, avl_balance_eq _ ar]
                · have gr := avl_node_height_ge _ ar
                  simp only [node_height_node, node_height_null] at hh hb gr ⊢
                  omega
                · simp only [node_height_node, node_height_null] at hh hb ⊢
                  omega
            | node lx lb lh ll lr =>
              cases r with
              | null =>
                refine ⟨_, ?_, al, ?_, ?_⟩
                · rw [tree_node_remove_left_only x b h e lx lb lh ll lr cmp c1 c2,
                    avl_update_eq _ al, avl_balance_eq _ al]
                · have gl := avl_node_height_ge _ al
                  simp only [node_height_node, node_height_null] at hh hb gl ⊢
                  omega
                · simp only [node_height_node, node_height_null] at hh hb ⊢
                  omega
              | node rx rb rh rl rr =>
                simp only [node_height_node] at hh hb
                by_cases c3 : lh > rh
                · obtain ⟨m, mb, mh, ml, mr, hm, _⟩ := tree_node_find_max_spec lr lx lb lh ll
                  obtain ⟨l', hl', al', g1, g2⟩ := ihl al (some m) (some cmp)
                  simp only [node_height_node] at g1 g2
                  obtain ⟨t', ht', at', k1, k2, k3⟩ :=
                    balance_update_avl m b h l' (.node rx rb rh rl rr) al' ar
                      (by simp only [node_height_node]; omega)
                      (by simp only [node_height_node]; omega)
                  simp only [node_height_node] at k1 k2 k3
                  refine ⟨t', ?_, at', ?_, ?_⟩
                  · rw [tree_node_remove_two_left x b h e lx lb lh ll lr rx rb rh rl rr cmp
                      c1 c2 c3 m mb mh ml mr hm, hl', Option.some_bind, ht']
                  all_goals simp only [node_height_node]; omega
                · obtain ⟨m, mb, mh, ml, mr, hm, _⟩ := tree_node_find_min_spec rl rx rb rh rr
                  obtain ⟨r', hr', ar', g1, g2⟩ := ihr ar (some m) (some cmp)
                  simp only [node_height_node] at g1 g2
                  obtain ⟨t', ht', at', k1, k2, k3⟩ :=
                    balance_update_avl m b h (.node lx lb lh ll lr) r' al ar'
                      (by simp only [node_height_node]; omega)
                      (by simp only [node_height_node]; omega)
                  simp only [node_height_node] at k1 k2 k3
                  refine ⟨t', ?_, at', ?_, ?_⟩
                  · rw [tree_node_remove_two_right x b h e lx lb lh ll lr rx rb rh rl rr cmp
                      c1 c2 c3 m mb mh ml mr hm, hr', Option.some_bind, ht']
                  all_goals simp only [node_height_node]; omega

/-! ## The in-order sequence through the rebalancing step -/

@[simp] theorem inorder_null {α : Type} : inorder (tree_node_s.null : tree_node_s α) = [] := rfl

@[simp] theorem inorder_node {α : Type} (x : α) (b h : Int) (l r : tree_node_s α) :
    inorder (tree_node_s.node x b h l r) = inorder l ++ x :: inorder r := rfl

theorem inorder_update {α : Type} (t : tree_node_s α) :
    inorder (tree_node_update_height_and_balance_factor t) = inorder t := by
  cases t <;> rfl

theorem right_rotation_inorder {α : Type} (t t' : tree_node_s α)
    (h : tree_node_right_rotation t = some t') : inorder t' = inorder t := by
  cases t with
  | null => simp [tree_node_right_rotation] at h
  | node x b hh l r =>
    cases l with
    | null => simp [tree_node_right_rotation] at h
    | node lx lb lh ll lr =>
      simp only [tree_node_right_rotation, Option.some.injEq] at h
      subst h
      simp [update_node]

theorem left_rotation_inorder {α : Type} (t t' : tree_node_s α)
    (h : tree_node_left_rotation t = some t') : inorder t' = inorder t := by
  cases t with
  | null => simp [tree_node_left_rotation] at h
  | node x b hh l r =>
    cases r with
    | null => simp [tree_node_left_rotation] at h
    | node rx rb rh rl rr =>
      simp only [tree_node_left_rotation, Option.some.injEq] at h
      subst h
      simp [update_node]

/-- Whenever `tree_node_balance` returns, the subtree it returns has the in-order
sequence of its argument. -/
theorem balance_inorder {α : Type} (t t' : tree_node_s α)
    (h : tree_node_balance t = some t') : inorder t' = inorder t := by
  cases t with
  | null =>
    simp only [tree_node_balance, Option.some.injEq] at h
    subst h; rfl
  | node x b hh l r =>
    simp only [tree_node_balance] at h
    split_ifs at h with c1 c2
    · cases l with
      | null => simp at h
      | node lx lb lh ll lr =>
        simp only at h
        split_ifs at h with c3
        · exact right_rotation_inorder _ _ h
        · simp only [tree_node_balance_left_right_case] at h
          cases hl : tree_node_left_rotation (.node lx lb lh ll lr) with
          | none => simp [hl] at h
          | some l' =>
            rw [hl, Option.some_bind] at h
            have e1 := right_rotation_inorder _ _ h
            have e2 := left_rotation_inorder _ _ hl
            rw [e1, inorder_node, e2]; rfl
    · cases r with
      | null => simp at h
      | node rx rb rh rl rr =>
        simp only at h
        split_ifs at h with c3
        · exact left_rotation_inorder _ _ h
        · simp only [tree_node_balance_right_left_case] at h
          cases hr : tree_node_right_rotation (.node rx rb rh rl rr) with
          | none => simp [hr] at h
          | some r' =>
            rw [hr, Option.some_bind] at h
            have e1 := left_rotation_inorder _ _ h
            have e2 := right_rotation_inorder _ _ hr
            rw [e1, inorder_node, e2]; rfl
    · simp only [Option.some.injEq] at h
      subst h; rfl

/-- The step `tree_node_balance (tree_node_update_height_and_balance_factor n)` that ends
both `tree_node_insert` and `tree_node_remove` keeps the in-order sequence. -/
theorem balance_update_inorder {α : Type} (x : α) (b h : Int) (l r t' : tree_node_s α)
    (ht : tree_node_balance (tree_node_update_height_and_balance_factor (.node x b h l r))
      = some t') :
    inorder t' = inorder l ++ x :: inorder r := by
  rw [balance_inorder _ _ ht, inorder_update, inorder_node]

theorem node_count_eq_length {α : Type} (t : tree_node_s α) :
    node_count t = (inorder t).length := by
  induction t with
  | null => rfl
  | node x b h l r ihl ihr =>
    simp only [node_count, inorder_node, List.length_append, List.length_cons, ihl, ihr]
    omega

/-! ## Consequences of a consistent comparator -/

theorem consistent.refl {α : Type} {cmp : α → α → Int} (hc : consistent cmp) (a : α) :
    cmp a a = 0 := by
  have h1 := hc.antisymm a a
  omega

theorem consistent.pos_iff {α : Type} {cmp : α → α → Int} (hc : consistent cmp) (a b : α) :
    0 < cmp a b ↔ cmp b a < 0 := (hc.antisymm b a).symm

theorem consistent.eq_symm {α : Type} {cmp : α → α → Int} (hc : consistent cmp) (a b : α)
    (h : cmp a b = 0) : cmp b a = 0 := by
  have h1 := hc.antisymm a b
  have h2 := hc.antisymm b a
  omega

theorem consistent.nonneg_iff {α : Type} {cmp : α → α → Int} (hc : consistent cmp) (a b : α) :
    0 ≤ cmp a b ↔ cmp b a ≤ 0 := by
  have h1 := hc.antisymm a b
  have h2 := hc.antisymm b a
  omega

theorem consistent.lt_of_lt_of_le {α : Type} {cmp : α → α → Int} (hc : consistent cmp)
    (a b c : α) (h1 : 0 < cmp a b) (h2 : 0 ≤ cmp b c) : 0 < cmp a c := by
  by_contra hn
  have h3 : 0 ≤ cmp c a := (hc.nonneg_iff c a).2 (by omega)
  have h4 := hc.trans b c a h2 h3
  have h5 := (hc.nonneg_iff b a).1 h4
  omega

theorem consistent.lt_of_le_of_lt {α : Type} {cmp : α → α → Int} (hc : consistent cmp)
    (a b c : α) (h1 : 0 ≤ cmp a b) (h2 : 0 < cmp b c) : 0 < cmp a c := by
  by_contra hn
  have h3 : 0 ≤ cmp c a := (hc.nonneg_iff c a).2 (by omega)
  have h4 := hc.trans c a b h3 h1
  have h5 := (hc.nonneg_iff c b).1 h4
  omega

theorem consistent.eq_trans {α : Type} {cmp : α → α → Int} (hc : consistent cmp)
    (a b c : α) (h1 : cmp a b = 0) (h2 : cmp b c = 0) : cmp a c = 0 := by
  have h3 := hc.trans a b c (by omega) (by omega)
  have h4 := hc.trans c b a (by have := hc.eq_symm b c h2; omega)
    (by have := hc.eq_symm a b h1; omega)
  have h5 := (hc.nonneg_iff c a).1 h4
  omega

theorem pairwise_middle {α : Type} (R : α → α → Prop) (L : List α) (x : α) (T : List α) :
    (L ++ x :: T).Pairwise R ↔
      L.Pairwise R ∧ T.Pairwise R ∧ (∀ a ∈ L, R a x) ∧ (∀ b ∈ T, R x b)
        ∧ (∀ a ∈ L, ∀ b ∈ T, R a b) := by
  rw [List.pairwise_append, List.pairwise_cons]
  constructor
  · rintro ⟨h1, ⟨h2, h3⟩, h4⟩
    exact ⟨h1, h3, fun a ha => h4 a ha x (List.mem_cons_self _ _), h2,
      fun a ha b hb => h4 a ha b (List.mem_cons_of_mem _ hb)⟩
  · rintro ⟨h1, h2, h3, h4, h5⟩
    refine ⟨h1, ⟨h4, h2⟩, fun a ha b hb => ?_⟩
    rcases List.mem_cons.1 hb with rfl | hb
    · exact h3 a ha
    · exact h5 a ha b hb

theorem strictly_ordered.ordered {α : Type} {cmp : α → α → Int} {t : tree_node_s α}
    (h : strictly_ordered cmp t) : ordered cmp t :=
  List.Pairwise.imp (fun hab => le_of_lt hab) h

/-! ## Search -/

theorem tree_node_find_node {α : Type} (x : α) (b h : Int) (l r : tree_node_s α) (e : α)
    (cmp : α → α → Int) :
    tree_node_find (.node x b h l r) (some e) (some cmp)
      = if cmp x e < 0 then tree_node_find l (some e) (some cmp)
        else if cmp x e > 0 then tree_node_find r (some e) (some cmp)
        else .node x b h l r := by
  rw [tree_node_find]

/-- The node returned by `tree_node_find` holds a stored element that compares equal to
the probe. -/
theorem tree_node_find_sound {α : Type} (t : tree_node_s α) (p : α) (cmp : α → α → Int)
    (x : α) (b h : Int) (l r : tree_node_s α)
    (hf : tree_node_find t (some p) (some cmp) = .node x b h l r) :
    cmp x p = 0 ∧ x ∈ inorder t := by
  induction t with
  | null => simp [tree_node_find] at hf
  | node y yb yh yl yr ihl ihr =>
    rw [tree_node_find_node] at hf
    split_ifs at hf with c1 c2
    · obtain ⟨h1, h2⟩ := ihl hf
      exact ⟨h1, by simp [h2]⟩
    · obtain ⟨h1, h2⟩ := ihr hf
      exact ⟨h1, by simp [h2]⟩
    · injection hf with e1
      subst e1
      exact ⟨by omega, by simp⟩

/-- In an ordered subtree `tree_node_find` returns a node as soon as one stored element
compares equal to the probe. -/
theorem tree_node_find_complete {α : Type} (cmp : α → α → Int) (hc : consistent cmp)
    (t : tree_node_s α) (p : α) (ho : ordered cmp t)
    (hex : ∃ x ∈ inorder t, cmp x p = 0) :
    is_null (tree_node_find t (some p) (some cmp)) = false := by
  induction t with
  | null => simp at hex
  | node y yb yh yl yr ihl ihr =>
    obtain ⟨ol, or_, h1, h2, h3⟩ := (pairwise_middle _ _ _ _).1 ho
    obtain ⟨x, hx, hxp⟩ := hex
    rw [tree_node_find_node]
    split_ifs with c1 c2
    · apply ihl ol
      simp only [inorder_node, List.mem_append, List.mem_cons] at hx
      rcases hx with hx | rfl | hx
      · exact ⟨x, hx, hxp⟩
      · omega
      · exfalso
        have := hc.trans y x p (h2 x hx) (by omega)
        omega
    · apply ihr or_
      simp only [inorder_node, List.mem_append, List.mem_cons] at hx
      rcases hx with hx | rfl | hx
      · exfalso
        have e1 := hc.eq_symm x p hxp
        have e2 := hc.trans p x y (by omega) (h1 x hx)
        have e3 := (hc.nonneg_iff p y).1 e2
        omega
      · omega
      · exact ⟨x, hx, hxp⟩
    · rfl

/-! ## Insertion and the in-order sequence -/

/-- Insertion position. In an ordered subtree, `tree_node_insert` either refuses the
element (duplicates disallowed and an equal element met on the search path) and keeps
the in-order sequence, or puts the element into the in-order sequence after every
element that is not greater than it and before every element that is greater. -/
theorem tree_node_insert_inorder {α : Type} (cmp : α → α → Int) (hc : consistent cmp)
    (dup : Bool) (e : α) (t : tree_node_s α) (ho : ordered cmp t) :
    ∀ t', tree_node_insert t (some e) (some cmp) dup = some t' →
      (dup = false ∧ (∃ x ∈ inorder t, cmp x e = 0) ∧ inorder t' = inorder t) ∨
      (∃ l1 l2, inorder t = l1 ++ l2 ∧ inorder t' = l1 ++ e :: l2
        ∧ (∀ x ∈ l1, 0 ≤ cmp x e) ∧ (dup = false → ∀ x ∈ l1, 0 < cmp x e)
        ∧ (∀ y ∈ l2, cmp y e < 0)) := by
  induction t with
  | null =>
    intro t' h
    simp only [tree_node_insert, tree_node_new, Option.some.injEq] at h
    subst h
    right
    exact ⟨[], [], rfl, rfl, by simp, by simp, by simp⟩
  | node x b hh l r ihl ihr =>
    intro t' h
    obtain ⟨ol, or_, h1, h2, h3⟩ := (pairwise_middle _ _ _ _).1 ho
    simp only [tree_node_insert] at h
    split_ifs at h with c1 c2
    · cases hl : tree_node_insert l (some e) (some cmp) dup with
      | none => simp [hl] at h
      | some l' =>
        rw [hl, Option.some_bind] at h
        have e1 := balance_update_inorder _ _ _ _ _ _ h
        rcases ihl ol l' hl with ⟨d, ⟨y, hy, hye⟩, e2⟩ | ⟨l1, l2, e2, e3, e4, e5, e6⟩
        · left
          exact ⟨d, ⟨y, by simp [hy], hye⟩, by rw [e1, e2, inorder_node]⟩
        · right
          refine ⟨l1, l2 ++ x :: inorder r, by simp [e2], by simp [e1, e3], e4, e5, ?_⟩
          intro y hy
          simp only [List.mem_append, List.mem_cons] at hy
          rcases hy with hy | rfl | hy
          · exact e6 y hy
          · exact c1
          · by_contra hn
            have := hc.trans x y e (h2 y hy) (by omega)
            omega
    · cases hr : tree_node_insert r (some e) (some cmp) dup with
      | none => simp [hr] at h
      | some r' =>
        rw [hr, Option.some_bind] at h
        have e1 := balance_update_inorder _ _ _ _ _ _ h
        have cx : 0 ≤ cmp x e := by omega
        rcases ihr or_ r' hr with ⟨d, ⟨y, hy, hye⟩, e2⟩ | ⟨l1, l2, e2, e3, e4, e5, e6⟩
        · left
          exact ⟨d, ⟨y, by simp [hy], hye⟩, by rw [e1, e2, inorder_node]⟩
        · right
          refine ⟨inorder l ++ x :: l1, l2, by simp [e2], by simp [e1, e3], ?_, ?_, e6⟩
          · intro y hy
            simp only [List.mem_append, List.mem_cons] at hy
            rcases hy with hy | rfl | hy
            · exact hc.trans y x e (h1 y hy) cx
            · exact cx
            · exact e4 y hy
          · intro hd y hy
            have cx' : 0 < cmp x e := by
              rcases c2 with c2 | c2
              · exact c2
              · rw [hd] at c2; exact absurd c2 (by decide)
            simp only [List.mem_append, List.mem_cons] at hy
            rcases hy with hy | rfl | hy
            · exact hc.lt_of_le_of_lt y x e (h1 y hy) cx'
            · exact cx'
            · exact e5 hd y hy
    · simp only [Option.some.injEq] at h
      subst h
      left
      push_neg at c2
      refine ⟨by simpa using c2.2, ⟨x, by simp, by omega⟩, rfl⟩

/-- In an ordered subtree, the subtree returned by `tree_node_insert` is ordered. -/
theorem tree_node_insert_ordered {α : Type} (cmp : α → α → Int) (hc : consistent cmp)
    (dup : Bool) (e : α) (t t' : tree_node_s α) (ho : ordered cmp t)
    (h : tree_node_insert t (some e) (some cmp) dup = some t') : ordered cmp t' := by
  rcases tree_node_insert_inorder cmp hc dup e t ho t' h with
    ⟨_, _, e2⟩ | ⟨l1, l2, e2, e3, e4, _, e6⟩
  · unfold ordered; rw [e2]; exact ho
  · unfold ordered at ho ⊢
    rw [e2, List.pairwise_append] at ho
    rw [e3, pairwise_middle]
    exact ⟨ho.1, ho.2.1, e4, fun y hy => by have := (hc.pos_iff e y).2 (e6 y hy); omega, ho.2.2⟩

/-- In a strictly ordered subtree, the subtree returned by `tree_node_insert` without
duplicates is strictly ordered. -/
theorem tree_node_insert_strictly_ordered {α : Type} (cmp : α → α → Int) (hc : consistent cmp)
    (e : α) (t t' : tree_node_s α) (ho : strictly_ordered cmp t)
    (h : tree_node_insert t (some e) (some cmp) false = some t') :
    strictly_ordered cmp t' := by
  rcases tree_node_insert_inorder cmp hc false e t ho.ordered t' h with
    ⟨_, _, e2⟩ | ⟨l1, l2, e2, e3, _, e5, e6⟩
  · unfold strictly_ordered; rw [e2]; exact ho
  · unfold strictly_ordered at ho ⊢
    rw [e2, List.pairwise_append] at ho
    rw [e3, pairwise_middle]
    exact ⟨ho.1, ho.2.1, e5 rfl, fun y hy => (hc.pos_iff e y).2 (e6 y hy), ho.2.2⟩

/-! ## Removal and the in-order sequence -/

/-- In an ordered subtree, the subtree returned by `tree_node_remove` is ordered, stores
only elements that were stored before, and has exactly one node less when some stored
element compares equal to the probe. -/
theorem tree_node_remove_ordered {α : Type} (cmp : α → α → Int) (hc : consistent cmp)
    (t : tree_node_s α) :
    ∀ (p : α) (t' : tree_node_s α), ordered cmp t →
      tree_node_remove t (some p) (some cmp) = some t' →
      ordered cmp t' ∧ (∀ y ∈ inorder t', y ∈ inorder t)
        ∧ ((∃ x ∈ inorder t, cmp x p = 0) →
            (inorder t').length + 1 = (inorder t).length) := by
  induction t with
  | null =>
    intro p t' _ h
    simp only [tree_node_remove, Option.some.injEq] at h
    subst h
    simp [ordered]
  | node x b hh l r ihl ihr =>
    intro p t' ho h
    obtain ⟨ol, or_, h1, h2, h3⟩ := (pairwise_middle _ _ _ _).1 ho
    by_cases c1 : cmp x p < 0
    · rw [tree_node_remove_lt _ _ _ _ _ _ _ c1] at h
      cases hl : tree_node_remove l (some p) (some cmp) with
      | none => simp [hl] at h
      | some l' =>
        rw [hl, Option.some_bind] at h
        have e1 := balance_update_inorder _ _ _ _ _ _ h
        obtain ⟨k1, k2, k3⟩ := ihl p l' ol hl
        refine ⟨?_, ?_, ?_⟩
        · unfold ordered
          rw [e1, pairwise_middle]
          exact ⟨k1, or_, fun a ha => h1 a (k2 a ha), h2, fun a ha => h3 a (k2 a ha)⟩
        · intro y hy
          rw [e1] at hy
          simp only [inorder_node, List.mem_append, List.mem_cons] at hy ⊢
          rcases hy with hy | hy | hy
          · exact Or.inl (k2 y hy)
          · exact Or.inr (Or.inl hy)
          · exact Or.inr (Or.inr hy)
        · rintro ⟨y, hy, hyp⟩
          have hex : ∃ x ∈ inorder l, cmp x p = 0 := by
            simp only [inorder_node, List.mem_append, List.mem_cons] at hy
            rcases hy with hy | rfl | hy
            · exact ⟨y, hy, hyp⟩
            · omega
            · exfalso
              have := hc.trans x y p (h2 y hy) (by omega)
              omega
          have := k3 hex
          simp only [e1, inorder_node, List.length_append, List.length_cons]
          omega
    · by_cases c2 : cmp x p > 0
      · rw [tree_node_remove_gt _ _ _ _ _ _ _ c1 c2] at h
        cases hr : tree_node_remove r (some p) (some cmp) with
        | none => simp [hr] at h
        | some r' =>
          rw [hr, Option.some_bind] at h
          have e1 := balance_update_inorder _ _ _ _ _ _ h
          obtain ⟨k1, k2, k3⟩ := ihr p r' or_ hr
          refine ⟨?_, ?_, ?_⟩
          · unfold ordered
            rw [e1, pairwise_middle]
            exact ⟨ol, k1, h1, fun a ha => h2 a (k2 a ha), fun a ha c hc' => h3 a ha c (k2 c hc')⟩
          · intro y hy
            rw [e1] at hy
            simp only [inorder_node, List.mem_append, List.mem_cons] at hy ⊢
            rcases hy with hy | hy | hy
            · exact Or.inl hy
            · exact Or.inr (Or.inl hy)
            · exact Or.inr (Or.inr (k2 y hy))
          · rintro ⟨y, hy, hyp⟩
            have hex : ∃ x ∈ inorder r, cmp x p = 0 := by
              simp only [inorder_node, List.mem_append, List.mem_cons] at hy
              rcases hy with hy | rfl | hy
              · exfalso
                have e2 := hc.eq_symm y p hyp
                have e3 := hc.trans p y x (by omega) (h1 y hy)
                have e4 := (hc.nonneg_iff p x).1 e3
                omega
              · omega
              · exact ⟨y, hy, hyp⟩
            have := k3 hex
            simp only [e1, inorder_node, List.length_append, List.length_cons]
            omega
      · cases l with
        | null =>
          cases r with
          | null =>
            rw [tree_node_remove_leaf _ _ _ _ _ c1 c2, Option.some.injEq] at h
            subst h
            simp [ordered]
          | node rx rb rh rl rr =>
            rw [tree_node_remove_right_only _ _ _ _ _ _ _ _ _ _ c1 c2] at h
            have e1 : inorder t' = inorder (.node rx rb rh rl rr) := by
              rw [balance_inorder _ _ h, inorder_update]
            refine ⟨?_, ?_, ?_⟩
            · unfold ordered; rw [e1]; exact or_
            · intro y hy
              rw [e1] at hy
              rw [inorder_node]
              exact List.mem_append_right _ (List.mem_cons_of_mem _ hy)
            · intro _
              rw [e1]
              simp only [inorder_node, inorder_null, List.length_append, List.length_cons,
                List.length_nil]
              try omega
        | node lx lb lh ll lr =>
          cases r with
          | null =>
            rw [tree_node_remove_left_only _ _ _ _ _ _ _ _ _ _ c1 c2] at h
            have e1 : inorder t' = inorder (.node lx lb lh ll lr) := by
              rw [balance_inorder _ _ h, inorder_update]
            refine ⟨?_, ?_, ?_⟩
            · unfold ordered; rw [e1]; exact ol
            · intro y hy
              rw [e1] at hy
              rw [inorder_node]
              exact List.mem_append_left _ hy
            · intro _
              rw [e1]
              simp only [inorder_node, inorder_null, List.length_append, List.length_cons,
                List.length_nil]
              try omega
          | node rx rb rh rl rr =>
            by_cases c3 : lh > rh
            · obtain ⟨m, mb, mh, ml, mr, hm, init, hi⟩ := tree_node_find_max_spec lr lx lb lh ll
              rw [tree_node_remove_two_left _ _ _ _ _ _ _ _ _ _ _ _ _ _ _ c1 c2 c3 m mb mh ml mr hm]
                at h
              cases hl : tree_node_remove (.node lx lb lh ll lr) (some m) (some cmp) with
              | none => simp [hl] at h
              | some l' =>
                rw [hl, Option.some_bind] at h
                have e1 := balance_update_inorder _ _ _ _ _ _ h
                obtain ⟨k1, k2, k3⟩ := ihl m l' ol hl
                have hml : m ∈ inorder (.node lx lb lh ll lr) := by rw [hi]; simp
                have hmax : ∀ a ∈ inorder (.node lx lb lh ll lr), 0 ≤ cmp a m := by
                  intro a ha
                  rw [hi] at ol ha
                  rcases List.mem_append.1 ha with ha | ha
                  · exact (List.pairwise_append.1 ol).2.2 a ha m (by simp)
                  · rw [List.mem_singleton.1 ha, hc.refl]
                refine ⟨?_, ?_, ?_⟩
                · unfold ordered
                  rw [e1, pairwise_middle]
                  exact ⟨k1, or_, fun a ha => hmax a (k2 a ha), fun c hc' => h3 m hml c hc',
                    fun a ha c hc' => h3 a (k2 a ha) c hc'⟩
                · intro y hy
                  rw [e1] at hy
                  rw [inorder_node]
                  simp only [List.mem_append, List.mem_cons] at hy ⊢
                  rcases hy with hy | hy | hy
                  · exact Or.inl (k2 y hy)
                  · exact Or.inl (hy ▸ hml)
                  · exact Or.inr (Or.inr hy)
                · intro _
                  have := k3 ⟨m, hml, hc.refl m⟩
                  rw [e1]
                  simp only [inorder_node, List.length_append, List.length_cons] at this ⊢
                  omega
            · obtain ⟨m, mb, mh, ml, mr, hm, rest, hi⟩ := tree_node_find_min_spec rl rx rb rh rr
              rw [tree_node_remove_two_right _ _ _ _ _ _ _ _ _ _ _ _ _ _ _ c1 c2 c3 m mb mh ml mr hm]
                at h
              cases hr : tree_node_remove (.node rx rb rh rl rr) (some m) (some cmp) with
              | none => simp [hr] at h
              | some r' =>
                rw [hr, Option.some_bind] at h
                have e1 := balance_update_inorder _ _ _ _ _ _ h
                obtain ⟨k1, k2, k3⟩ := ihr m r' or_ hr
                have hmr : m ∈ inorder (.node rx rb rh rl rr) := by rw [hi]; simp
                have hmin : ∀ a ∈ inorder (.node rx rb rh rl rr), 0 ≤ cmp m a := by
                  intro a ha
                  rw [hi] at or_ ha
                  rcases List.mem_cons.1 ha with ha | ha
                  · rw [ha, hc.refl]
                  · exact (List.pairwise_cons.1 or_).1 a ha
                refine ⟨?_, ?_, ?_⟩
                · unfold ordered
                  rw [e1, pairwise_middle]
                  exact ⟨ol, k1, fun a ha => h3 a ha m hmr, fun c hc' => hmin c (k2 c hc'),
                    fun a ha c hc' => h3 a ha c (k2 c hc')⟩
                · intro y hy
                  rw [e1] at hy
                  rw [inorder_node]
                  simp only [List.mem_append, List.mem_cons] at hy ⊢
                  rcases hy with hy | hy | hy
                  · exact Or.inl hy
                  · exact Or.inr (Or.inr (hy ▸ hmr))
                  · exact Or.inr (Or.inr (k2 y hy))
                · intro _
                  have := k3 ⟨m, hmr, hc.refl m⟩
                  rw [e1]
                  simp only [inorder_node, List.length_append, List.length_cons] at this ⊢
                  omega

theorem filter_ne_cons_pos {α : Type} (cmp : α → α → Int) (p x : α) (T : List α)
    (h : cmp x p ≠ 0) :
    (x :: T).filter (fun y => decide (cmp y p ≠ 0))
      = x :: T.filter (fun y => decide (cmp y p ≠ 0)) := by
  simp [List.filter_cons, h]

theorem filter_ne_cons_neg {α : Type} (cmp : α → α → Int) (p x : α) (T : List α)
    (h : cmp x p = 0) :
    (x :: T).filter (fun y => decide (cmp y p ≠ 0))
      = T.filter (fun y => decide (cmp y p ≠ 0)) := by
  simp [List.filter_cons, h]

/-- In a strictly ordered subtree, `tree_node_remove` deletes from the in-order sequence
exactly the elements that compare equal to the probe (there is at most one), and keeps
every other element in place. -/
theorem tree_node_remove_strict {α : Type} (cmp : α → α → Int) (hc : consistent cmp)
    (t : tree_node_s α) :
    ∀ (p : α) (t' : tree_node_s α), strictly_ordered cmp t →
      tree_node_remove t (some p) (some cmp) = some t' →
      inorder t' = (inorder t).filter fun y => decide (cmp y p ≠ 0) := by
  induction t with
  | null =>
    intro p t' _ h
    simp only [tree_node_remove, Option.some.injEq] at h
    subst h
    rfl
  | node x b hh l r ihl ihr =>
    intro p t' ho h
    obtain ⟨ol, or_, h1, h2, h3⟩ := (pairwise_middle _ _ _ _).1 ho
    by_cases c1 : cmp x p < 0
    · rw [tree_node_remove_lt _ _ _ _ _ _ _ c1] at h
      cases hl : tree_node_remove l (some p) (some cmp) with
      | none => simp [hl] at h
      | some l' =>
        rw [hl, Option.some_bind] at h
        have e1 := balance_update_inorder _ _ _ _ _ _ h
        have k := ihl p l' ol hl
        have hr : (x :: inorder r).filter (fun y => decide (cmp y p ≠ 0)) = x :: inorder r := by
          rw [List.filter_eq_self]
          intro a ha
          rcases List.mem_cons.1 ha with rfl | ha
          · simp; omega
          · have := hc.trans x a p (le_of_lt (h2 a ha))
            simp; omega
        rw [e1, k, inorder_node, List.filter_append, hr]
    · by_cases c2 : cmp x p > 0
      · rw [tree_node_remove_gt _ _ _ _ _ _ _ c1 c2] at h
        cases hr : tree_node_remove r (some p) (some cmp) with
        | none => simp [hr] at h
        | some r' =>
          rw [hr, Option.some_bind] at h
          have e1 := balance_update_inorder _ _ _ _ _ _ h
          have k := ihr p r' or_ hr
          have hl : (inorder l).filter (fun y => decide (cmp y p ≠ 0)) = inorder l := by
            rw [List.filter_eq_self]
            intro a ha
            have := hc.lt_of_lt_of_le a x p (h1 a ha) (by omega)
            simp; omega
          have hx : cmp x p ≠ 0 := by omega
          rw [e1, k, inorder_node, List.filter_append, hl, filter_ne_cons_pos cmp p x _ hx]
      · have cx : cmp x p = 0 := by omega
        have hl : (inorder l).filter (fun y => decide (cmp y p ≠ 0)) = inorder l := by
          rw [List.filter_eq_self]
          intro a ha
          have := hc.lt_of_lt_of_le a x p (h1 a ha) (by omega)
          simp; omega
        have hr : (inorder r).filter (fun y => decide (cmp y p ≠ 0)) = inorder r := by
          rw [List.filter_eq_self]
          intro a ha
          have e2 := hc.eq_symm x p cx
          have e3 := hc.lt_of_le_of_lt p x a (by omega) (h2 a ha)
          have e4 := (hc.pos_iff p a).1 e3
          simp; omega
        have hall : (inorder (.node x b hh l r)).filter (fun y => decide (cmp y p ≠ 0))
            = inorder l ++ inorder r := by
          rw [inorder_node, List.filter_append, hl, filter_ne_cons_neg cmp p x _ cx, hr]
        rw [hall]
        cases l with
        | null =>
          cases r with
          | null =>
            rw [tree_node_remove_leaf _ _ _ _ _ c1 c2, Option.some.injEq] at h
            subst h
            rfl
          | node rx rb rh rl rr =>
            rw [tree_node_remove_right_only _ _ _ _ _ _ _ _ _ _ c1 c2] at h
            rw [balance_inorder _ _ h, inorder_update]
            rfl
        | node lx lb lh ll lr =>
          cases r with
          | null =>
            rw [tree_node_remove_left_only _ _ _ _ _ _ _ _ _ _ c1 c2] at h
            rw [balance_inorder _ _ h, inorder_update, inorder_null, List.append_nil]
          | node rx rb rh rl rr =>
            by_cases c3 : lh > rh
            · obtain ⟨m, mb, mh, ml, mr, hm, init, hi⟩ := tree_node_find_max_spec lr lx lb lh ll
              rw [tree_node_remove_two_left _ _ _ _ _ _ _ _ _ _ _ _ _ _ _ c1 c2 c3 m mb mh ml mr hm]
                at h
              cases hl' : tree_node_remove (.node lx lb lh ll lr) (some m) (some cmp) with
              | none => simp [hl'] at h
              | some l' =>
                rw [hl', Option.some_bind] at h
                have e1 := balance_update_inorder _ _ _ _ _ _ h
                have k := ihl m l' ol hl'
                rw [hi] at ol k
                have hinit : init.filter (fun y => decide (cmp y m ≠ 0)) = init := by
                  rw [List.filter_eq_self]
                  intro a ha
                  have := (List.pairwise_append.1 ol).2.2 a ha m (by simp)
                  simp; omega
                rw [List.filter_append, hinit, filter_ne_cons_neg cmp m m _ (hc.refl m),
                  List.filter_nil, List.append_nil] at k
                rw [e1, k, hi]
                simp
            · obtain ⟨m, mb, mh, ml, mr, hm, rest, hi⟩ := tree_node_find_min_spec rl rx rb rh rr
              rw [tree_node_remove_two_right _ _ _ _ _ _ _ _ _ _ _ _ _ _ _ c1 c2 c3 m mb mh ml mr hm]
                at h
              cases hr' : tree_node_remove (.node rx rb rh rl rr) (some m) (some cmp) with
              | none => simp [hr'] at h
              | some r' =>
                rw [hr', Option.some_bind] at h
                have e1 := balance_update_inorder _ _ _ _ _ _ h
                have k := ihr m r' or_ hr'
                rw [hi] at or_ k
                have hrest : rest.filter (fun y => decide (cmp y m ≠ 0)) = rest := by
                  rw [List.filter_eq_self]
                  intro a ha
                  have e2 := (List.pairwise_cons.1 or_).1 a ha
                  have e3 := (hc.pos_iff m a).1 e2
                  simp; omega
                rw [filter_ne_cons_neg cmp m m _ (hc.refl m), hrest] at k
                rw [e1, k, hi]

/-! ## The tree wrapper: invariants of a tree and their preservation -/

theorem is_null_eq_true {α : Type} (t : tree_node_s α) : is_null t = true ↔ t = .null := by
  cases t <;> simp [is_null]

theorem is_null_eq_false {α : Type} (t : tree_node_s α) :
    is_null t = false ↔ ∃ x b h l r, t = .node x b h l r := by
  cases t <;> simp [is_null]

/-- What `tree_insert` does on a tree that satisfies the invariants, with a non-null
element and the comparator: either an equal element is stored, duplicates are
disallowed, and the call returns `TREE_RC_ELEM_DUPL` with the tree untouched; or the call
returns `TREE_RC_OK`, the element enters the in-order sequence at its place, `count`
grows by one and the invariants hold again. -/
theorem tree_insert_spec {α : Type} (cmp : α → α → Int) (hc : consistent cmp)
    (t : tree_s α) (inv : tree_invariant cmp t) (e : α) :
    (t.allow_duplicates = false ∧ (∃ x ∈ inorder t.root, cmp x e = 0)
        ∧ tree_insert (some t) (some e) (some cmp) = some (.TREE_RC_ELEM_DUPL, some t))
    ∨ ((t.allow_duplicates = true ∨ ¬ ∃ x ∈ inorder t.root, cmp x e = 0)
        ∧ ∃ root', tree_insert (some t) (some e) (some cmp)
            = some (.TREE_RC_OK, some { t with root := root', count := t.count + 1 })
          ∧ tree_node_insert t.root (some e) (some cmp) t.allow_duplicates = some root'
          ∧ tree_invariant cmp { t with root := root', count := t.count + 1 }
          ∧ ∃ l1 l2, inorder t.root = l1 ++ l2 ∧ inorder root' = l1 ++ e :: l2
              ∧ (∀ x ∈ l1, 0 ≤ cmp x e) ∧ (t.allow_duplicates = false → ∀ x ∈ l1, 0 < cmp x e)
              ∧ (∀ y ∈ l2, cmp y e < 0)) := by
  by_cases hd : is_null (tree_node_find t.root (some e) (some cmp)) = false
      ∧ t.allow_duplicates = false
  · left
    obtain ⟨hf, hdup⟩ := hd
    obtain ⟨x, b, h, l, r, hx⟩ := (is_null_eq_false _).1 hf
    obtain ⟨hx1, hx2⟩ := tree_node_find_sound _ _ _ _ _ _ _ _ hx
    refine ⟨hdup, ⟨x, hx2, hx1⟩, ?_⟩
    simp only [tree_insert, hf, hdup, and_self, if_true]
  · right
    have hnot : t.allow_duplicates = true ∨ ¬ ∃ x ∈ inorder t.root, cmp x e = 0 := by
      by_cases hd2 : t.allow_duplicates = true
      · exact Or.inl hd2
      · right
        intro hex
        apply hd
        exact ⟨tree_node_find_complete cmp hc t.root e inv.sorted hex, by simpa using hd2⟩
    obtain ⟨root', hr, ar, _, _⟩ :=
      tree_node_insert_avl t.root (some e) (some cmp) t.allow_duplicates inv.balanced
    have hins := tree_node_insert_inorder cmp hc t.allow_duplicates e t.root inv.sorted root' hr
    rcases hins with ⟨d, hex, _⟩ | ⟨l1, l2, e2, e3, e4, e5, e6⟩
    · exfalso
      rcases hnot with h1 | h1
      · rw [d] at h1; exact absurd h1 (by decide)
      · exact h1 hex
    · refine ⟨hnot, root', ?_, hr, ?_, l1, l2, e2, e3, e4, e5, e6⟩
      · simp only [tree_insert, hd, if_false, hr, Option.some_bind]
      · refine ⟨ar, tree_node_insert_ordered cmp hc _ e _ _ inv.sorted hr, ?_, ?_⟩
        · intro hdup
          have hdup' : t.allow_duplicates = false := hdup
          rw [hdup'] at hr
          exact tree_node_insert_strictly_ordered cmp hc e _ _ (inv.strict hdup') hr
        · show t.count + 1 = node_count root'
          rw [inv.counted, node_count_eq_length, node_count_eq_length, e2, e3]
          simp only [List.length_append, List.length_cons]
          omega

/-- What `tree_remove` does on a tree that satisfies the invariants, with a non-null
probe and the comparator: either no stored element compares equal to the probe and the
call returns `NULL` with the tree untouched; or it returns the element of the node that
`tree_node_find` finds, one node disappears, `count` drops by one and the invariants
hold again. -/
theorem tree_remove_spec {α : Type} (cmp : α → α → Int) (hc : consistent cmp)
    (t : tree_s α) (inv : tree_invariant cmp t) (p : α) :
    ((¬ ∃ x ∈ inorder t.root, cmp x p = 0)
        ∧ tree_remove (some t) (some p) (some cmp) = some (none, some t))
    ∨ (∃ removed root',
        tree_node_find_elem t.root (some p) (some cmp) = some removed
          ∧ cmp removed p = 0 ∧ removed ∈ inorder t.root
          ∧ tree_remove (some t) (some p) (some cmp)
              = some (some removed,
                  some { t with root := root', count := size_t_decrement t.count })
          ∧ tree_node_remove t.root (some p) (some cmp) = some root'
          ∧ tree_invariant cmp { t with root := root', count := size_t_decrement t.count }
          ∧ size_t_decrement t.count + 1 = t.count
          ∧ (inorder root').length + 1 = (inorder t.root).length
          ∧ (∀ y ∈ inorder root', y ∈ inorder t.root)
          ∧ (t.allow_duplicates = false →
              inorder root' = (inorder t.root).filter fun y => decide (cmp y p ≠ 0))) := by
  cases hf : tree_node_find t.root (some p) (some cmp) with
  | null =>
    left
    have hno : ¬ ∃ x ∈ inorder t.root, cmp x p = 0 := by
      intro hex
      have := tree_node_find_complete cmp hc t.root p inv.sorted hex
      rw [hf] at this
      simp [is_null] at this
    refine ⟨hno, ?_⟩
    simp only [tree_remove, hf]
    split_ifs <;> rfl
  | node removed fb fh fl fr =>
    right
    obtain ⟨hx1, hx2⟩ := tree_node_find_sound _ _ _ _ _ _ _ _ hf
    obtain ⟨root', hr, ar, _, _⟩ := tree_node_remove_avl t.root inv.balanced (some p) (some cmp)
    obtain ⟨k1, k2, k3⟩ := tree_node_remove_ordered cmp hc t.root p root' inv.sorted hr
    have hlen := k3 ⟨removed, hx2, hx1⟩
    have hnn : is_null t.root = false := by
      cases hroot : t.root with
      | null => rw [hroot] at hx2; simp at hx2
      | node _ _ _ _ _ => rfl
    have hcnt : size_t_decrement t.count + 1 = t.count := by
      have h1 := inv.counted
      rw [node_count_eq_length] at h1
      unfold size_t_decrement
      split_ifs with h0
      · omega
      · omega
    have hstrict : t.allow_duplicates = false →
        inorder root' = (inorder t.root).filter fun y => decide (cmp y p ≠ 0) :=
      fun hd => tree_node_remove_strict cmp hc t.root p root' (inv.strict hd) hr
    refine ⟨removed, root', ?_, hx1, hx2, ?_, hr, ?_, hcnt, hlen, k2, hstrict⟩
    · simp only [tree_node_find_elem, hf]
    · simp only [tree_remove, hnn, hf, hr, Option.some_bind]
      rfl
    · refine ⟨ar, k1, ?_, ?_⟩
      · intro hd
        have hd' : t.allow_duplicates = false := hd
        show (inorder root').Pairwise _
        rw [hstrict hd']
        exact List.Pairwise.filter _ (inv.strict hd')
      · show size_t_decrement t.count = node_count root'
        have h1 := inv.counted
        rw [node_count_eq_length] at h1 ⊢
        omega

theorem tree_node_destroy_fst {α : Type} (t : tree_node_s α) (d : Bool) :
    (tree_node_destroy t d).1 = .null := by
  cases t <;> rfl

theorem tree_clear_some {α : Type} (t : tree_s α) (d : Bool) :
    (tree_clear (some t) d).2 = some { t with root := .null, count := 0 } := by
  cases hr : t.root with
  | null => simp [tree_clear, hr, is_null]
  | node x b h l r =>
    simp only [tree_clear, hr, is_null, tree_node_destroy_fst]
    split_ifs <;> simp_all

theorem tree_invariant_empty {α : Type} (cmp : α → α → Int) (dup : Bool) (n : Nat)
    (hn : n = 0) :
    tree_invariant cmp ({ root := .null, allow_duplicates := dup, count := n } : tree_s α) :=
  ⟨trivial, List.Pairwise.nil, fun _ => List.Pairwise.nil, hn⟩

/-- Every call keeps the invariants and the duplicate policy of the tree, and none of
them runs into a `NULL` dereference. -/
theorem tree_step_invariant {α : Type} (cmp : α → α → Int) (hc : consistent cmp)
    (t : tree_s α) (inv : tree_invariant cmp t) (op : tree_op α) :
    ∃ t', tree_step cmp (some t) op = some (some t') ∧ tree_invariant cmp t'
      ∧ t'.allow_duplicates = t.allow_duplicates := by
  cases op with
  | insert e w =>
    cases e with
    | none => exact ⟨t, rfl, inv, rfl⟩
    | some e =>
      cases w with
      | false => exact ⟨t, rfl, inv, rfl⟩
      | true =>
        rcases tree_insert_spec cmp hc t inv e with ⟨_, _, h⟩ | ⟨_, root', h, _, inv', _⟩
        · exact ⟨t, by simp [tree_step, h], inv, rfl⟩
        · exact ⟨_, by simp [tree_step, h], inv', rfl⟩
  | remove e w =>
    cases e with
    | none => exact ⟨t, rfl, inv, rfl⟩
    | some e =>
      cases w with
      | false => exact ⟨t, rfl, inv, rfl⟩
      | true =>
        rcases tree_remove_spec cmp hc t inv e with ⟨_, h⟩ | ⟨x, root', _, _, _, h, _, inv', _⟩
        · exact ⟨t, by simp [tree_step, h], inv, rfl⟩
        · exact ⟨_, by simp [tree_step, h], inv', rfl⟩
  | clear d =>
    refine ⟨{ t with root := .null, count := 0 }, ?_, ?_, rfl⟩
    · simp only [tree_step, tree_clear_some]
    · exact tree_invariant_empty cmp _ _ rfl

/-- Every call keeps the AVL invariant on the stored heights and balance factors,
whatever the comparator computes. -/
theorem tree_step_avl {α : Type} (cmp : α → α → Int)
    (t : tree_s α) (inv : avl t.root) (op : tree_op α) :
    ∃ t', tree_step cmp (some t) op = some (some t') ∧ avl t'.root := by
  cases op with
  | insert e w =>
    cases e with
    | none => exact ⟨t, rfl, inv⟩
    | some e =>
      cases w with
      | false => exact ⟨t, rfl, inv⟩
      | true =>
        by_cases hd : is_null (tree_node_find t.root (some e) (some cmp)) = false
            ∧ t.allow_duplicates = false
        · exact ⟨t, by simp [tree_step, tree_insert, hd], inv⟩
        · obtain ⟨root', hr, ar, _, _⟩ :=
            tree_node_insert_avl t.root (some e) (some cmp) t.allow_duplicates inv
          exact ⟨{ t with root := root', count := t.count + 1 },
            by simp [tree_step, tree_insert, hd, hr], ar⟩
  | remove e w =>
    cases e with
    | none => exact ⟨t, rfl, inv⟩
    | some e =>
      cases w with
      | false => exact ⟨t, rfl, inv⟩
      | true =>
        obtain ⟨root', hr, ar, _, _⟩ := tree_node_remove_avl t.root inv (some e) (some cmp)
        simp only [tree_step, tree_remove, if_true]
        split_ifs with h0
        · exact ⟨t, rfl, inv⟩
        · cases hf : tree_node_find t.root (some e) (some cmp) with
          | null => exact ⟨t, rfl, inv⟩
          | node x b h l r =>
            exact ⟨{ t with root := root', count := size_t_decrement t.count },
              by simp [hr], ar⟩
  | clear d =>
    exact ⟨{ t with root := .null, count := 0 },
      by simp only [tree_step, tree_clear_some], trivial⟩

/-- A property kept by every call holds after every finite sequence of calls, and the
sequence runs to its end. -/
theorem tree_run_preserves {α : Type} (cmp : α → α → Int) (P : tree_s α → Prop)
    (hstep : ∀ t op, P t → ∃ t', tree_step cmp (some t) op = some (some t') ∧ P t')
    (ops : List (tree_op α)) :
    ∀ t, P t → ∃ t', tree_run cmp (some t) ops = some (some t') ∧ P t' := by
  induction ops with
  | nil => intro t ht; exact ⟨t, rfl, ht⟩
  | cons op ops ih =>
    intro t ht
    obtain ⟨t1, h1, p1⟩ := hstep t op ht
    obtain ⟨t2, h2, p2⟩ := ih t1 p1
    exact ⟨t2, by simp only [tree_run, h1, Option.some_bind, h2], p2⟩

theorem tree_new_eq {α : Type} (dup : Bool) :
    (tree_new dup : Option (tree_s α))
      = some { root := .null, allow_duplicates := dup, count := 0 } := rfl

/-- Every tree reached from a new tree by calls that use one consistent comparator
satisfies the invariants and keeps the duplicate policy it was created with. -/
theorem tree_run_invariant {α : Type} (cmp : α → α → Int) (hc : consistent cmp) (dup : Bool)
    (ops : List (tree_op α)) :
    ∃ t, tree_run cmp (tree_new dup) ops = some (some t) ∧ tree_invariant cmp t
      ∧ t.allow_duplicates = dup := by
  rw [tree_new_eq]
  exact tree_run_preserves cmp (fun t => tree_invariant cmp t ∧ t.allow_duplicates = dup)
    (fun t op ⟨inv, hd⟩ => by
      obtain ⟨t', h1, h2, h3⟩ := tree_step_invariant cmp hc t inv op
      exact ⟨t', h1, h2, h3.trans hd⟩)
    ops _ ⟨tree_invariant_empty cmp dup 0 rfl, rfl⟩

/-- Every tree reached from a new tree satisfies the AVL invariant, whatever the
comparator computes. -/
theorem tree_run_avl {α : Type} (cmp : α → α → Int) (dup : Bool) (ops : List (tree_op α)) :
    ∃ t, tree_run cmp (tree_new dup) ops = some (some t) ∧ avl t.root := by
  rw [tree_new_eq]
  exact tree_run_preserves cmp (fun t => avl t.root) (fun t op inv => tree_step_avl cmp t inv op)
    ops _ trivial

/-! ## Lemmas for the claims -/

theorem avl_every_balance_correct {α : Type} (t : tree_node_s α) (h : avl t) :
    every_node balance_correct t := by
  induction t with
  | null => trivial
  | node x b hh l r ihl ihr =>
    obtain ⟨_, hb, h1, h2, al, ar⟩ := h
    refine ⟨⟨by omega, ?_⟩, ihl al, ihr ar⟩
    rw [hb, avl_node_height_eq_true l al, avl_node_height_eq_true r ar]

theorem avl_every_height_correct {α : Type} (t : tree_node_s α) (h : avl t) :
    every_node height_correct t := by
  induction t with
  | null => trivial
  | node x b hh l r ihl ihr =>
    obtain ⟨h0, _, _, _, al, ar⟩ := h
    exact ⟨h0, ihl al, ihr ar⟩

theorem foldl_record_visit {α : Type} (l : List α) :
    ∀ s : List α, l.foldl record_visit s = s ++ l := by
  induction l with
  | nil => intro s; simp
  | cons x l ih => intro s; simp [List.foldl_cons, ih, record_visit]

/-- The in-order traversal applies the visitor to the elements of `inorder`, from first
to last. -/
theorem tree_node_traverse_inorder_eq {α σ : Type} (visit : σ → α → σ) (t : tree_node_s α) :
    ∀ s, tree_node_traverse_inorder t (some visit) s = (inorder t).foldl visit s := by
  induction t with
  | null => intro s; rfl
  | node x b h l r ihl ihr =>
    intro s
    simp only [tree_node_traverse_inorder, inorder_node, List.foldl_append, List.foldl_cons,
      ihl, ihr]

theorem traverse_inorder_record {α : Type} (t : tree_node_s α) :
    tree_node_traverse_inorder t (some record_visit) [] = inorder t := by
  rw [tree_node_traverse_inorder_eq, foldl_record_visit, List.nil_append]

theorem number_compare_consistent : consistent number_compare :=
  ⟨fun a b => by unfold number_compare; omega,
   fun a b c => by unfold number_compare; omega⟩

theorem tree_find_some {α : Type} (t : tree_s α) (p : α) (cmp : α → α → Int) :
    tree_find (some t) (some p) (some cmp) = tree_node_find_elem t.root (some p) (some cmp) :=
  rfl

/-- In an ordered tree, `tree_node_find_elem` returns a stored element that compares
equal to the probe when there is one, and `NULL` exactly when there is none. -/
theorem tree_node_find_elem_spec {α : Type} (cmp : α → α → Int) (hc : consistent cmp)
    (t : tree_node_s α) (ho : ordered cmp t) (p : α) :
    ((∃ x ∈ inorder t, cmp x p = 0) →
        ∃ x, tree_node_find_elem t (some p) (some cmp) = some x ∧ x ∈ inorder t ∧ cmp x p = 0)
      ∧ (tree_node_find_elem t (some p) (some cmp) = none ↔ ¬ ∃ x ∈ inorder t, cmp x p = 0) := by
  cases hf : tree_node_find t (some p) (some cmp) with
  | null =>
    have hno : ¬ ∃ x ∈ inorder t, cmp x p = 0 := by
      intro hex
      have := tree_node_find_complete cmp hc t p ho hex
      rw [hf] at this
      simp [is_null] at this
    exact ⟨fun hex => absurd hex hno, by simp [tree_node_find_elem, hf, hno]⟩
  | node x b h l r =>
    obtain ⟨h1, h2⟩ := tree_node_find_sound _ _ _ _ _ _ _ _ hf
    refine ⟨fun _ => ⟨x, by simp [tree_node_find_elem, hf], h2, h1⟩, ?_⟩
    simp only [tree_node_find_elem, hf]
    constructor
    · intro h0; exact absurd h0 (by simp)
    · intro hno; exact absurd ⟨x, h2, h1⟩ hno

/-! ## The claims -/

/-- C1. Balance invariant: from a new tree of either duplicate policy, after every call
of a finite sequence of `tree_insert`, `tree_remove` (and `tree_clear`) calls, made with
any arguments and any comparator, the sequence has run without a `NULL` dereference and
every node reachable from the root stores a balance factor in `{-1, 0, +1}` that is the
true height of its right subtree minus the true height of its left subtree.  (The tree
after each call is the tree after a prefix of the sequence, itself a sequence.) -/
theorem balance_invariant {α : Type} (cmp : α → α → Int) (dup : Bool)
    (ops : List (tree_op α)) :
    ∃ t, tree_run cmp (tree_new dup) ops = some (some t)
      ∧ every_node balance_correct t.root := by
  obtain ⟨t, h1, h2⟩ := tree_run_avl cmp dup ops
  exact ⟨t, h1, avl_every_balance_correct _ h2⟩

/-- C2. Ordering invariant: from a new tree of either duplicate policy, after every call
of a finite sequence of calls made with one consistent comparator, the in-order traversal
visits the stored elements in non-decreasing order: for consecutively visited `x` then
`y`, `compare x y ≥ 0`, and `compare x y > 0` when duplicates are disallowed. -/
theorem ordering_invariant {α : Type} (cmp : α → α → Int) (hc : consistent cmp) (dup : Bool)
    (ops : List (tree_op α)) :
    ∃ t, tree_run cmp (tree_new dup) ops = some (some t)
      ∧ List.Chain' (fun x y => 0 ≤ cmp x y ∧ (dup = false → 0 < cmp x y))
          (tree_node_traverse_inorder t.root (some record_visit) []) := by
  obtain ⟨t, h1, inv, hd⟩ := tree_run_invariant cmp hc dup ops
  refine ⟨t, h1, ?_⟩
  rw [traverse_inorder_record]
  apply List.Pairwise.chain'
  cases dup with
  | true => exact List.Pairwise.imp (fun h => ⟨h, fun h0 => absurd h0 (by decide)⟩) inv.sorted
  | false =>
    exact List.Pairwise.imp (fun h => ⟨le_of_lt h, fun _ => h⟩) (inv.strict hd)

/-- Witness of C2 on the numbers of the tests, with insertions, a refused duplicate and
removals. -/
theorem ordering_invariant_witness :
    consistent number_compare ∧
    ∃ t, tree_run number_compare (tree_new false)
        [.insert (some ⟨1, 5⟩) true, .insert (some ⟨2, 10⟩) true, .insert (some ⟨3, 15⟩) true,
         .insert (some ⟨4, 10⟩) true, .remove (some ⟨0, 10⟩) true, .insert (some ⟨5, 7⟩) true]
        = some (some t)
      ∧ List.Chain' (fun x y => 0 ≤ number_compare x y ∧ (false = false → 0 < number_compare x y))
          (tree_node_traverse_inorder t.root (some record_visit) []) :=
  ⟨number_compare_consistent, ordering_invariant number_compare number_compare_consistent false _⟩

/-- C3. Height correctness: from a new tree, after every call of a finite sequence of
calls, every reachable node stores the height `1 + max (height left) (height right)`,
an absent child counting as `-1`; this covers the nodes moved by rotations and the child
promoted by a removal, which are nodes of the tree after the call. -/
theorem height_invariant {α : Type} (cmp : α → α → Int) (dup : Bool)
    (ops : List (tree_op α)) :
    ∃ t, tree_run cmp (tree_new dup) ops = some (some t)
      ∧ every_node height_correct t.root := by
  obtain ⟨t, h1, h2⟩ := tree_run_avl cmp dup ops
  exact ⟨t, h1, avl_every_height_correct _ h2⟩

/-- C4. Count invariant: from a new tree, after every call of a finite sequence of
`tree_insert`, `tree_remove` and `tree_clear` calls made with one consistent comparator,
failing calls included (absent element, absent callback, refused duplicate, probe not
found), `count` is the number of nodes reachable from the root. -/
theorem count_invariant {α : Type} (cmp : α → α → Int) (hc : consistent cmp) (dup : Bool)
    (ops : List (tree_op α)) :
    ∃ t, tree_run cmp (tree_new dup) ops = some (some t)
      ∧ t.count = node_count t.root := by
  obtain ⟨t, h1, inv, _⟩ := tree_run_invariant cmp hc dup ops
  exact ⟨t, h1, inv.counted⟩

/-- Witness of C4: successful and failing calls of each kind on a tree of numbers. -/
theorem count_invariant_witness :
    consistent number_compare ∧
    ∃ t, tree_run number_compare (tree_new true)
        [.insert (some ⟨1, 5⟩) true, .insert none true, .insert (some ⟨2, 5⟩) true,
         .insert (some ⟨3, 9⟩) false, .remove (some ⟨0, 8⟩) true, .remove (some ⟨0, 5⟩) true,
         .clear false, .insert (some ⟨4, 1⟩) true]
        = some (some t)
      ∧ t.count = node_count t.root :=
  ⟨number_compare_consistent, count_invariant number_compare number_compare_consistent true _⟩

/-- C5. Search correctness: on a tree that satisfies the ordering invariant, with a
consistent comparator and a non-null probe, `tree_find` returns a stored element that
compares equal to the probe whenever some stored element compares equal to it, and
returns `NULL` exactly when no stored element compares equal to it. -/
theorem search_correctness {α : Type} (cmp : α → α → Int) (hc : consistent cmp)
    (t : tree_s α) (ho : ordered cmp t.root) (p : α) :
    ((∃ x ∈ inorder t.root, cmp x p = 0) →
        ∃ x, tree_find (some t) (some p) (some cmp) = some x
          ∧ x ∈ inorder t.root ∧ cmp x p = 0)
      ∧ (tree_find (some t) (some p) (some cmp) = none
          ↔ ¬ ∃ x ∈ inorder t.root, cmp x p = 0) :=
  tree_node_find_elem_spec cmp hc t.root ho p

theorem scenario_a_ordered : ordered number_compare scenario_a.root := by
  simp [ordered, scenario_a, number_compare]

/-- Witness of C5: the probe 25 on the tree of Scenario A. -/
theorem search_correctness_witness :
    consistent number_compare ∧ ordered number_compare scenario_a.root ∧
    (((∃ x ∈ inorder scenario_a.root, number_compare x ⟨0, 25⟩ = 0) →
        ∃ x, tree_find (some scenario_a) (some ⟨0, 25⟩) (some number_compare) = some x
          ∧ x ∈ inorder scenario_a.root ∧ number_compare x ⟨0, 25⟩ = 0)
      ∧ (tree_find (some scenario_a) (some ⟨0, 25⟩) (some number_compare) = none
          ↔ ¬ ∃ x ∈ inorder scenario_a.root, number_compare x ⟨0, 25⟩ = 0)) :=
  ⟨number_compare_consistent, scenario_a_ordered,
    search_correctness number_compare number_compare_consistent scenario_a scenario_a_ordered
      ⟨0, 25⟩⟩

/-- The tree `scenario_a` is the tree that the seven insertions of Scenario A build. -/
theorem scenario_a_built :
    tree_run number_compare (tree_new false)
        (insert_all [⟨1, 5⟩, ⟨2, 10⟩, ⟨3, 15⟩, ⟨4, 20⟩, ⟨5, 25⟩, ⟨6, 30⟩, ⟨7, 35⟩])
      = some (some scenario_a) := by
  decide

theorem scenario_a_invariant : tree_invariant number_compare scenario_a := by
  refine ⟨?_, scenario_a_ordered, fun _ => ?_, rfl⟩
  · simp [scenario_a, avl]
  · simp [strictly_ordered, scenario_a, number_compare]

/-- C6. Identity round trip: on a tree of either duplicate policy that satisfies the
invariants and stores no element comparing equal to `e`, `tree_insert` of `e` returns
`TREE_RC_OK`, and afterwards `tree_find` with any probe that compares equal to `e`
returns the reference `e` itself. -/
theorem identity_round_trip {α : Type} (cmp : α → α → Int) (hc : consistent cmp)
    (t : tree_s α) (inv : tree_invariant cmp t) (e : α)
    (hnew : ∀ x ∈ inorder t.root, cmp x e ≠ 0) :
    ∃ t', tree_insert (some t) (some e) (some cmp) = some (.TREE_RC_OK, some t')
      ∧ ∀ p, cmp e p = 0 → tree_find (some t') (some p) (some cmp) = some e := by
  rcases tree_insert_spec cmp hc t inv e with ⟨_, ⟨x, hx, hxe⟩, _⟩ |
    ⟨_, root', h, _, inv', l1, l2, e2, e3, _⟩
  · exact absurd hxe (hnew x hx)
  · refine ⟨_, h, fun p hp => ?_⟩
    rw [tree_find_some]
    have he : e ∈ inorder root' := by rw [e3]; simp
    obtain ⟨x, hf, hx, hxp⟩ :=
      (tree_node_find_elem_spec cmp hc root' inv'.sorted p).1 ⟨e, he, hp⟩
    show tree_node_find_elem root' (some p) (some cmp) = some e
    rw [hf]
    rw [e3] at hx
    simp only [List.mem_append, List.mem_cons] at hx
    have hold : x ∈ inorder t.root → False := by
      intro hx'
      exact hnew x hx' (hc.eq_trans x p e hxp (hc.eq_symm e p hp))
    rcases hx with hx | hx | hx
    · exact absurd (by rw [e2]; simp [hx]) hold
    · rw [hx]
    · exact absurd (by rw [e2]; simp [hx]) hold

/-- Witness of C6: a new number 22 inserted into the tree of Scenario A. -/
theorem identity_round_trip_witness :
    consistent number_compare ∧ tree_invariant number_compare scenario_a ∧
    (∀ x ∈ inorder scenario_a.root, number_compare x ⟨8, 22⟩ ≠ 0) ∧
    ∃ t', tree_insert (some scenario_a) (some ⟨8, 22⟩) (some number_compare)
        = some (.TREE_RC_OK, some t')
      ∧ ∀ p, number_compare ⟨8, 22⟩ p = 0 →
          tree_find (some t') (some p) (some number_compare) = some ⟨8, 22⟩ :=
  ⟨number_compare_consistent, scenario_a_invariant,
    by simp [scenario_a, number_compare],
    identity_round_trip number_compare number_compare_consistent scenario_a
      scenario_a_invariant ⟨8, 22⟩ (by simp [scenario_a, number_compare])⟩

/-- C7. Deletion identity: for every tree pointer whose tree, when there is one, has
correct stored heights and balance factors, every probe and every comparator (absent
ones included), `tree_remove` returns, and the element it returns is the one `tree_find`
returns on the tree as it is before the call (`NULL` when `tree_find` returns `NULL`);
the case of a matched node with two children, whose element slot is overwritten during
the removal, is included. -/
theorem deletion_identity {α : Type} (tree : Option (tree_s α)) (elem : Option α)
    (elem_compare : Option (α → α → Int)) (h : ∀ t, tree = some t → avl t.root) :
    ∃ tree', tree_remove tree elem elem_compare
      = some (tree_find tree elem elem_compare, tree') := by
  cases tree with
  | none => exact ⟨none, rfl⟩
  | some t =>
    cases elem with
    | none => exact ⟨some t, rfl⟩
    | some e =>
      cases elem_compare with
      | none => exact ⟨some t, rfl⟩
      | some cmp =>
        obtain ⟨root', hr, _⟩ := tree_node_remove_avl t.root (h t rfl) (some e) (some cmp)
        rw [tree_find_some]
        cases hf : tree_node_find t.root (some e) (some cmp) with
        | null =>
          refine ⟨some t, ?_⟩
          simp only [tree_remove, tree_node_find_elem, hf]
          split_ifs <;> rfl
        | node x b hh l r =>
          have hnn : is_null t.root = false := by
            cases hroot : t.root with
            | null => rw [hroot] at hf; simp [tree_node_find] at hf
            | node _ _ _ _ _ => rfl
          exact ⟨some { t with root := root', count := size_t_decrement t.count },
            by simp [tree_remove, tree_node_find_elem, hf, hnn, hr]⟩

/-- Witness of C7: removing 20 from the tree of Scenario A, where 20 is at the root, a
node with two children. -/
theorem deletion_identity_witness :
    (∀ t, some scenario_a = some t → avl t.root) ∧
    ∃ tree', tree_remove (some scenario_a) (some ⟨0, 20⟩) (some number_compare)
      = some (tree_find (some scenario_a) (some ⟨0, 20⟩) (some number_compare), tree') :=
  ⟨fun t ht => by cases ht; exact scenario_a_invariant.balanced,
    deletion_identity (some scenario_a) (some ⟨0, 20⟩) (some number_compare)
      (fun t ht => by cases ht; exact scenario_a_invariant.balanced)⟩

/-- C8. Removal of a present key: on a tree without duplicates that satisfies the
invariants, with a probe that compares equal to a stored element, `tree_remove` returns
a stored element (one that compares equal to the probe), `count` decreases by exactly
one, and a following `tree_find` with the same probe returns `NULL`. -/
theorem remove_present {α : Type} (cmp : α → α → Int) (hc : consistent cmp)
    (t : tree_s α) (inv : tree_invariant cmp t) (hd : t.allow_duplicates = false) (k : α)
    (hex : ∃ x ∈ inorder t.root, cmp x k = 0) :
    ∃ r t', tree_remove (some t) (some k) (some cmp) = some (some r, some t')
      ∧ r ∈ inorder t.root ∧ cmp r k = 0
      ∧ t'.count + 1 = t.count
      ∧ tree_find (some t') (some k) (some cmp) = none := by
  rcases tree_remove_spec cmp hc t inv k with ⟨hno, _⟩ |
    ⟨r, root', _, hr1, hr2, h, _, inv', hcnt, _, _, hfil⟩
  · exact absurd hex hno
  · refine ⟨r, _, h, hr2, hr1, hcnt, ?_⟩
    rw [tree_find_some]
    apply (tree_node_find_elem_spec cmp hc root' inv'.sorted k).2.2
    rintro ⟨x, hx, hxk⟩
    have hx' : x ∈ inorder root' := hx
    rw [hfil hd, List.mem_filter] at hx'
    simp [hxk] at hx'

/-- Witness of C8: removing the leaf 25 from the tree of Scenario A. -/
theorem remove_present_witness :
    consistent number_compare ∧ tree_invariant number_compare scenario_a ∧
    scenario_a.allow_duplicates = false ∧
    (∃ x ∈ inorder scenario_a.root, number_compare x ⟨0, 25⟩ = 0) ∧
    ∃ r t', tree_remove (some scenario_a) (some ⟨0, 25⟩) (some number_compare)
        = some (some r, some t')
      ∧ r ∈ inorder scenario_a.root ∧ number_compare r ⟨0, 25⟩ = 0
      ∧ t'.count + 1 = scenario_a.count
      ∧ tree_find (some t') (some ⟨0, 25⟩) (some number_compare) = none :=
  ⟨number_compare_consistent, scenario_a_invariant, rfl,
    ⟨⟨5, 25⟩, by simp [scenario_a], by simp [number_compare]⟩,
    remove_present number_compare number_compare_consistent scenario_a scenario_a_invariant
      rfl ⟨0, 25⟩ ⟨⟨5, 25⟩, by simp [scenario_a], by simp [number_compare]⟩⟩

/-- C9. Duplicate refusal: on an ordered tree with duplicates disallowed, `tree_insert`
of an element that compares equal to a stored element returns `TREE_RC_ELEM_DUPL` and
the tree after the call is the tree before it: same count, same nodes, same stored
element references. -/
theorem duplicate_refusal {α : Type} (cmp : α → α → Int) (hc : consistent cmp)
    (t : tree_s α) (ho : ordered cmp t.root) (hd : t.allow_duplicates = false) (e : α)
    (hex : ∃ x ∈ inorder t.root, cmp x e = 0) :
    tree_insert (some t) (some e) (some cmp) = some (.TREE_RC_ELEM_DUPL, some t) := by
  have hf := tree_node_find_complete cmp hc t.root e ho hex
  simp only [tree_insert, hf, hd, and_self, if_true]

/-- Witness of C9: inserting another 20 into the tree of Scenario A. -/
theorem duplicate_refusal_witness :
    consistent number_compare ∧ ordered number_compare scenario_a.root ∧
    scenario_a.allow_duplicates = false ∧
    (∃ x ∈ inorder scenario_a.root, number_compare x ⟨0, 20⟩ = 0) ∧
    tree_insert (some scenario_a) (some ⟨0, 20⟩) (some number_compare)
      = some (.TREE_RC_ELEM_DUPL, some scenario_a) :=
  ⟨number_compare_consistent, scenario_a_ordered, rfl,
    ⟨⟨4, 20⟩, by simp [scenario_a], by simp [number_compare]⟩,
    duplicate_refusal number_compare number_compare_consistent scenario_a scenario_a_ordered
      rfl ⟨0, 20⟩ ⟨⟨4, 20⟩, by simp [scenario_a], by simp [number_compare]⟩⟩

/-- What a removal does to the other elements, in an ordered subtree where
`tree_node_find` finds a node with element `found`: when the stored references are
pairwise distinct, `found` is no longer stored afterwards; and every stored element other
than `found` still has an element comparing equal to it in the subtree returned. -/
theorem tree_node_remove_others {α : Type} (cmp : α → α → Int) (hc : consistent cmp)
    (t : tree_node_s α) :
    ∀ (p : α) (t' : tree_node_s α) (found : α) (fb fh : Int) (fl fr : tree_node_s α),
      ordered cmp t →
      tree_node_remove t (some p) (some cmp) = some t' →
      tree_node_find t (some p) (some cmp) = .node found fb fh fl fr →
      ((inorder t).Nodup → found ∉ inorder t')
        ∧ ∀ y ∈ inorder t, y ≠ found → ∃ z ∈ inorder t', cmp z y = 0 := by
  induction t with
  | null =>
    intro p t' found fb fh fl fr _ _ hf
    simp [tree_node_find] at hf
  | node x b hh l r ihl ihr =>
    intro p t' found fb fh fl fr ho h hf
    obtain ⟨ol, or_, h1, h2, h3⟩ := (pairwise_middle _ _ _ _).1 ho
    rw [tree_node_find_node] at hf
    by_cases c1 : cmp x p < 0
    · rw [if_pos c1] at hf
      rw [tree_node_remove_lt _ _ _ _ _ _ _ c1] at h
      cases hl : tree_node_remove l (some p) (some cmp) with
      | none => simp [hl] at h
      | some l' =>
        rw [hl, Option.some_bind] at h
        have e1 := balance_update_inorder _ _ _ _ _ _ h
        obtain ⟨k1, k2⟩ := ihl p l' found fb fh fl fr ol hl hf
        obtain ⟨_, hfl⟩ := tree_node_find_sound _ _ _ _ _ _ _ _ hf
        constructor
        · intro hnd
          rw [inorder_node] at hnd
          have hnd' := List.nodup_append.1 hnd
          have hdis := hnd'.2.2
          rw [e1]
          simp only [List.mem_append, List.mem_cons, not_or]
          refine ⟨k1 hnd'.1, ?_, ?_⟩
          · rintro rfl
            exact hdis hfl (List.mem_cons_self _ _)
          · intro hr
            exact hdis hfl (List.mem_cons_of_mem _ hr)
        · intro y hy hne
          rw [e1]
          simp only [inorder_node, List.mem_append, List.mem_cons] at hy
          rcases hy with hy | rfl | hy
          · obtain ⟨z, hz, hzy⟩ := k2 y hy hne
            exact ⟨z, by simp [hz], hzy⟩
          · exact ⟨y, by simp, hc.refl y⟩
          · exact ⟨y, by simp [hy], hc.refl y⟩
    · rw [if_neg c1] at hf
      by_cases c2 : cmp x p > 0
      · rw [if_pos c2] at hf
        rw [tree_node_remove_gt _ _ _ _ _ _ _ c1 c2] at h
        cases hr : tree_node_remove r (some p) (some cmp) with
        | none => simp [hr] at h
        | some r' =>
          rw [hr, Option.some_bind] at h
          have e1 := balance_update_inorder _ _ _ _ _ _ h
          obtain ⟨k1, k2⟩ := ihr p r' found fb fh fl fr or_ hr hf
          obtain ⟨_, hfr⟩ := tree_node_find_sound _ _ _ _ _ _ _ _ hf
          constructor
          · intro hnd
            rw [inorder_node] at hnd
            have hnd' := List.nodup_append.1 hnd
            have hdis := hnd'.2.2
            have hxr := List.nodup_cons.1 hnd'.2.1
            rw [e1]
            simp only [List.mem_append, List.mem_cons, not_or]
            refine ⟨?_, ?_, k1 hxr.2⟩
            · intro hl
              exact hdis hl (List.mem_cons_of_mem _ hfr)
            · rintro rfl
              exact hxr.1 hfr
          · intro y hy hne
            rw [e1]
            simp only [inorder_node, List.mem_append, List.mem_cons] at hy
            rcases hy with hy | rfl | hy
            · exact ⟨y, by simp [hy], hc.refl y⟩
            · exact ⟨y, by simp, hc.refl y⟩
            · obtain ⟨z, hz, hzy⟩ := k2 y hy hne
              exact ⟨z, by simp [hz], hzy⟩
      · rw [if_neg c2] at hf
        injection hf with hx _ _ _ _
        subst hx
        obtain ⟨_, ksub, _⟩ := tree_node_remove_ordered cmp hc _ p t' ho h
        cases l with
        | null =>
          cases r with
          | null =>
            rw [tree_node_remove_leaf _ _ _ _ _ c1 c2, Option.some.injEq] at h
            subst h
            constructor
            · intro _; simp
            · intro y hy hne
              simp at hy
              exact absurd hy hne
          | node rx rb rh rl rr =>
            rw [tree_node_remove_right_only _ _ _ _ _ _ _ _ _ _ c1 c2] at h
            have e1 : inorder t' = inorder (.node rx rb rh rl rr) := by
              rw [balance_inorder _ _ h, inorder_update]
            constructor
            · intro hnd
              rw [inorder_node, inorder_null, List.nil_append] at hnd
              rw [e1]
              exact (List.nodup_cons.1 hnd).1
            · intro y hy hne
              rw [inorder_node, inorder_null, List.nil_append, List.mem_cons] at hy
              rcases hy with hy | hy
              · exact absurd hy hne
              · exact ⟨y, by rw [e1]; exact hy, hc.refl y⟩
        | node lx lb lh ll lr =>
          cases r with
          | null =>
            rw [tree_node_remove_left_only _ _ _ _ _ _ _ _ _ _ c1 c2] at h
            have e1 : inorder t' = inorder (.node lx lb lh ll lr) := by
              rw [balance_inorder _ _ h, inorder_update]
            constructor
            · intro hnd
              rw [inorder_node] at hnd
              have hnd' := List.nodup_append.1 hnd
              rw [e1]
              intro hxl
              exact hnd'.2.2 hxl (List.mem_cons_self _ _)
            · intro y hy hne
              rw [inorder_node, inorder_null, List.mem_append, List.mem_cons] at hy
              rcases hy with hy | hy | hy
              · exact ⟨y, by rw [e1]; exact hy, hc.refl y⟩
              · exact absurd hy hne
              · simp at hy
          | node rx rb rh rl rr =>
            by_cases c3 : lh > rh
            · obtain ⟨m, mb, mh, ml, mr, hm, init, hi⟩ := tree_node_find_max_spec lr lx lb lh ll
              rw [tree_node_remove_two_left _ _ _ _ _ _ _ _ _ _ _ _ _ _ _ c1 c2 c3 m mb mh ml mr hm]
                at h
              cases hl' : tree_node_remove (.node lx lb lh ll lr) (some m) (some cmp) with
              | none => simp [hl'] at h
              | some l' =>
                rw [hl', Option.some_bind] at h
                have e1 := balance_update_inorder _ _ _ _ _ _ h
                obtain ⟨_, ksubL, _⟩ := tree_node_remove_ordered cmp hc _ m l' ol hl'
                have hml : m ∈ inorder (.node lx lb lh ll lr) := by rw [hi]; simp
                constructor
                · intro hnd
                  rw [inorder_node] at hnd
                  have hnd' := List.nodup_append.1 hnd
                  have hxr := List.nodup_cons.1 hnd'.2.1
                  rw [e1]
                  simp only [List.mem_append, List.mem_cons, not_or]
                  refine ⟨?_, ?_, hxr.1⟩
                  · intro hx
                    exact hnd'.2.2 (ksubL _ hx) (List.mem_cons_self _ _)
                  · intro hx
                    exact hnd'.2.2 (hx ▸ hml) (List.mem_cons_self _ _)
                · intro y hy hne
                  rw [inorder_node, List.mem_append, List.mem_cons] at hy
                  rcases hy with hy | hy | hy
                  · cases hf2 : tree_node_find (.node lx lb lh ll lr) (some m) (some cmp) with
                    | null =>
                      have := tree_node_find_complete cmp hc _ m ol ⟨m, hml, hc.refl m⟩
                      rw [hf2] at this
                      simp [is_null] at this
                    | node r2 b2 hh2 l2 r2' =>
                      obtain ⟨hr2, _⟩ := tree_node_find_sound _ _ _ _ _ _ _ _ hf2
                      by_cases hy2 : y = r2
                      · refine ⟨m, by rw [e1]; simp, ?_⟩
                        rw [hy2]
                        exact hc.eq_symm _ _ hr2
                      · obtain ⟨z, hz, hzy⟩ := (ihl m l' r2 b2 hh2 l2 r2' ol hl' hf2).2 y hy hy2
                        exact ⟨z, by rw [e1]; simp [hz], hzy⟩
                  · exact absurd hy hne
                  · exact ⟨y, by rw [e1]; exact List.mem_append_right _ (List.mem_cons_of_mem _ hy),
                      hc.refl y⟩
            · obtain ⟨m, mb, mh, ml, mr, hm, rest, hi⟩ := tree_node_find_min_spec rl rx rb rh rr
              rw [tree_node_remove_two_right _ _ _ _ _ _ _ _ _ _ _ _ _ _ _ c1 c2 c3 m mb mh ml mr hm]
                at h
              cases hr' : tree_node_remove (.node rx rb rh rl rr) (some m) (some cmp) with
              | none => simp [hr'] at h
              | some r' =>
                rw [hr', Option.some_bind] at h
                have e1 := balance_update_inorder _ _ _ _ _ _ h
                obtain ⟨_, ksubR, _⟩ := tree_node_remove_ordered cmp hc _ m r' or_ hr'
                have hmr : m ∈ inorder (.node rx rb rh rl rr) := by rw [hi]; simp
                constructor
                · intro hnd
                  rw [inorder_node] at hnd
                  have hnd' := List.nodup_append.1 hnd
                  have hxr := List.nodup_cons.1 hnd'.2.1
                  rw [e1]
                  simp only [List.mem_append, List.mem_cons, not_or]
                  refine ⟨?_, ?_, ?_⟩
                  · intro hx
                    exact hnd'.2.2 hx (List.mem_cons_self _ _)
                  · intro hx
                    exact hxr.1 (hx ▸ hmr)
                  · intro hx
                    exact hxr.1 (ksubR _ hx)
                · intro y hy hne
                  rw [inorder_node, List.mem_append, List.mem_cons] at hy
                  rcases hy with hy | hy | hy
                  · exact ⟨y, by rw [e1]; exact List.mem_append_left _ hy, hc.refl y⟩
                  · exact absurd hy hne
                  · cases hf2 : tree_node_find (.node rx rb rh rl rr) (some m) (some cmp) with
                    | null =>
                      have := tree_node_find_complete cmp hc _ m or_ ⟨m, hmr, hc.refl m⟩
                      rw [hf2] at this
                      simp [is_null] at this
                    | node r2 b2 hh2 l2 r2' =>
                      obtain ⟨hr2, _⟩ := tree_node_find_sound _ _ _ _ _ _ _ _ hf2
                      by_cases hy2 : y = r2
                      · refine ⟨m, by rw [e1]; simp, ?_⟩
                        rw [hy2]
                        exact hc.eq_symm _ _ hr2
                      · obtain ⟨z, hz, hzy⟩ := (ihr m r' r2 b2 hh2 l2 r2' or_ hr' hf2).2 y hy hy2
                        exact ⟨z, by rw [e1]; simp [hz], hzy⟩

/-- Inserting the elements of a list one after the other into a tree that allows
duplicates stores each of them: the in-order sequence is a permutation of the elements
stored before followed by the list. -/
theorem tree_run_insert_all {α : Type} (cmp : α → α → Int) (hc : consistent cmp)
    (es : List α) :
    ∀ t, tree_invariant cmp t → t.allow_duplicates = true →
      ∃ t', tree_run cmp (some t) (insert_all es) = some (some t') ∧ tree_invariant cmp t'
        ∧ t'.allow_duplicates = true ∧ (inorder t'.root).Perm (inorder t.root ++ es) := by
  induction es with
  | nil => intro t inv hd; exact ⟨t, rfl, inv, hd, by simp⟩
  | cons e es ih =>
    intro t inv hd
    rcases tree_insert_spec cmp hc t inv e with ⟨hd', _, _⟩ |
      ⟨_, root', h, _, inv', l1, l2, e2, e3, _⟩
    · rw [hd] at hd'; exact absurd hd' (by decide)
    · obtain ⟨t', h', inv'', hd'', hp⟩ := ih { t with root := root', count := t.count + 1 } inv' hd
      refine ⟨t', ?_, inv'', hd'', ?_⟩
      · simp only [insert_all, List.map_cons, tree_run, tree_step, if_true, h, Option.map_some',
          Option.some_bind]
        exact h'
      · refine hp.trans ?_
        show (inorder root' ++ es).Perm (inorder t.root ++ e :: es)
        rw [e3, e2]
        simp only [List.append_assoc, List.cons_append]
        exact List.Perm.append_left l1 (List.perm_middle.symm)

/-- C10, as amended. In a tree with duplicates allowed, built from empty by inserting
pairwise-distinct element references with a consistent comparator, when some inserted
element compares equal to the probe: `tree_find` returns one of the inserted elements
that compare equal to the probe (the element of the first matching node on the search
path, not always the one inserted first); `tree_remove` with that probe returns exactly
that element; and afterwards `tree_find` returns another inserted element that compares
equal to the probe when there is one, and `NULL` when there is none. -/
theorem first_found_lookup {α : Type} (cmp : α → α → Int) (hc : consistent cmp)
    (es : List α) (hnd : es.Nodup) (p : α) (hex : ∃ x ∈ es, cmp x p = 0) :
    ∃ t x t', tree_run cmp (tree_new true) (insert_all es) = some (some t)
      ∧ tree_find (some t) (some p) (some cmp) = some x ∧ x ∈ es ∧ cmp x p = 0
      ∧ tree_remove (some t) (some p) (some cmp) = some (some x, some t')
      ∧ ((∃ y ∈ es, y ≠ x ∧ cmp y p = 0) →
          ∃ y, tree_find (some t') (some p) (some cmp) = some y
            ∧ y ∈ es ∧ y ≠ x ∧ cmp y p = 0)
      ∧ ((¬ ∃ y ∈ es, y ≠ x ∧ cmp y p = 0) →
          tree_find (some t') (some p) (some cmp) = none) := by
  obtain ⟨t, hrun, inv, _, hperm⟩ :=
    tree_run_insert_all cmp hc es _ (tree_invariant_empty cmp true 0 rfl) rfl
  rw [inorder_null, List.nil_append] at hperm
  obtain ⟨x0, hx0, hx0p⟩ := hex
  rcases tree_remove_spec cmp hc t inv p with ⟨hno, _⟩ |
    ⟨x, root', hfe, hxp, hxin, hrem, hnr, inv', _, _, ksub, _⟩
  · exact absurd ⟨x0, hperm.mem_iff.2 hx0, hx0p⟩ hno
  · have hnodup : (inorder t.root).Nodup := hperm.nodup_iff.2 hnd
    cases hf : tree_node_find t.root (some p) (some cmp) with
    | null => simp [tree_node_find_elem, hf] at hfe
    | node f fb fh fl fr =>
      have hfx : f = x := by simpa [tree_node_find_elem, hf] using hfe
      subst hfx
      obtain ⟨hgone, hothers⟩ :=
        tree_node_remove_others cmp hc t.root p root' f fb fh fl fr inv.sorted hnr hf
      have hgone' := hgone hnodup
      have hspec := tree_node_find_elem_spec cmp hc root' inv'.sorted p
      refine ⟨t, f, _, hrun, hfe, hperm.mem_iff.1 hxin, hxp, hrem, ?_, ?_⟩
      · rintro ⟨y, hy, hyx, hyp⟩
        obtain ⟨z, hz, hzy⟩ := hothers y (hperm.mem_iff.2 hy) hyx
        obtain ⟨w, hw, hwin, hwp⟩ := hspec.1 ⟨z, hz, hc.eq_trans z y p hzy hyp⟩
        refine ⟨w, hw, hperm.mem_iff.1 (ksub w hwin), ?_, hwp⟩
        rintro rfl
        exact hgone' hwin
      · intro hnone
        apply hspec.2.2
        rintro ⟨z, hz, hzp⟩
        apply hnone
        refine ⟨z, hperm.mem_iff.1 (ksub z hz), ?_, hzp⟩
        rintro rfl
        exact hgone' hz

/-- Witness of the amended C10: two numbers of value 30 among the numbers of the test. -/
theorem first_found_lookup_witness :
    consistent number_compare
    ∧ ([⟨1, 5⟩, ⟨2, 30⟩, ⟨3, 35⟩, ⟨4, 30⟩] : List number).Nodup
    ∧ (∃ x ∈ ([⟨1, 5⟩, ⟨2, 30⟩, ⟨3, 35⟩, ⟨4, 30⟩] : List number), number_compare x ⟨0, 30⟩ = 0)
    ∧ ∃ t x t', tree_run number_compare (tree_new true)
          (insert_all [⟨1, 5⟩, ⟨2, 30⟩, ⟨3, 35⟩, ⟨4, 30⟩]) = some (some t)
      ∧ tree_find (some t) (some ⟨0, 30⟩) (some number_compare) = some x
      ∧ x ∈ ([⟨1, 5⟩, ⟨2, 30⟩, ⟨3, 35⟩, ⟨4, 30⟩] : List number)
      ∧ number_compare x ⟨0, 30⟩ = 0
      ∧ tree_remove (some t) (some ⟨0, 30⟩) (some number_compare) = some (some x, some t')
      ∧ ((∃ y ∈ ([⟨1, 5⟩, ⟨2, 30⟩, ⟨3, 35⟩, ⟨4, 30⟩] : List number),
            y ≠ x ∧ number_compare y ⟨0, 30⟩ = 0) →
          ∃ y, tree_find (some t') (some ⟨0, 30⟩) (some number_compare) = some y
            ∧ y ∈ ([⟨1, 5⟩, ⟨2, 30⟩, ⟨3, 35⟩, ⟨4, 30⟩] : List number)
            ∧ y ≠ x ∧ number_compare y ⟨0, 30⟩ = 0)
      ∧ ((¬ ∃ y ∈ ([⟨1, 5⟩, ⟨2, 30⟩, ⟨3, 35⟩, ⟨4, 30⟩] : List number),
            y ≠ x ∧ number_compare y ⟨0, 30⟩ = 0) →
          tree_find (some t') (some ⟨0, 30⟩) (some number_compare) = none) :=
  ⟨number_compare_consistent, by decide, ⟨⟨2, 30⟩, by simp, by simp [number_compare]⟩,
    first_found_lookup number_compare number_compare_consistent _ (by decide) ⟨0, 30⟩
      ⟨⟨2, 30⟩, by simp, by simp [number_compare]⟩⟩

/-- Counterexample to C10 as stated. Three numbers of value 7 are inserted, at the
addresses 1, 2 and 3 in that order, into a tree with duplicates allowed. `tree_find`
returns the second one, not the first-inserted; and once `tree_remove` has removed that
one, `tree_find` returns the third one, not the earliest-inserted remaining one. -/
theorem first_inserted_lookup_counterexample :
    tree_run number_compare (tree_new true) (insert_all [⟨1, 7⟩, ⟨2, 7⟩, ⟨3, 7⟩])
        = some (some three_sevens)
    ∧ tree_find (some three_sevens) (some ⟨0, 7⟩) (some number_compare) = some ⟨2, 7⟩
    ∧ first_inserted number_compare [⟨1, 7⟩, ⟨2, 7⟩, ⟨3, 7⟩] ⟨0, 7⟩ = some ⟨1, 7⟩
    ∧ tree_remove (some three_sevens) (some ⟨0, 7⟩) (some number_compare)
        = some (some ⟨2, 7⟩, some two_sevens)
    ∧ tree_find (some two_sevens) (some ⟨0, 7⟩) (some number_compare) = some ⟨3, 7⟩
    ∧ first_inserted number_compare [⟨1, 7⟩, ⟨3, 7⟩] ⟨0, 7⟩ = some ⟨1, 7⟩ := by
  refine ⟨?_, ?_, ?_, ?_, ?_, ?_⟩ <;> decide

/-! ## Lemmas for the claims on duplicates, scenarios and argument checks -/

/-- With duplicates allowed `tree_node_insert` always stores the element: it enters the
in-order sequence and every other element keeps its place, whatever the comparator. -/
theorem tree_node_insert_duplicates_inorder {α : Type} (cmp : α → α → Int) (e : α)
    (t : tree_node_s α) :
    ∀ t', tree_node_insert t (some e) (some cmp) true = some t' →
      ∃ l1 l2, inorder t = l1 ++ l2 ∧ inorder t' = l1 ++ e :: l2 := by
  induction t with
  | null =>
    intro t' h
    simp only [tree_node_insert, tree_node_new, Option.some.injEq] at h
    subst h
    exact ⟨[], [], rfl, rfl⟩
  | node x b hh l r ihl ihr =>
    intro t' h
    simp only [tree_node_insert, or_true, if_true] at h
    split_ifs at h with c1
    · cases hl : tree_node_insert l (some e) (some cmp) true with
      | none => simp [hl] at h
      | some l' =>
        rw [hl, Option.some_bind] at h
        have e1 := balance_update_inorder _ _ _ _ _ _ h
        obtain ⟨l1, l2, e2, e3⟩ := ihl l' hl
        exact ⟨l1, l2 ++ x :: inorder r, by simp [e2], by simp [e1, e3]⟩
    · cases hr : tree_node_insert r (some e) (some cmp) true with
      | none => simp [hr] at h
      | some r' =>
        rw [hr, Option.some_bind] at h
        have e1 := balance_update_inorder _ _ _ _ _ _ h
        obtain ⟨l1, l2, e2, e3⟩ := ihr r' hr
        exact ⟨inorder l ++ x :: l1, l2, by simp [e2], by simp [e1, e3]⟩

theorem scenario_a_duplicates_avl : avl scenario_a_duplicates.root :=
  scenario_a_invariant.balanced

/-! ## The claims, continued -/

/-- C11. In a tree with duplicates allowed and correct stored heights, `tree_insert` of a
non-null element returns `TREE_RC_OK`, increases `count` by exactly one and stores the
new element next to all the elements stored before (the in-order sequence afterwards is
a permutation of the new element followed by the old sequence).  This holds for every
comparator and every element, in particular for an element that compares equal to a
stored one, wherever that one sits. -/
theorem duplicate_insert {α : Type} (cmp : α → α → Int) (t : tree_s α)
    (hb : avl t.root) (hd : t.allow_duplicates = true) (e : α) :
    ∃ t', tree_insert (some t) (some e) (some cmp) = some (.TREE_RC_OK, some t')
      ∧ t'.count = t.count + 1
      ∧ e ∈ inorder t'.root
      ∧ (∀ x ∈ inorder t.root, x ∈ inorder t'.root)
      ∧ (inorder t'.root).Perm (e :: inorder t.root) := by
  obtain ⟨root', hr, _, _, _⟩ := tree_node_insert_avl t.root (some e) (some cmp) true hb
  obtain ⟨l1, l2, e2, e3⟩ := tree_node_insert_duplicates_inorder cmp e t.root root' hr
  refine ⟨{ t with root := root', count := t.count + 1 }, ?_, rfl, ?_, ?_, ?_⟩
  · simp [tree_insert, hd, hr]
  · show e ∈ inorder root'
    rw [e3]; simp
  · intro x hx
    show x ∈ inorder root'
    rw [e2] at hx
    rw [e3]
    simp only [List.mem_append, List.mem_cons] at hx ⊢
    rcases hx with hx | hx
    · exact Or.inl hx
    · exact Or.inr (Or.inr hx)
  · show (inorder root').Perm (e :: inorder t.root)
    rw [e2, e3]
    exact List.perm_middle

/-- Witness of C11: another 30 inserted into the tree of part 4 of tree-test.c, where 30
sits in a node with two children. -/
theorem duplicate_insert_witness :
    avl scenario_a_duplicates.root ∧ scenario_a_duplicates.allow_duplicates = true ∧
    ∃ t', tree_insert (some scenario_a_duplicates) (some ⟨8, 30⟩) (some number_compare)
        = some (.TREE_RC_OK, some t')
      ∧ t'.count = scenario_a_duplicates.count + 1
      ∧ (⟨8, 30⟩ : number) ∈ inorder t'.root
      ∧ (∀ x ∈ inorder scenario_a_duplicates.root, x ∈ inorder t'.root)
      ∧ (inorder t'.root).Perm (⟨8, 30⟩ :: inorder scenario_a_duplicates.root) :=
  ⟨scenario_a_duplicates_avl, rfl,
    duplicate_insert number_compare scenario_a_duplicates scenario_a_duplicates_avl rfl ⟨8, 30⟩⟩

/-- C12. Scenario A: the numbers 5, 10, 15, 20, 25, 30, 35 inserted in that order into a
new tree without duplicates, with the comparator `compare a b = b - a`: every
`tree_insert` returns `TREE_RC_OK`, `count` goes from 1 to 7, the element at the root of
the resulting tree is the number 20, and `count` is 7. -/
theorem scenario_a_insertions :
    tree_new false = some ({ root := .null, allow_duplicates := false, count := 0 } : tree_s number)
    ∧ insert_each number_compare { root := .null, allow_duplicates := false, count := 0 }
        [⟨1, 5⟩, ⟨2, 10⟩, ⟨3, 15⟩, ⟨4, 20⟩, ⟨5, 25⟩, ⟨6, 30⟩, ⟨7, 35⟩]
      = some ([(.TREE_RC_OK, 1), (.TREE_RC_OK, 2), (.TREE_RC_OK, 3), (.TREE_RC_OK, 4),
          (.TREE_RC_OK, 5), (.TREE_RC_OK, 6), (.TREE_RC_OK, 7)], scenario_a)
    ∧ root_elem scenario_a = some ⟨4, 20⟩
    ∧ number_compare ⟨4, 20⟩ ⟨0, 20⟩ = 0
    ∧ scenario_a.count = 7 := by
  refine ⟨rfl, ?_, rfl, ?_, rfl⟩ <;> decide

/-- C14. Argument checks of `tree_insert`, in this order and without any change to the
tree: an absent tree gives `TREE_RC_NULL`; otherwise an absent element gives
`TREE_RC_ELEM_NULL`; otherwise an absent comparator gives `TREE_RC_ELEM_CB_NULL`.  The
tree after the call is the tree before it (same root, count and stored elements). -/
theorem tree_insert_argument_checks {α : Type} :
    (∀ (e : Option α) (c : Option (α → α → Int)),
        tree_insert (none : Option (tree_s α)) e c = some (.TREE_RC_NULL, none))
    ∧ (∀ (t : tree_s α) (c : Option (α → α → Int)),
        tree_insert (some t) none c = some (.TREE_RC_ELEM_NULL, some t))
    ∧ (∀ (t : tree_s α) (e : α),
        tree_insert (some t) (some e) none = some (.TREE_RC_ELEM_CB_NULL, some t)) :=
  ⟨fun _ _ => rfl, fun _ _ => rfl, fun _ _ => rfl⟩

/-- C15. `tree_remove` returns `NULL` and leaves the tree as it is whenever the tree is
absent, the tree is empty, the probe is absent, the comparator is absent, or no stored
element compares equal to the probe. -/
theorem tree_remove_no_match {α : Type} (tree : Option (tree_s α)) (elem : Option α)
    (elem_compare : Option (α → α → Int))
    (h : tree = none ∨ (∃ t, tree = some t ∧ t.root = .null) ∨ elem = none
      ∨ elem_compare = none
      ∨ ∃ t p cmp, tree = some t ∧ elem = some p ∧ elem_compare = some cmp
          ∧ ∀ x ∈ inorder t.root, cmp x p ≠ 0) :
    tree_remove tree elem elem_compare = some (none, tree) := by
  cases tree with
  | none => rfl
  | some t =>
    cases elem with
    | none => rfl
    | some p =>
      cases elem_compare with
      | none => rfl
      | some cmp =>
        have hfind : t.root = .null ∨ ∀ x ∈ inorder t.root, cmp x p ≠ 0 := by
          rcases h with h | ⟨t0, h1, h2⟩ | h | h | ⟨t0, p0, c0, h1, h2, h3, h4⟩
          · exact absurd h (by simp)
          · cases h1; exact Or.inl h2
          · exact absurd h (by simp)
          · exact absurd h (by simp)
          · cases h1; cases h2; cases h3; exact Or.inr h4
        cases hf : tree_node_find t.root (some p) (some cmp) with
        | null =>
          simp only [tree_remove, hf]
          split_ifs <;> rfl
        | node x b hh l r =>
          obtain ⟨h1, h2⟩ := tree_node_find_sound _ _ _ _ _ _ _ _ hf
          rcases hfind with h0 | h0
          · rw [h0] at h2; simp at h2
          · exact absurd h1 (h0 x h2)

/-- Witness of C15: the probe 0 on the tree of Scenario A, which stores no 0. -/
theorem tree_remove_no_match_witness :
    ((some scenario_a = none) ∨ (∃ t, some scenario_a = some t ∧ t.root = .null)
      ∨ (some (⟨0, 0⟩ : number) = none)
      ∨ (some number_compare = none)
      ∨ ∃ t p cmp, some scenario_a = some t ∧ some (⟨0, 0⟩ : number) = some p
          ∧ some number_compare = some cmp ∧ ∀ x ∈ inorder t.root, cmp x p ≠ 0)
    ∧ tree_remove (some scenario_a) (some ⟨0, 0⟩) (some number_compare)
        = some (none, some scenario_a) :=
  ⟨Or.inr (Or.inr (Or.inr (Or.inr ⟨scenario_a, ⟨0, 0⟩, number_compare, rfl, rfl, rfl,
      by simp [scenario_a, number_compare]⟩))),
    tree_remove_no_match (some scenario_a) (some ⟨0, 0⟩) (some number_compare)
      (Or.inr (Or.inr (Or.inr (Or.inr ⟨scenario_a, ⟨0, 0⟩, number_compare, rfl, rfl, rfl,
        by simp [scenario_a, number_compare]⟩))))⟩

/-- The pre-order traversal applies the visitor to the elements of `preorder`, from first
to last. -/
theorem tree_node_traverse_preorder_eq {α σ : Type} (visit : σ → α → σ) (t : tree_node_s α) :
    ∀ s, tree_node_traverse_preorder t (some visit) s = (preorder t).foldl visit s := by
  induction t with
  | null => intro s; rfl
  | node x b h l r ihl ihr =>
    intro s
    simp only [tree_node_traverse_preorder, preorder, List.foldl_append, List.foldl_cons,
      ihl, ihr]

/-- The post-order traversal applies the visitor to the elements of `postorder`, from
first to last. -/
theorem tree_node_traverse_postorder_eq {α σ : Type} (visit : σ → α → σ) (t : tree_node_s α) :
    ∀ s, tree_node_traverse_postorder t (some visit) s = (postorder t).foldl visit s := by
  induction t with
  | null => intro s; rfl
  | node x b h l r ihl ihr =>
    intro s
    simp only [tree_node_traverse_postorder, postorder, List.foldl_append, List.foldl_cons,
      List.foldl_nil, ihl, ihr]

theorem preorder_perm_inorder {α : Type} (t : tree_node_s α) :
    (preorder t).Perm (inorder t) := by
  induction t with
  | null => exact List.Perm.refl _
  | node x b h l r ihl ihr =>
    simp only [preorder, inorder_node]
    exact ((List.Perm.append ihl ihr).cons x).trans List.perm_middle.symm

theorem postorder_perm_inorder {α : Type} (t : tree_node_s α) :
    (postorder t).Perm (inorder t) := by
  induction t with
  | null => exact List.Perm.refl _
  | node x b h l r ihl ihr =>
    simp only [postorder, inorder_node, List.append_assoc]
    refine List.Perm.append ihl ?_
    exact (List.perm_append_singleton x (postorder r)).trans (ihr.cons x)

theorem elements_in_perm_inorder {α : Type} (order : tree_traversal_e) (t : tree_node_s α) :
    (elements_in order t).Perm (inorder t) := by
  cases order
  · exact preorder_perm_inorder t
  · exact List.Perm.refl _
  · exact postorder_perm_inorder t

/-- C16. Statuses of `tree_traverse`: `TREE_RC_NULL` for an absent tree; `TREE_RC_EMPTY`
for a tree without a root node and with a visitor; `TREE_RC_ELEM_CB_NULL` for a tree with
a root node and no visitor; `TREE_RC_OK` for a tree with a root node and a visitor, and
then the visitor has been applied to the elements in the requested order (pre-order:
node, left, right; in-order: left, node, right; post-order: left, right, node), a
sequence that holds every stored element exactly once.  In the first three cases no
visitor call is made. -/
theorem tree_traverse_statuses {α σ : Type} :
    (∀ (order : tree_traversal_e) (visit : Option (σ → α → σ)) (s : σ),
        tree_traverse (none : Option (tree_s α)) order visit s = (.TREE_RC_NULL, s))
    ∧ (∀ (dup : Bool) (count : Nat) (order : tree_traversal_e) (visit : σ → α → σ) (s : σ),
        tree_traverse (some ({ root := .null, allow_duplicates := dup, count := count } : tree_s α))
          order (some visit) s = (.TREE_RC_EMPTY, s))
    ∧ (∀ (x : α) (b h : Int) (l r : tree_node_s α) (dup : Bool) (count : Nat)
        (order : tree_traversal_e) (s : σ),
        tree_traverse (some { root := .node x b h l r, allow_duplicates := dup, count := count })
          order (none : Option (σ → α → σ)) s = (.TREE_RC_ELEM_CB_NULL, s))
    ∧ (∀ (x : α) (b h : Int) (l r : tree_node_s α) (dup : Bool) (count : Nat)
        (order : tree_traversal_e) (visit : σ → α → σ) (s : σ),
        tree_traverse (some { root := .node x b h l r, allow_duplicates := dup, count := count })
          order (some visit) s
          = (.TREE_RC_OK, (elements_in order (.node x b h l r)).foldl visit s))
    ∧ (∀ (order : tree_traversal_e) (root : tree_node_s α),
        (elements_in order root).Perm (inorder root)) := by
  refine ⟨fun _ _ _ => rfl, fun _ _ _ _ _ => rfl, fun _ _ _ _ _ _ _ _ _ => rfl, ?_,
    elements_in_perm_inorder⟩
  intro x b h l r dup count order visit s
  cases order
  · simp only [tree_traverse, is_null, elements_in, tree_node_traverse_preorder_eq]
    rfl
  · simp only [tree_traverse, is_null, elements_in, tree_node_traverse_inorder_eq]
    rfl
  · simp only [tree_traverse, is_null, elements_in, tree_node_traverse_postorder_eq]
    rfl

/-- C17, as amended. For every non-null tree, `tree_traverse` called without a visitor
reports `TREE_RC_ELEM_CB_NULL` when the tree has a root node and `TREE_RC_EMPTY` when it
has none: the emptiness of the tree is tested before the visitor.  No visitor call is
made in either case. -/
theorem tree_traverse_without_visitor {α σ : Type} (t : tree_s α) (order : tree_traversal_e)
    (s : σ) :
    tree_traverse (some t) order (none : Option (σ → α → σ)) s
      = (if is_null t.root = true then .TREE_RC_EMPTY else .TREE_RC_ELEM_CB_NULL, s) := by
  simp only [tree_traverse]
  split_ifs <;> rfl

/-- Counterexample to C17 as stated: on a new, empty tree `tree_traverse` without a
visitor returns `TREE_RC_EMPTY`, not `TREE_RC_ELEM_CB_NULL`. -/
theorem tree_traverse_empty_without_visitor_counterexample :
    tree_traverse (tree_new false : Option (tree_s number)) .TREE_TRAVERSAL_INORDER
        (none : Option (List number → number → List number)) []
      = (.TREE_RC_EMPTY, [])
    ∧ tree_rc_e.TREE_RC_EMPTY ≠ tree_rc_e.TREE_RC_ELEM_CB_NULL := by
  constructor
  · rfl
  · decide

/-- C18. `tree_clear`: for an absent tree the status is `TREE_RC_NULL`; for every non-null
tree the root is absent and `count` is 0 afterwards, with or without a destructor, and
the status is `TREE_RC_EMPTY` if the tree had no root node, otherwise
`TREE_RC_ELEM_CB_NULL` if no destructor was supplied, otherwise `TREE_RC_OK`. -/
theorem tree_clear_statuses {α : Type} :
    (∀ d : Bool, tree_clear (none : Option (tree_s α)) d = (.TREE_RC_NULL, none))
    ∧ (∀ (t : tree_s α) (d : Bool),
        tree_clear (some t) d
          = (if is_null t.root = true then .TREE_RC_EMPTY
              else if d = false then .TREE_RC_ELEM_CB_NULL else .TREE_RC_OK,
             some { root := .null, allow_duplicates := t.allow_duplicates, count := 0 })) := by
  refine ⟨fun _ => rfl, fun t d => ?_⟩
  cases hr : t.root with
  | null => simp [tree_clear, hr, is_null]
  | node x b h l r =>
    cases d <;> simp [tree_clear, hr, is_null, tree_node_destroy_fst]

/-! ## Inserting distinct keys and removing them all -/

theorem inorder_eq_nil {α : Type} (t : tree_node_s α) (h : inorder t = []) : t = .null := by
  cases t with
  | null => rfl
  | node x b hh l r => simp at h

theorem cmp_ne_symmetric {α : Type} (cmp : α → α → Int) (hc : consistent cmp) :
    Symmetric fun a b : α => cmp a b ≠ 0 :=
  fun a b hab hba => hab (hc.eq_symm b a hba)

/-- Each `tree_insert` of a list of elements with pairwise different keys, none of which
is stored yet, returns `TREE_RC_OK` and increases `count` by one. -/
theorem insert_each_spec {α : Type} (cmp : α → α → Int) (hc : consistent cmp) (es : List α) :
    ∀ t, tree_invariant cmp t → es.Pairwise (fun a b => cmp a b ≠ 0) →
      (∀ x ∈ inorder t.root, ∀ e ∈ es, cmp x e ≠ 0) →
      ∃ t', insert_each cmp t es
          = some ((List.range es.length).map
              (fun i => (tree_rc_e.TREE_RC_OK, t.count + i + 1)), t')
        ∧ tree_invariant cmp t' ∧ t'.allow_duplicates = t.allow_duplicates
        ∧ (inorder t'.root).Perm (inorder t.root ++ es) := by
  induction es with
  | nil => intro t inv _ _; exact ⟨t, rfl, inv, rfl, by simp⟩
  | cons e es ih =>
    intro t inv hpw hnew
    rw [List.pairwise_cons] at hpw
    rcases tree_insert_spec cmp hc t inv e with ⟨_, ⟨x, hx, hxe⟩, _⟩ |
      ⟨_, root', h, _, inv', l1, l2, e2, e3, _⟩
    · exact absurd hxe (hnew x hx e (List.mem_cons_self _ _))
    · have hnew' : ∀ x ∈ inorder root', ∀ e' ∈ es, cmp x e' ≠ 0 := by
        intro x hx e' he'
        rw [e3] at hx
        simp only [List.mem_append, List.mem_cons] at hx
        rcases hx with hx | hx | hx
        · exact hnew x (by rw [e2]; simp [hx]) e' (List.mem_cons_of_mem _ he')
        · rw [hx]; exact hpw.1 e' he'
        · exact hnew x (by rw [e2]; simp [hx]) e' (List.mem_cons_of_mem _ he')
      obtain ⟨t', h', inv'', hd'', hp⟩ :=
        ih { t with root := root', count := t.count + 1 } inv' hpw.2 hnew'
      refine ⟨t', ?_, inv'', hd'', ?_⟩
      · simp only [insert_each, h, h', Option.map_some', List.length_cons,
          List.range_succ_eq_map, List.map_cons, List.map_map]
        congr 3
        apply List.map_congr_left
        intro i _
        simp only [Function.comp_apply, Nat.succ_eq_add_one]
        congr 1
        omega
      · refine hp.trans ?_
        show (inorder root' ++ es).Perm (inorder t.root ++ e :: es)
        rw [e3, e2]
        simp only [List.append_assoc, List.cons_append]
        exact List.Perm.append_left l1 (List.perm_middle.symm)

/-- Removing, one after the other, every element of a tree without duplicates whose keys
are pairwise different: each `tree_remove` returns the stored element that compares equal
to its probe, `count` goes down by one each time, and the tree ends empty. -/
theorem remove_each_spec {α : Type} (cmp : α → α → Int) (hc : consistent cmp)
    (rs ps : List α) (hF : List.Forall₂ (fun r p => cmp r p = 0) rs ps) :
    ∀ t, tree_invariant cmp t → t.allow_duplicates = false → (inorder t.root).Perm rs →
      rs.Pairwise (fun a b => cmp a b ≠ 0) →
      ∃ t', remove_each cmp t ps
          = some ((rs.map some).zip (List.range rs.length).reverse, t')
        ∧ t'.root = .null ∧ t'.count = 0 := by
  induction hF with
  | nil =>
    intro t inv _ hperm _
    have hnil : inorder t.root = [] := List.perm_nil.1 hperm
    refine ⟨t, rfl, inorder_eq_nil _ hnil, ?_⟩
    rw [inv.counted, node_count_eq_length, hnil]
    rfl
  | @cons r p rs ps hrp _ ih =>
    intro t inv hd hperm hpw
    have hrin : r ∈ inorder t.root := hperm.mem_iff.2 (List.mem_cons_self _ _)
    rcases tree_remove_spec cmp hc t inv p with ⟨hno, _⟩ |
      ⟨x, root', _, hxp, hxin, hrem, _, inv', _, _, _, hfil⟩
    · exact absurd ⟨r, hrin, hrp⟩ hno
    · have hxr : x = r := by
        by_contra hne
        exact (List.Pairwise.forall (cmp_ne_symmetric cmp hc) hpw) (hperm.mem_iff.1 hxin)
          (List.mem_cons_self _ _) hne (hc.eq_trans x p r hxp (hc.eq_symm r p hrp))
      subst hxr
      have hpw' := List.pairwise_cons.1 hpw
      have hrs : rs.filter (fun y => decide (cmp y p ≠ 0)) = rs := by
        rw [List.filter_eq_self]
        intro y hy
        have := hpw'.1 y hy
        have hyp : cmp y p ≠ 0 := fun h0 => this (hc.eq_trans x p y hxp (hc.eq_symm y p h0))
        simpa using hyp
      have hperm' : (inorder root').Perm rs := by
        rw [hfil hd]
        have := List.Perm.filter (fun y => decide (cmp y p ≠ 0)) hperm
        rwa [filter_ne_cons_neg cmp p x rs hxp, hrs] at this
      obtain ⟨t', h', hroot, hcount⟩ :=
        ih { t with root := root', count := size_t_decrement t.count } inv' hd hperm' hpw'.2
      have hc1 : size_t_decrement t.count = rs.length := by
        have := inv'.counted
        rw [node_count_eq_length] at this
        exact this.trans hperm'.length_eq
      rw [hc1] at h'
      refine ⟨t', ?_, hroot, hcount⟩
      simp only [remove_each, hrem, hc1, h', Option.map_some', List.map_cons, List.length_cons,
        List.range_succ, List.reverse_append, List.reverse_cons, List.reverse_nil,
        List.nil_append, List.singleton_append, List.zip_cons_cons]

/-- C13. For every list of elements with pairwise different keys, inserted in the given
order into a new tree without duplicates and then removed in any order (with probes that
compare equal to the elements): the i-th `tree_insert` returns `TREE_RC_OK` with
`count = i`; each `tree_remove` returns the stored element that compares equal to its
probe and decreases `count` by one; after the last removal the root is absent and `count`
is 0, so that `tree_clear` and `tree_destroy` report `TREE_RC_EMPTY`. -/
theorem insert_then_remove_all {α : Type} (cmp : α → α → Int) (hc : consistent cmp)
    (es : List α) (hdist : es.Pairwise (fun a b => cmp a b ≠ 0))
    (rs ps : List α) (hperm : rs.Perm es)
    (hps : List.Forall₂ (fun r p => cmp r p = 0) rs ps) (d : Bool) :
    ∃ t0 t1 t2, tree_new false = some t0
      ∧ insert_each cmp t0 es
          = some ((List.range es.length).map (fun i => (tree_rc_e.TREE_RC_OK, i + 1)), t1)
      ∧ remove_each cmp t1 ps = some ((rs.map some).zip (List.range rs.length).reverse, t2)
      ∧ t2.root = .null ∧ t2.count = 0
      ∧ (tree_clear (some t2) d).1 = .TREE_RC_EMPTY
      ∧ (tree_destroy (some (some t2)) d).1 = .TREE_RC_EMPTY := by
  obtain ⟨t1, h1, inv1, hd1, hp1⟩ :=
    insert_each_spec cmp hc es _ (tree_invariant_empty cmp false 0 rfl) hdist
      (fun x hx => by simp at hx)
  rw [inorder_null, List.nil_append] at hp1
  have hpw : rs.Pairwise (fun a b => cmp a b ≠ 0) :=
    List.Perm.pairwise hperm.symm hdist (fun h => cmp_ne_symmetric cmp hc h)
  obtain ⟨t2, h2, hroot, hcount⟩ :=
    remove_each_spec cmp hc rs ps hps t1 inv1 hd1 (hp1.trans hperm.symm) hpw
  refine ⟨_, t1, t2, rfl, ?_, h2, hroot, hcount, ?_, ?_⟩
  · simpa using h1
  · simp [tree_clear, hroot, is_null]
  · simp [tree_destroy, tree_clear, hroot, is_null]

/-- Witness of C13: the numbers 3, 1, 2 inserted in that order and removed in the order
2, 3, 1, with separate probe numbers as in random-elems-test.c. -/
theorem insert_then_remove_all_witness :
    consistent number_compare
    ∧ ([⟨1, 3⟩, ⟨2, 1⟩, ⟨3, 2⟩] : List number).Pairwise (fun a b => number_compare a b ≠ 0)
    ∧ ([⟨3, 2⟩, ⟨1, 3⟩, ⟨2, 1⟩] : List number).Perm [⟨1, 3⟩, ⟨2, 1⟩, ⟨3, 2⟩]
    ∧ List.Forall₂ (fun r p => number_compare r p = 0)
        ([⟨3, 2⟩, ⟨1, 3⟩, ⟨2, 1⟩] : List number) [⟨0, 2⟩, ⟨0, 3⟩, ⟨0, 1⟩]
    ∧ ∃ t0 t1 t2, tree_new false = some t0
      ∧ insert_each number_compare t0 [⟨1, 3⟩, ⟨2, 1⟩, ⟨3, 2⟩]
          = some ((List.range ([⟨1, 3⟩, ⟨2, 1⟩, ⟨3, 2⟩] : List number).length).map
              (fun i => (tree_rc_e.TREE_RC_OK, i + 1)), t1)
      ∧ remove_each number_compare t1 [⟨0, 2⟩, ⟨0, 3⟩, ⟨0, 1⟩]
          = some ((([⟨3, 2⟩, ⟨1, 3⟩, ⟨2, 1⟩] : List number).map some).zip
              (List.range ([⟨3, 2⟩, ⟨1, 3⟩, ⟨2, 1⟩] : List number).length).reverse, t2)
      ∧ t2.root = .null ∧ t2.count = 0
      ∧ (tree_clear (some t2) false).1 = .TREE_RC_EMPTY
      ∧ (tree_destroy (some (some t2)) false).1 = .TREE_RC_EMPTY :=
  ⟨number_compare_consistent,
    by simp [number_compare],
    by decide,
    List.Forall₂.cons rfl (List.Forall₂.cons rfl (List.Forall₂.cons rfl List.Forall₂.nil)),
    insert_then_remove_all number_compare number_compare_consistent
      [⟨1, 3⟩, ⟨2, 1⟩, ⟨3, 2⟩] (by simp [number_compare])
      [⟨3, 2⟩, ⟨1, 3⟩, ⟨2, 1⟩] [⟨0, 2⟩, ⟨0, 3⟩, ⟨0, 1⟩] (by decide)
      (List.Forall₂.cons rfl (List.Forall₂.cons rfl (List.Forall₂.cons rfl List.Forall₂.nil)))
      false⟩

/-! ## The map -/

/-- Insertion of an element that compares equal to no stored element: `tree_insert`
returns `TREE_RC_OK`, `count` grows by one, the invariants hold again and every probe
that compares equal to the element finds the element itself. -/
theorem tree_insert_then_find {α : Type} (cmp : α → α → Int) (hc : consistent cmp)
    (t : tree_s α) (inv : tree_invariant cmp t) (e : α)
    (hnew : ∀ x ∈ inorder t.root, cmp x e ≠ 0) :
    ∃ t', tree_insert (some t) (some e) (some cmp) = some (.TREE_RC_OK, some t')
      ∧ t'.count = t.count + 1 ∧ tree_invariant cmp t'
      ∧ t'.allow_duplicates = t.allow_duplicates
      ∧ ∀ p, cmp e p = 0 → tree_find (some t') (some p) (some cmp) = some e := by
  rcases tree_insert_spec cmp hc t inv e with ⟨_, ⟨x, hx, hxe⟩, _⟩ |
    ⟨_, root', h, _, inv', l1, l2, e2, e3, _⟩
  · exact absurd hxe (hnew x hx)
  · refine ⟨_, h, rfl, inv', rfl, fun p hp => ?_⟩
    rw [tree_find_some]
    have he : e ∈ inorder root' := by rw [e3]; simp
    obtain ⟨x, hf, hx, hxp⟩ :=
      (tree_node_find_elem_spec cmp hc root' inv'.sorted p).1 ⟨e, he, hp⟩
    show tree_node_find_elem root' (some p) (some cmp) = some e
    rw [hf]
    rw [e3] at hx
    simp only [List.mem_append, List.mem_cons] at hx
    have hold : x ∈ inorder t.root → False := fun hx' =>
      hnew x hx' (hc.eq_trans x p e hxp (hc.eq_symm e p hp))
    rcases hx with hx | hx | hx
    · exact absurd (by rw [e2]; simp [hx]) hold
    · rw [hx]
    · exact absurd (by rw [e2]; simp [hx]) hold

/-- In a strictly ordered sequence at most one element compares equal to a probe. -/
theorem strictly_ordered_unique {α : Type} (cmp : α → α → Int) (hc : consistent cmp)
    (t : tree_node_s α) (hs : strictly_ordered cmp t) (p x y : α)
    (hx : x ∈ inorder t) (hy : y ∈ inorder t) (hxp : cmp x p = 0) (hyp : cmp y p = 0) :
    y = x := by
  by_contra hne
  have hpw : (inorder t).Pairwise (fun a b => cmp a b ≠ 0) :=
    List.Pairwise.imp (fun h => by omega) hs
  exact (List.Pairwise.forall (cmp_ne_symmetric cmp hc) hpw) hy hx hne
    (hc.eq_trans y p x hyp (hc.eq_symm x p hxp))

theorem compares_keys_probe {κ ν : Type} (cmp : pair_s κ ν → pair_s κ ν → Int)
    (hk : compares_keys cmp) (x : pair_s κ ν) (k : Option κ) (v : Option ν) :
    cmp x (pair_new k v) = cmp x (pair_new k none) :=
  (hk x (pair_new k none) x.value v).trans (hk x (pair_new k none) x.value none).symm

theorem fruits_numbers_pair_compare_consistent : consistent fruits_numbers_pair_compare := by
  constructor
  · intro a b
    unfold fruits_numbers_pair_compare fruit_compare
    cases a.key <;> cases b.key <;> simp
  · intro a b c
    unfold fruits_numbers_pair_compare fruit_compare
    cases a.key <;> cases b.key <;> cases c.key <;> simp <;> omega

theorem fruits_numbers_pair_compare_keys : compares_keys fruits_numbers_pair_compare :=
  fun _ _ _ _ => rfl

theorem fruits_to_numbers_invariant :
    tree_invariant fruits_numbers_pair_compare fruits_to_numbers := by
  refine ⟨?_, ?_, fun _ => ?_, rfl⟩
  · simp [fruits_to_numbers, avl]
  · simp [ordered, fruits_to_numbers, fruits_numbers_pair_compare, fruit_compare]
  · simp [strictly_ordered, fruits_to_numbers, fruits_numbers_pair_compare, fruit_compare]

/-- C19. Map insert/find round trip. On a map that satisfies the invariants, with a pair
comparator that is consistent and compares keys only, for a non-null key `k` that compares
equal to no stored key and any value `v`: `map_insert` returns `MAP_RC_OK`, `count` has
increased by one, and `map_find` returns `v` itself for every key that compares equal to
`k`.  On any map where no stored key compares equal to the probe key, and so on a new
map, `map_find` returns `NULL`. -/
theorem map_insert_find_round_trip {κ ν : Type} (cmp : pair_s κ ν → pair_s κ ν → Int)
    (hc : consistent cmp) (hk : compares_keys cmp) (m : map_s κ ν)
    (inv : tree_invariant cmp m) (k : κ) (v : Option ν)
    (hnew : ∀ x ∈ inorder m.root, cmp x (pair_new (some k) none) ≠ 0) :
    (∃ m', map_insert (some m) (some k) v (some cmp) = some (.MAP_RC_OK, some m')
        ∧ m'.count = m.count + 1
        ∧ ∀ k' : κ, cmp (pair_new (some k) none) (pair_new (some k') none) = 0 →
            map_find (some m') (some k') (some cmp) = v)
    ∧ (∀ (m0 : map_s κ ν) (k0 : κ),
        (∀ x ∈ inorder m0.root, cmp x (pair_new (some k0) none) ≠ 0) →
          map_find (some m0) (some k0) (some cmp) = none)
    ∧ (∀ k0 : κ, map_find (map_new : Option (map_s κ ν)) (some k0) (some cmp) = none) := by
  have hnone : ∀ (m0 : map_s κ ν) (k0 : κ),
      (∀ x ∈ inorder m0.root, cmp x (pair_new (some k0) none) ≠ 0) →
        map_find (some m0) (some k0) (some cmp) = none := by
    intro m0 k0 h0
    cases hf : tree_node_find m0.root (some (pair_new (some k0) none)) (some cmp) with
    | null => simp [map_find, tree_find, tree_node_find_elem, hf]
    | node x b h l r =>
      obtain ⟨h1, h2⟩ := tree_node_find_sound _ _ _ _ _ _ _ _ hf
      exact absurd h1 (h0 x h2)
  refine ⟨?_, hnone, fun k0 => hnone _ k0 (fun x hx => by simp at hx)⟩
  obtain ⟨m', h, hcount, _, _, hfind⟩ :=
    tree_insert_then_find cmp hc m inv (pair_new (some k) v)
      (fun x hx => by rw [compares_keys_probe cmp hk]; exact hnew x hx)
  refine ⟨m', ?_, hcount, fun k' hk' => ?_⟩
  · simp [map_insert, h, tree_rc_to_map_rc]
  · have hp : cmp (pair_new (some k) v) (pair_new (some k') none) = 0 := by
      rw [← hk']
      exact hk (pair_new (some k) none) (pair_new (some k') none) v none
    simp only [map_find]
    rw [hfind _ hp]
    rfl

/-- Witness of C19: the key 16 (a mango) bound to the number 0 in a map of three fruits. -/
theorem map_insert_find_round_trip_witness :
    consistent fruits_numbers_pair_compare ∧ compares_keys fruits_numbers_pair_compare
    ∧ tree_invariant fruits_numbers_pair_compare fruits_to_numbers
    ∧ (∀ x ∈ inorder fruits_to_numbers.root,
        fruits_numbers_pair_compare x (pair_new (some ⟨20, 16⟩) none) ≠ 0)
    ∧ ((∃ m', map_insert (some fruits_to_numbers) (some ⟨20, 16⟩) (some ⟨21, 0⟩)
            (some fruits_numbers_pair_compare) = some (.MAP_RC_OK, some m')
        ∧ m'.count = fruits_to_numbers.count + 1
        ∧ ∀ k' : number,
            fruits_numbers_pair_compare (pair_new (some ⟨20, 16⟩) none) (pair_new (some k') none)
              = 0 →
            map_find (some m') (some k') (some fruits_numbers_pair_compare) = some ⟨21, 0⟩)
      ∧ (∀ (m0 : map_s number number) (k0 : number),
          (∀ x ∈ inorder m0.root, fruits_numbers_pair_compare x (pair_new (some k0) none) ≠ 0) →
            map_find (some m0) (some k0) (some fruits_numbers_pair_compare) = none)
      ∧ (∀ k0 : number, map_find (map_new : Option (map_s number number)) (some k0)
          (some fruits_numbers_pair_compare) = none)) :=
  ⟨fruits_numbers_pair_compare_consistent, fruits_numbers_pair_compare_keys,
    fruits_to_numbers_invariant,
    by simp [fruits_to_numbers, fruits_numbers_pair_compare, fruit_compare, pair_new],
    map_insert_find_round_trip fruits_numbers_pair_compare
      fruits_numbers_pair_compare_consistent fruits_numbers_pair_compare_keys
      fruits_to_numbers fruits_to_numbers_invariant ⟨20, 16⟩ (some ⟨21, 0⟩)
      (by simp [fruits_to_numbers, fruits_numbers_pair_compare, fruit_compare, pair_new])⟩

/-- C20. Map duplicate refusal. On a map that satisfies the invariants (duplicates are
disallowed in a map), with a pair comparator that is consistent and compares keys only,
`map_insert` with a key that compares equal to a stored key returns `MAP_RC_KEY_DUPL` and
the map after the call is the map before it (same count, same nodes, same pairs);
exactly one stored pair has that key, and `map_find` for the key returns the value of
that pair, not the value passed to the refused insert. -/
theorem map_duplicate_refusal {κ ν : Type} (cmp : pair_s κ ν → pair_s κ ν → Int)
    (hc : consistent cmp) (hk : compares_keys cmp) (m : map_s κ ν)
    (inv : tree_invariant cmp m) (hd : m.allow_duplicates = false) (k : κ) (v : Option ν)
    (hex : ∃ x ∈ inorder m.root, cmp x (pair_new (some k) none) = 0) :
    map_insert (some m) (some k) v (some cmp) = some (.MAP_RC_KEY_DUPL, some m)
    ∧ ∃ x ∈ inorder m.root, cmp x (pair_new (some k) none) = 0
        ∧ (∀ y ∈ inorder m.root, cmp y (pair_new (some k) none) = 0 → y = x)
        ∧ map_find (some m) (some k) (some cmp) = x.value := by
  constructor
  · have hex' : ∃ x ∈ inorder m.root, cmp x (pair_new (some k) v) = 0 := by
      obtain ⟨x, hx, hxk⟩ := hex
      exact ⟨x, hx, by rw [compares_keys_probe cmp hk]; exact hxk⟩
    have hf := tree_node_find_complete cmp hc m.root (pair_new (some k) v) inv.sorted hex'
    simp [map_insert, tree_insert, hf, hd, tree_rc_to_map_rc]
  · obtain ⟨x, hf, hx, hxp⟩ :=
      (tree_node_find_elem_spec cmp hc m.root inv.sorted (pair_new (some k) none)).1 hex
    refine ⟨x, hx, hxp, fun y hy hyp => ?_, ?_⟩
    · exact strictly_ordered_unique cmp hc m.root (inv.strict hd) _ x y hx hy hxp hyp
    · simp only [map_find, tree_find_some]
      rw [hf]

/-- Witness of C20: the key 3 (a banana), already bound to 32, inserted again with the
number 0. -/
theorem map_duplicate_refusal_witness :
    consistent fruits_numbers_pair_compare ∧ compares_keys fruits_numbers_pair_compare
    ∧ tree_invariant fruits_numbers_pair_compare fruits_to_numbers
    ∧ fruits_to_numbers.allow_duplicates = false
    ∧ (∃ x ∈ inorder fruits_to_numbers.root,
        fruits_numbers_pair_compare x (pair_new (some ⟨22, 3⟩) none) = 0)
    ∧ (map_insert (some fruits_to_numbers) (some ⟨22, 3⟩) (some ⟨23, 0⟩)
          (some fruits_numbers_pair_compare) = some (.MAP_RC_KEY_DUPL, some fruits_to_numbers)
      ∧ ∃ x ∈ inorder fruits_to_numbers.root,
          fruits_numbers_pair_compare x (pair_new (some ⟨22, 3⟩) none) = 0
          ∧ (∀ y ∈ inorder fruits_to_numbers.root,
              fruits_numbers_pair_compare y (pair_new (some ⟨22, 3⟩) none) = 0 → y = x)
          ∧ map_find (some fruits_to_numbers) (some ⟨22, 3⟩) (some fruits_numbers_pair_compare)
              = x.value) :=
  ⟨fruits_numbers_pair_compare_consistent, fruits_numbers_pair_compare_keys,
    fruits_to_numbers_invariant, rfl,
    ⟨⟨some ⟨12, 3⟩, some ⟨13, 32⟩⟩, by simp [fruits_to_numbers],
      by simp [fruits_numbers_pair_compare, fruit_compare, pair_new]⟩,
    map_duplicate_refusal fruits_numbers_pair_compare
      fruits_numbers_pair_compare_consistent fruits_numbers_pair_compare_keys
      fruits_to_numbers fruits_to_numbers_invariant rfl ⟨22, 3⟩ (some ⟨23, 0⟩)
      ⟨⟨some ⟨12, 3⟩, some ⟨13, 32⟩⟩, by simp [fruits_to_numbers],
        by simp [fruits_numbers_pair_compare, fruit_compare, pair_new]⟩⟩

/-! ## Writing through a found pair: `map_replace` -/

theorem tree_node_store_found_node {α : Type} (x : α) (b h : Int) (l r : tree_node_s α) (e : α)
    (cmp : α → α → Int) (f : α → α) :
    tree_node_store_found (.node x b h l r) (some e) (some cmp) f
      = if cmp x e < 0 then .node x b h (tree_node_store_found l (some e) (some cmp) f) r
        else if cmp x e > 0 then .node x b h l (tree_node_store_found r (some e) (some cmp) f)
        else .node (f x) b h l r := by
  rw [tree_node_store_found]

theorem tree_node_store_found_shape {α : Type} (cmp : α → α → Int) (p : α) (f : α → α)
    (t : tree_node_s α) :
    tree_shape (tree_node_store_found t (some p) (some cmp) f) = tree_shape t := by
  induction t with
  | null => rfl
  | node x b h l r ihl ihr =>
    rw [tree_node_store_found_node]
    split_ifs <;> simp [tree_shape, ihl, ihr]

theorem tree_node_store_found_height {α : Type} (cmp : α → α → Int) (p : α) (f : α → α)
    (t : tree_node_s α) :
    node_height (tree_node_store_found t (some p) (some cmp) f) = node_height t := by
  cases t with
  | null => rfl
  | node x b h l r =>
    rw [tree_node_store_found_node]
    split_ifs <;> rfl

theorem tree_node_store_found_avl {α : Type} (cmp : α → α → Int) (p : α) (f : α → α)
    (t : tree_node_s α) (h : avl t) :
    avl (tree_node_store_found t (some p) (some cmp) f) := by
  induction t with
  | null => trivial
  | node x b hh l r ihl ihr =>
    obtain ⟨h1, h2, h3, h4, al, ar⟩ := h
    rw [tree_node_store_found_node]
    split_ifs
    · exact ⟨by rw [tree_node_store_found_height]; exact h1,
        by rw [tree_node_store_found_height]; exact h2, h3, h4, ihl al, ar⟩
    · exact ⟨by rw [tree_node_store_found_height]; exact h1,
        by rw [tree_node_store_found_height]; exact h2, h3, h4, al, ihr ar⟩
    · exact ⟨h1, h2, h3, h4, al, ar⟩

/-- The write changes the element of the node found and nothing else: when
`tree_node_find` finds no node the tree is unchanged; when it finds the node of `x`, the
in-order sequence has `f x` where it had `x`, and a search with the same probe finds the
same node, now holding `f x`, provided `f x` compares with the probe as `x` does. -/
theorem tree_node_store_found_spec {α : Type} (cmp : α → α → Int) (p : α) (f : α → α)
    (t : tree_node_s α) :
    (tree_node_find t (some p) (some cmp) = .null
        ∧ tree_node_store_found t (some p) (some cmp) f = t)
    ∨ ∃ x b h l r l1 l2, tree_node_find t (some p) (some cmp) = .node x b h l r
        ∧ inorder t = l1 ++ x :: l2
        ∧ inorder (tree_node_store_found t (some p) (some cmp) f) = l1 ++ f x :: l2
        ∧ (cmp (f x) p = cmp x p →
            tree_node_find (tree_node_store_found t (some p) (some cmp) f) (some p) (some cmp)
              = .node (f x) b h l r) := by
  induction t with
  | null => left; exact ⟨rfl, rfl⟩
  | node y yb yh yl yr ihl ihr =>
    rw [tree_node_find_node, tree_node_store_found_node]
    by_cases c1 : cmp y p < 0
    · simp only [c1, if_true]
      rcases ihl with ⟨h1, h2⟩ | ⟨x, b, h, l, r, l1, l2, h1, h2, h3, h4⟩
      · left; exact ⟨h1, by rw [h2]⟩
      · right
        refine ⟨x, b, h, l, r, l1, l2 ++ y :: inorder yr, h1, by simp [h2], by simp [h3], ?_⟩
        intro hf
        rw [tree_node_find_node, if_pos c1]
        exact h4 hf
    · by_cases c2 : cmp y p > 0
      · simp only [c1, c2, if_true, if_false]
        rcases ihr with ⟨h1, h2⟩ | ⟨x, b, h, l, r, l1, l2, h1, h2, h3, h4⟩
        · left; exact ⟨h1, by rw [h2]⟩
        · right
          refine ⟨x, b, h, l, r, inorder yl ++ y :: l1, l2, h1, by simp [h2], by simp [h3], ?_⟩
          intro hf
          rw [tree_node_find_node, if_neg c1, if_pos c2]
          exact h4 hf
      · simp only [c1, c2, if_false]
        right
        refine ⟨y, yb, yh, yl, yr, inorder yl, inorder yr, rfl, rfl, rfl, ?_⟩
        intro hf
        rw [tree_node_find_node, hf, if_neg c1, if_neg c2]

/-- A comparator that looks at keys only does not see a change of a value field. -/
theorem compares_keys_value {κ ν : Type} (cmp : pair_s κ ν → pair_s κ ν → Int)
    (hk : compares_keys cmp) (x q : pair_s κ ν) (v : Option ν) :
    cmp { x with value := v } q = cmp x q ∧ cmp q { x with value := v } = cmp q x :=
  ⟨hk x q v q.value, hk q x q.value v⟩

/-- What `map_replace` does on a map that satisfies the invariants, with a non-null key
and a comparator that is consistent and compares keys only: either no stored key compares
equal to the key, the call returns `NULL` and the map is unchanged; or the value field of
the one pair with that key is overwritten, the old value is returned, and nothing else
changes. -/
theorem map_replace_spec {κ ν : Type} (cmp : pair_s κ ν → pair_s κ ν → Int)
    (hc : consistent cmp) (hk : compares_keys cmp) (m : map_s κ ν)
    (inv : tree_invariant cmp m) (k : κ) (v : Option ν) :
    ((¬ ∃ x ∈ inorder m.root, cmp x (pair_new (some k) none) = 0)
        ∧ map_replace (some m) (some k) v (some cmp) = (none, some m))
    ∨ ∃ x l1 l2 m', inorder m.root = l1 ++ x :: l2
        ∧ cmp x (pair_new (some k) none) = 0
        ∧ map_find (some m) (some k) (some cmp) = x.value
        ∧ map_replace (some m) (some k) v (some cmp) = (x.value, some m')
        ∧ map_find (some m') (some k) (some cmp) = v
        ∧ m'.count = m.count ∧ m'.allow_duplicates = m.allow_duplicates
        ∧ inorder m'.root = l1 ++ { key := x.key, value := v } :: l2
        ∧ tree_shape m'.root = tree_shape m.root
        ∧ tree_invariant cmp m' := by
  rcases tree_node_store_found_spec cmp (pair_new (some k) none)
      (fun p => { p with value := v }) m.root with
    ⟨h1, _⟩ | ⟨x, b, h, l, r, l1, l2, h1, h2, h3, h4⟩
  · left
    have hno : ¬ ∃ x ∈ inorder m.root, cmp x (pair_new (some k) none) = 0 := by
      intro hex
      have := tree_node_find_complete cmp hc m.root _ inv.sorted hex
      rw [h1] at this
      simp [is_null] at this
    exact ⟨hno, by simp [map_replace, tree_find, tree_node_find_elem, h1]⟩
  · right
    obtain ⟨hx1, _⟩ := tree_node_find_sound _ _ _ _ _ _ _ _ h1
    have hcmp : ∀ a c : pair_s κ ν, ∀ w : Option ν,
        cmp { a with value := w } c = cmp a c ∧ cmp c { a with value := w } = cmp c a :=
      fun a c w => compares_keys_value cmp hk a c w
    have h4' := h4 (hcmp x _ v).1
    refine ⟨x, l1, l2,
      { m with
        root := tree_node_store_found m.root (some (pair_new (some k) none)) (some cmp)
          (fun p => { p with value := v }) },
      h2, hx1, ?_, ?_, ?_, rfl, rfl, h3, tree_node_store_found_shape _ _ _ _, ?_⟩
    · simp [map_find, tree_find, tree_node_find_elem, h1]
    · simp [map_replace, tree_find, tree_node_find_elem, h1]
    · simp [map_find, tree_find, tree_node_find_elem, h4']
    · have hpw : ∀ (R : Int → Prop),
          (inorder m.root).Pairwise (fun a c => R (cmp a c)) →
          (l1 ++ ({ key := x.key, value := v } : pair_s κ ν) :: l2).Pairwise
            (fun a c => R (cmp a c)) := by
        intro R hR
        rw [h2, pairwise_middle] at hR
        rw [pairwise_middle]
        obtain ⟨p1, p2, p3, p4, p5⟩ := hR
        refine ⟨p1, p2, fun a ha => ?_, fun c hc' => ?_, p5⟩
        · have := (hcmp x a v).2
          show R (cmp a { x with value := v })
          rw [this]; exact p3 a ha
        · have := (hcmp x c v).1
          show R (cmp { x with value := v } c)
          rw [this]; exact p4 c hc'
      refine ⟨tree_node_store_found_avl _ _ _ _ inv.balanced, ?_, ?_, ?_⟩
      · show (inorder _).Pairwise _
        rw [h3]
        exact hpw (fun z => 0 ≤ z) inv.sorted
      · intro hd
        show (inorder _).Pairwise _
        rw [h3]
        exact hpw (fun z => 0 < z) (inv.strict hd)
      · show m.count = node_count _
        rw [inv.counted, node_count_eq_length, node_count_eq_length, h3, h2]
        simp

/-- What `map_remove` does on a map that satisfies the invariants, with a non-null key:
either no stored key compares equal to the key, the call returns `NULL` and the map is
unchanged; or it returns the one stored pair with that key, `count` drops by one, the
invariants hold again and `map_find` no longer finds the key. -/
theorem map_remove_spec {κ ν : Type} (cmp : pair_s κ ν → pair_s κ ν → Int)
    (hc : consistent cmp) (m : map_s κ ν)
    (inv : tree_invariant cmp m) (hd : m.allow_duplicates = false) (k : κ) :
    ((¬ ∃ x ∈ inorder m.root, cmp x (pair_new (some k) none) = 0)
        ∧ map_remove (some m) (some k) (some cmp) = some (none, some m))
    ∨ ∃ x m', x ∈ inorder m.root ∧ cmp x (pair_new (some k) none) = 0
        ∧ (∀ y ∈ inorder m.root, cmp y (pair_new (some k) none) = 0 → y = x)
        ∧ map_find (some m) (some k) (some cmp) = x.value
        ∧ map_remove (some m) (some k) (some cmp) = some (some x, some m')
        ∧ m'.count + 1 = m.count
        ∧ m'.allow_duplicates = false
        ∧ tree_invariant cmp m'
        ∧ map_find (some m') (some k) (some cmp) = none := by
  rcases tree_remove_spec cmp hc m inv (pair_new (some k) none) with ⟨hno, h⟩ |
    ⟨x, root', hfe, hxp, hxin, hrem, _, inv', hcnt, _, _, hfil⟩
  · left; exact ⟨hno, h⟩
  · right
    refine ⟨x, _, hxin, hxp, fun y hy hyp => ?_, ?_, hrem, hcnt, hd, inv', ?_⟩
    · exact strictly_ordered_unique cmp hc m.root (inv.strict hd) _ x y hxin hy hxp hyp
    · simp only [map_find, tree_find_some, hfe]
    · have hnone : tree_node_find_elem root' (some (pair_new (some k) none)) (some cmp) = none := by
        apply (tree_node_find_elem_spec cmp hc root' inv'.sorted _).2.2
        rintro ⟨y, hy, hyk⟩
        rw [hfil hd, List.mem_filter] at hy
        simp [hyk] at hy
      simp only [map_find, tree_find_some]
      rw [hnone]

/-- C21. `map_replace` on a present key. On a map that satisfies the invariants, with a
pair comparator that is consistent and compares keys only, for a key that compares equal
to the key of a stored pair `x`: `map_replace` returns the value bound to the key before
the call (the value `map_find` returned), a following `map_find` with the key returns the
new value, and `count`, the duplicate policy, the node structure, the key reference of
the pair and every other pair are unchanged. -/
theorem map_replace_present {κ ν : Type} (cmp : pair_s κ ν → pair_s κ ν → Int)
    (hc : consistent cmp) (hk : compares_keys cmp) (m : map_s κ ν)
    (inv : tree_invariant cmp m) (k : κ) (new_value : Option ν)
    (hex : ∃ x ∈ inorder m.root, cmp x (pair_new (some k) none) = 0) :
    ∃ x l1 l2 m', inorder m.root = l1 ++ x :: l2
      ∧ cmp x (pair_new (some k) none) = 0
      ∧ map_find (some m) (some k) (some cmp) = x.value
      ∧ map_replace (some m) (some k) new_value (some cmp) = (x.value, some m')
      ∧ map_find (some m') (some k) (some cmp) = new_value
      ∧ m'.count = m.count ∧ m'.allow_duplicates = m.allow_duplicates
      ∧ inorder m'.root = l1 ++ { key := x.key, value := new_value } :: l2
      ∧ tree_shape m'.root = tree_shape m.root := by
  rcases map_replace_spec cmp hc hk m inv k new_value with ⟨hno, _⟩ |
    ⟨x, l1, l2, m', h1, h2, h3, h4, h5, h6, h7, h8, h9, _⟩
  · exact absurd hex hno
  · exact ⟨x, l1, l2, m', h1, h2, h3, h4, h5, h6, h7, h8, h9⟩

/-- Witness of C21, Scenario D: in a map where the key 1 is bound to 18, `map_replace`
with the key 1 and the number 68. -/
theorem map_replace_present_witness :
    consistent fruits_numbers_pair_compare ∧ compares_keys fruits_numbers_pair_compare
    ∧ tree_invariant fruits_numbers_pair_compare fruits_to_numbers
    ∧ (∃ x ∈ inorder fruits_to_numbers.root,
        fruits_numbers_pair_compare x (pair_new (some ⟨30, 1⟩) none) = 0)
    ∧ ∃ x l1 l2 m', inorder fruits_to_numbers.root = l1 ++ x :: l2
      ∧ fruits_numbers_pair_compare x (pair_new (some ⟨30, 1⟩) none) = 0
      ∧ map_find (some fruits_to_numbers) (some ⟨30, 1⟩) (some fruits_numbers_pair_compare)
          = x.value
      ∧ map_replace (some fruits_to_numbers) (some ⟨30, 1⟩) (some ⟨31, 68⟩)
          (some fruits_numbers_pair_compare) = (x.value, some m')
      ∧ map_find (some m') (some ⟨30, 1⟩) (some fruits_numbers_pair_compare) = some ⟨31, 68⟩
      ∧ m'.count = fruits_to_numbers.count
      ∧ m'.allow_duplicates = fruits_to_numbers.allow_duplicates
      ∧ inorder m'.root = l1 ++ { key := x.key, value := some ⟨31, 68⟩ } :: l2
      ∧ tree_shape m'.root = tree_shape fruits_to_numbers.root :=
  ⟨fruits_numbers_pair_compare_consistent, fruits_numbers_pair_compare_keys,
    fruits_to_numbers_invariant,
    ⟨⟨some ⟨10, 1⟩, some ⟨11, 18⟩⟩, by simp [fruits_to_numbers],
      by simp [fruits_numbers_pair_compare, fruit_compare, pair_new]⟩,
    map_replace_present fruits_numbers_pair_compare fruits_numbers_pair_compare_consistent
      fruits_numbers_pair_compare_keys fruits_to_numbers fruits_to_numbers_invariant
      ⟨30, 1⟩ (some ⟨31, 68⟩)
      ⟨⟨some ⟨10, 1⟩, some ⟨11, 18⟩⟩, by simp [fruits_to_numbers],
        by simp [fruits_numbers_pair_compare, fruit_compare, pair_new]⟩⟩

/-- C22. `map_replace` on a missing key: when the map, the key or the comparator is
absent, or no stored pair compares equal to the probe pair of the key, `map_replace`
returns `NULL` and the map after the call is the map before it (no pair inserted, same
count, same stored values). -/
theorem map_replace_missing {κ ν : Type} (map : Option (map_s κ ν)) (key : Option κ)
    (new_value : Option ν) (map_pair_compare : Option (pair_s κ ν → pair_s κ ν → Int))
    (h : map = none ∨ key = none ∨ map_pair_compare = none
      ∨ ∃ m k cmp, map = some m ∧ key = some k ∧ map_pair_compare = some cmp
          ∧ ∀ x ∈ inorder m.root, cmp x (pair_new (some k) none) ≠ 0) :
    map_replace map key new_value map_pair_compare = (none, map) := by
  cases map with
  | none => rfl
  | some m =>
    cases key with
    | none => rfl
    | some k =>
      cases map_pair_compare with
      | none => rfl
      | some cmp =>
        have hno : ∀ x ∈ inorder m.root, cmp x (pair_new (some k) none) ≠ 0 := by
          rcases h with h | h | h | ⟨m0, k0, c0, h1, h2, h3, h4⟩
          · exact absurd h (by simp)
          · exact absurd h (by simp)
          · exact absurd h (by simp)
          · cases h1; cases h2; cases h3; exact h4
        cases hf : tree_node_find m.root (some (pair_new (some k) none)) (some cmp) with
        | null => simp [map_replace, tree_find, tree_node_find_elem, hf]
        | node x b hh l r =>
          obtain ⟨h1, h2⟩ := tree_node_find_sound _ _ _ _ _ _ _ _ hf
          exact absurd h1 (hno x h2)

/-- Witness of C22: the key 16 (a mango), which the map of three fruits does not hold. -/
theorem map_replace_missing_witness :
    ((some fruits_to_numbers = none) ∨ (some (⟨20, 16⟩ : number) = none)
      ∨ (some fruits_numbers_pair_compare = none)
      ∨ ∃ m k cmp, some fruits_to_numbers = some m ∧ some (⟨20, 16⟩ : number) = some k
          ∧ some fruits_numbers_pair_compare = some cmp
          ∧ ∀ x ∈ inorder m.root, cmp x (pair_new (some k) none) ≠ 0)
    ∧ map_replace (some fruits_to_numbers) (some ⟨20, 16⟩) (some ⟨21, 0⟩)
        (some fruits_numbers_pair_compare) = (none, some fruits_to_numbers) :=
  ⟨Or.inr (Or.inr (Or.inr ⟨fruits_to_numbers, ⟨20, 16⟩, fruits_numbers_pair_compare, rfl, rfl,
      rfl, by simp [fruits_to_numbers, fruits_numbers_pair_compare, fruit_compare, pair_new]⟩)),
    map_replace_missing (some fruits_to_numbers) (some ⟨20, 16⟩) (some ⟨21, 0⟩)
      (some fruits_numbers_pair_compare)
      (Or.inr (Or.inr (Or.inr ⟨fruits_to_numbers, ⟨20, 16⟩, fruits_numbers_pair_compare, rfl,
        rfl, rfl,
        by simp [fruits_to_numbers, fruits_numbers_pair_compare, fruit_compare, pair_new]⟩)))⟩

/-- C23. `map_remove`. On a map that satisfies the invariants, with a pair comparator that
is consistent and compares keys only: (1) for a present key the call returns the one
stored pair with that key, whose value field is the value `map_find` returned, `count`
decreases by one and a following `map_find` returns `NULL`; (2) for a missing key it
returns `NULL` and leaves the map unchanged; (3) after a successful `map_insert` of key
`k` and value `v`, the pair returned has the key reference `k` and the value `v`; (4) after
a `map_replace` with `new_value` on a present key, the pair returned has the stored key
reference and the value `new_value`. -/
theorem map_remove_pair {κ ν : Type} (cmp : pair_s κ ν → pair_s κ ν → Int)
    (hc : consistent cmp) (hk : compares_keys cmp) (m : map_s κ ν)
    (inv : tree_invariant cmp m) (hd : m.allow_duplicates = false) (k : κ) :
    ((∃ x ∈ inorder m.root, cmp x (pair_new (some k) none) = 0) →
        ∃ x m', x ∈ inorder m.root ∧ cmp x (pair_new (some k) none) = 0
          ∧ (∀ y ∈ inorder m.root, cmp y (pair_new (some k) none) = 0 → y = x)
          ∧ map_find (some m) (some k) (some cmp) = x.value
          ∧ map_remove (some m) (some k) (some cmp) = some (some x, some m')
          ∧ m'.count + 1 = m.count
          ∧ map_find (some m') (some k) (some cmp) = none)
    ∧ ((∀ x ∈ inorder m.root, cmp x (pair_new (some k) none) ≠ 0) →
        map_remove (some m) (some k) (some cmp) = some (none, some m))
    ∧ (∀ (v : Option ν) (m1 : map_s κ ν),
        map_insert (some m) (some k) v (some cmp) = some (.MAP_RC_OK, some m1) →
        ∃ m2, map_remove (some m1) (some k) (some cmp)
          = some (some { key := some k, value := v }, some m2))
    ∧ (∀ (new_value old : Option ν) (m1 : map_s κ ν),
        (∃ x ∈ inorder m.root, cmp x (pair_new (some k) none) = 0) →
        map_replace (some m) (some k) new_value (some cmp) = (old, some m1) →
        ∃ x m2, x ∈ inorder m.root ∧ cmp x (pair_new (some k) none) = 0
          ∧ map_remove (some m1) (some k) (some cmp)
            = some (some { key := x.key, value := new_value }, some m2)) := by
  refine ⟨?_, ?_, ?_, ?_⟩
  · intro hex
    rcases map_remove_spec cmp hc m inv hd k with ⟨hno, _⟩ |
      ⟨x, m', h1, h2, h3, h4, h5, h6, _, _, h9⟩
    · exact absurd hex hno
    · exact ⟨x, m', h1, h2, h3, h4, h5, h6, h9⟩
  · intro hno
    rcases map_remove_spec cmp hc m inv hd k with ⟨_, h⟩ | ⟨x, _, h1, h2, _⟩
    · exact h
    · exact absurd h2 (hno x h1)
  · intro v m1 hins
    rcases tree_insert_spec cmp hc m inv (pair_new (some k) v) with ⟨_, _, h⟩ |
      ⟨_, root', h, _, inv', l1, l2, _, e3, _⟩
    · simp [map_insert, h, tree_rc_to_map_rc] at hins
    · simp only [map_insert, h, Option.map_some', tree_rc_to_map_rc, Option.some.injEq,
        Prod.mk.injEq, true_and] at hins
      subst hins
      have hin : pair_new (some k) v ∈ inorder root' := by rw [e3]; simp
      have heq : cmp (pair_new (some k) v) (pair_new (some k) none) = 0 := by
        exact (hk (pair_new (some k) none) (pair_new (some k) none) v none).trans (hc.refl _)
      rcases map_remove_spec cmp hc _ inv' hd k with ⟨hno, _⟩ | ⟨x, m2, _, _, h3, _, h5, _⟩
      · exact absurd ⟨_, hin, heq⟩ hno
      · have hx : pair_new (some k) v = x := h3 _ hin heq
        exact ⟨m2, by rw [h5, ← hx]; rfl⟩
  · intro new_value old m1 hex hrep
    rcases map_replace_spec cmp hc hk m inv k new_value with ⟨hno, _⟩ |
      ⟨x, l1, l2, m', h1, h2, _, h4, _, _, h7, h8, _, inv'⟩
    · exact absurd hex hno
    · rw [h4] at hrep
      simp only [Prod.mk.injEq, Option.some.injEq] at hrep
      obtain ⟨_, hm⟩ := hrep
      subst hm
      have hin : ({ key := x.key, value := new_value } : pair_s κ ν) ∈ inorder m'.root := by
        rw [h8]; simp
      have heq : cmp ({ key := x.key, value := new_value } : pair_s κ ν)
          (pair_new (some k) none) = 0 := by
        have := (compares_keys_value cmp hk x (pair_new (some k) none) new_value).1
        rw [← h2, ← this]
      rcases map_remove_spec cmp hc m' inv' (h7.trans hd) k with ⟨hno, _⟩ |
        ⟨y, m2, _, _, h3, _, h5, _⟩
      · exact absurd ⟨_, hin, heq⟩ hno
      · have hy := h3 _ hin heq
        exact ⟨x, m2, by rw [h1]; simp, h2, by rw [h5, ← hy]⟩

/-- Witness of C23: the key 3 on the map of three fruits, where it is bound to 32. -/
theorem map_remove_pair_witness :
    consistent fruits_numbers_pair_compare ∧ compares_keys fruits_numbers_pair_compare
    ∧ tree_invariant fruits_numbers_pair_compare fruits_to_numbers
    ∧ fruits_to_numbers.allow_duplicates = false
    ∧ (((∃ x ∈ inorder fruits_to_numbers.root,
          fruits_numbers_pair_compare x (pair_new (some ⟨30, 3⟩) none) = 0) →
        ∃ x m', x ∈ inorder fruits_to_numbers.root
          ∧ fruits_numbers_pair_compare x (pair_new (some ⟨30, 3⟩) none) = 0
          ∧ (∀ y ∈ inorder fruits_to_numbers.root,
              fruits_numbers_pair_compare y (pair_new (some ⟨30, 3⟩) none) = 0 → y = x)
          ∧ map_find (some fruits_to_numbers) (some ⟨30, 3⟩) (some fruits_numbers_pair_compare)
              = x.value
          ∧ map_remove (some fruits_to_numbers) (some ⟨30, 3⟩) (some fruits_numbers_pair_compare)
              = some (some x, some m')
          ∧ m'.count + 1 = fruits_to_numbers.count
          ∧ map_find (some m') (some ⟨30, 3⟩) (some fruits_numbers_pair_compare) = none)
      ∧ ((∀ x ∈ inorder fruits_to_numbers.root,
          fruits_numbers_pair_compare x (pair_new (some ⟨30, 3⟩) none) ≠ 0) →
        map_remove (some fruits_to_numbers) (some ⟨30, 3⟩) (some fruits_numbers_pair_compare)
          = some (none, some fruits_to_numbers))
      ∧ (∀ (v : Option number) (m1 : map_s number number),
        map_insert (some fruits_to_numbers) (some ⟨30, 3⟩) v (some fruits_numbers_pair_compare)
          = some (.MAP_RC_OK, some m1) →
        ∃ m2, map_remove (some m1) (some ⟨30, 3⟩) (some fruits_numbers_pair_compare)
          = some (some { key := some ⟨30, 3⟩, value := v }, some m2))
      ∧ (∀ (new_value old : Option number) (m1 : map_s number number),
        (∃ x ∈ inorder fruits_to_numbers.root,
          fruits_numbers_pair_compare x (pair_new (some ⟨30, 3⟩) none) = 0) →
        map_replace (some fruits_to_numbers) (some ⟨30, 3⟩) new_value
          (some fruits_numbers_pair_compare) = (old, some m1) →
        ∃ x m2, x ∈ inorder fruits_to_numbers.root
          ∧ fruits_numbers_pair_compare x (pair_new (some ⟨30, 3⟩) none) = 0
          ∧ map_remove (some m1) (some ⟨30, 3⟩) (some fruits_numbers_pair_compare)
            = some (some { key := x.key, value := new_value }, some m2))) :=
  ⟨fruits_numbers_pair_compare_consistent, fruits_numbers_pair_compare_keys,
    fruits_to_numbers_invariant, rfl,
    map_remove_pair fruits_numbers_pair_compare fruits_numbers_pair_compare_consistent
      fruits_numbers_pair_compare_keys fruits_to_numbers fruits_to_numbers_invariant rfl
      ⟨30, 3⟩⟩

/-- Every call on a map keeps the tree invariants and the duplicate policy `false`. -/
theorem map_step_invariant {κ ν : Type} (cmp : pair_s κ ν → pair_s κ ν → Int)
    (hc : consistent cmp) (hk : compares_keys cmp) (m : map_s κ ν)
    (h : tree_invariant cmp m ∧ m.allow_duplicates = false) (op : map_op κ ν) :
    ∃ m', map_step cmp (some m) op = some (some m')
      ∧ (tree_invariant cmp m' ∧ m'.allow_duplicates = false) := by
  obtain ⟨inv, hd⟩ := h
  cases op with
  | insert k v w =>
    cases k with
    | none => exact ⟨m, rfl, inv, hd⟩
    | some k =>
      cases w with
      | false => exact ⟨m, rfl, inv, hd⟩
      | true =>
        rcases tree_insert_spec cmp hc m inv (pair_new (some k) v) with ⟨_, _, h⟩ |
          ⟨_, root', h, _, inv', _⟩
        · exact ⟨m, by simp [map_step, map_insert, h], inv, hd⟩
        · exact ⟨_, by simp [map_step, map_insert, h], inv', hd⟩
  | replace k v w =>
    cases k with
    | none => exact ⟨m, rfl, inv, hd⟩
    | some k =>
      cases w with
      | false => exact ⟨m, rfl, inv, hd⟩
      | true =>
        rcases map_replace_spec cmp hc hk m inv k v with ⟨_, h⟩ |
          ⟨x, l1, l2, m', _, _, _, h, _, _, h7, _, _, inv'⟩
        · exact ⟨m, by simp [map_step, h], inv, hd⟩
        · exact ⟨m', by simp [map_step, h], inv', h7.trans hd⟩
  | remove k w =>
    cases k with
    | none => exact ⟨m, rfl, inv, hd⟩
    | some k =>
      cases w with
      | false => exact ⟨m, rfl, inv, hd⟩
      | true =>
        rcases map_remove_spec cmp hc m inv hd k with ⟨_, h⟩ |
          ⟨x, m', _, _, _, _, h, _, hd', inv', _⟩
        · exact ⟨m, by simp [map_step, h], inv, hd⟩
        · exact ⟨m', by simp [map_step, h], inv', hd'⟩
  | clear d =>
    refine ⟨{ m with root := .null, count := 0 }, ?_, ?_, hd⟩
    · simp only [map_step, map_clear, tree_clear_some]
    · exact tree_invariant_empty cmp _ _ rfl

/-- A property kept by every call on a map holds after every finite sequence of calls. -/
theorem map_run_preserves {κ ν : Type} (cmp : pair_s κ ν → pair_s κ ν → Int)
    (P : map_s κ ν → Prop)
    (hstep : ∀ m op, P m → ∃ m', map_step cmp (some m) op = some (some m') ∧ P m')
    (ops : List (map_op κ ν)) :
    ∀ m, P m → ∃ m', map_run cmp (some m) ops = some (some m') ∧ P m' := by
  induction ops with
  | nil => intro m hm; exact ⟨m, rfl, hm⟩
  | cons op ops ih =>
    intro m hm
    obtain ⟨m1, h1, p1⟩ := hstep m op hm
    obtain ⟨m2, h2, p2⟩ := ih m1 p1
    exact ⟨m2, by simp only [map_run, h1, Option.some_bind, h2], p2⟩

/-- C24. Map key uniqueness: for a map created by `map_new` or initialised by `map_init`
and then changed only by finite sequences of `map_insert`, `map_replace`, `map_remove`
and `map_clear` calls with one pair comparator that is consistent and compares keys only,
`allow_duplicates` is `false` and no two stored pairs compare equal. -/
theorem map_key_uniqueness {κ ν : Type} (cmp : pair_s κ ν → pair_s κ ν → Int)
    (hc : consistent cmp) (hk : compares_keys cmp) (start : Option (map_s κ ν))
    (hs : start = map_new ∨ ∃ m0, start = map_init (some m0))
    (ops : List (map_op κ ν)) :
    ∃ m, map_run cmp start ops = some (some m) ∧ m.allow_duplicates = false
      ∧ (inorder m.root).Pairwise (fun p q => cmp p q ≠ 0) := by
  have hstart : start = some { root := .null, allow_duplicates := false, count := 0 } := by
    rcases hs with h | ⟨m0, h⟩
    · rw [h]; rfl
    · rw [h]; rfl
  rw [hstart]
  obtain ⟨m, h1, inv, hd⟩ :=
    map_run_preserves cmp (fun m => tree_invariant cmp m ∧ m.allow_duplicates = false)
      (fun m op h => map_step_invariant cmp hc hk m h op) ops _
      ⟨tree_invariant_empty cmp false 0 rfl, rfl⟩
  exact ⟨m, h1, hd, List.Pairwise.imp (fun h => by omega) (inv.strict hd)⟩

/-- Witness of C24: inserts, a refused insert, a replace, a remove and a clear on a new
map of fruits and numbers. -/
theorem map_key_uniqueness_witness :
    consistent fruits_numbers_pair_compare ∧ compares_keys fruits_numbers_pair_compare
    ∧ ((map_new : Option (map_s number number)) = map_new
        ∨ ∃ m0, (map_new : Option (map_s number number)) = map_init (some m0))
    ∧ ∃ m, map_run fruits_numbers_pair_compare map_new
        [.insert (some ⟨1, 0⟩) (some ⟨2, 18⟩) true, .insert (some ⟨3, 2⟩) (some ⟨4, 32⟩) true,
         .insert (some ⟨5, 0⟩) (some ⟨6, 7⟩) true, .replace (some ⟨7, 2⟩) (some ⟨8, 68⟩) true,
         .remove (some ⟨9, 0⟩) true, .insert none none true, .clear false,
         .insert (some ⟨10, 5⟩) none true] = some (some m)
      ∧ m.allow_duplicates = false
      ∧ (inorder m.root).Pairwise (fun p q => fruits_numbers_pair_compare p q ≠ 0) :=
  ⟨fruits_numbers_pair_compare_consistent, fruits_numbers_pair_compare_keys, Or.inl rfl,
    map_key_uniqueness fruits_numbers_pair_compare fruits_numbers_pair_compare_consistent
      fruits_numbers_pair_compare_keys map_new (Or.inl rfl) _⟩

/-- C25. `map_traverse` on a map with a root node that satisfies the strict ordering
invariant, with a visitor: the call returns `MAP_RC_OK`, the visitor is applied to the
stored pairs in in-order, which lists every stored pair once, and any two pairs visited
one after the other, `p` then `q`, satisfy `compare p q > 0`. -/
theorem map_traverse_ascending {κ ν σ : Type} (cmp : pair_s κ ν → pair_s κ ν → Int)
    (m : map_s κ ν) (hs : strictly_ordered cmp m.root) (hne : is_null m.root = false)
    (visit : σ → pair_s κ ν → σ) (s : σ) :
    map_traverse (some m) (some visit) s = (.MAP_RC_OK, (inorder m.root).foldl visit s)
    ∧ (map_traverse (some m) (some record_visit) []).2 = inorder m.root
    ∧ List.Chain' (fun p q => 0 < cmp p q) (inorder m.root) := by
  refine ⟨?_, ?_, List.Pairwise.chain' hs⟩
  · simp [map_traverse, tree_traverse, hne, tree_node_traverse_inorder_eq, tree_rc_to_map_rc]
  · simp [map_traverse, tree_traverse, hne, traverse_inorder_record]

/-- Witness of C25: the map of three fruits with the recording visitor. -/
theorem map_traverse_ascending_witness :
    strictly_ordered fruits_numbers_pair_compare fruits_to_numbers.root
    ∧ is_null fruits_to_numbers.root = false
    ∧ (map_traverse (some fruits_to_numbers) (some record_visit) []
        = (.MAP_RC_OK, (inorder fruits_to_numbers.root).foldl record_visit [])
      ∧ (map_traverse (some fruits_to_numbers) (some record_visit) []).2
        = inorder fruits_to_numbers.root
      ∧ List.Chain' (fun p q => 0 < fruits_numbers_pair_compare p q)
          (inorder fruits_to_numbers.root)) :=
  ⟨fruits_to_numbers_invariant.strict rfl, rfl,
    map_traverse_ascending fruits_numbers_pair_compare fruits_to_numbers
      (fruits_to_numbers_invariant.strict rfl) rfl record_visit []⟩

/-- C26. Argument checks of `map_insert`, in this order and without any change to the
map: an absent map gives `MAP_RC_NULL`; otherwise an absent key gives `MAP_RC_KEY_NULL`;
otherwise an absent comparator gives `MAP_RC_PAIR_CB_NULL`.  The map after the call is the
map before it (same root and count). -/
theorem map_insert_argument_checks {κ ν : Type} :
    (∀ (k : Option κ) (v : Option ν) (c : Option (pair_s κ ν → pair_s κ ν → Int)),
        map_insert (none : Option (map_s κ ν)) k v c = some (.MAP_RC_NULL, none))
    ∧ (∀ (m : map_s κ ν) (v : Option ν) (c : Option (pair_s κ ν → pair_s κ ν → Int)),
        map_insert (some m) none v c = some (.MAP_RC_KEY_NULL, some m))
    ∧ (∀ (m : map_s κ ν) (k : κ) (v : Option ν),
        map_insert (some m) (some k) v none = some (.MAP_RC_PAIR_CB_NULL, some m)) :=
  ⟨fun _ _ _ => rfl, fun _ _ _ => rfl, fun _ _ _ => rfl⟩

/-! ## Stack and queue on the circular singly linked list -/

@[simp] theorem s_l_heap_store_cells {α : Type} (h : s_l_heap α) (a : Nat)
    (node : s_l_list_node_s α) (a' : Nat) :
    (h.store a node).cells a' = if a' = a then some node else h.cells a' := by
  simp [s_l_heap.store, Function.update_apply]

@[simp] theorem s_l_heap_free_cells {α : Type} (h : s_l_heap α) (a a' : Nat) :
    (h.free a).cells a' = if a' = a then none else h.cells a' := by
  simp [s_l_heap.free, Function.update_apply]

@[simp] theorem s_l_heap_store_brk {α : Type} (h : s_l_heap α) (a : Nat)
    (node : s_l_list_node_s α) : (h.store a node).brk = h.brk := rfl

@[simp] theorem s_l_heap_free_brk {α : Type} (h : s_l_heap α) (a : Nat) :
    (h.free a).brk = h.brk := rfl

theorem s_l_chain_length {α : Type} (cells : Nat → Option (s_l_list_node_s α)) :
    ∀ (as : List Nat) (xs : List α) (stop : Nat), s_l_chain cells as xs stop →
      as.length = xs.length
  | [], [], _, _ => rfl
  | [], _ :: _, _, h => by simp [s_l_chain] at h
  | _ :: _, [], _, h => by simp [s_l_chain] at h
  | _ :: as, _ :: xs, stop, h => by
    simp only [s_l_chain] at h
    simp [s_l_chain_length cells as xs stop h.2]

theorem s_l_chain_frame {α : Type} (cells cells' : Nat → Option (s_l_list_node_s α)) :
    ∀ (as : List Nat) (xs : List α) (stop : Nat), (∀ a ∈ as, cells' a = cells a) →
      s_l_chain cells as xs stop → s_l_chain cells' as xs stop
  | [], [], _, _, _ => trivial
  | [], _ :: _, _, _, h => by simp [s_l_chain] at h
  | _ :: _, [], _, _, h => by simp [s_l_chain] at h
  | a :: as, _ :: xs, stop, hf, h => by
    simp only [s_l_chain] at h ⊢
    exact ⟨(hf a (List.mem_cons_self _ _)).trans h.1,
      s_l_chain_frame cells cells' as xs stop
        (fun b hb => hf b (List.mem_cons_of_mem _ hb)) h.2⟩

theorem s_l_chain_concat {α : Type} (cells : Nat → Option (s_l_list_node_s α)) (b : Nat)
    (x : α) (stop : Nat) (hb : cells b = some { elem := some x, next := some stop }) :
    ∀ (as : List Nat) (xs : List α), s_l_chain cells as xs b →
      s_l_chain cells (as ++ [b]) (xs ++ [x]) stop
  | [], [], _ => by simpa [s_l_chain] using hb
  | [], _ :: _, h => by simp [s_l_chain] at h
  | _ :: _, [], h => by simp [s_l_chain] at h
  | a :: as, y :: xs, h => by
    simp only [s_l_chain] at h
    have ih := s_l_chain_concat cells b x stop hb as xs h.2
    simp only [List.cons_append, s_l_chain]
    refine ⟨?_, ih⟩
    rw [h.1]
    cases as <;> rfl

theorem s_l_chain_unconcat {α : Type} (cells : Nat → Option (s_l_list_node_s α)) (b : Nat)
    (stop : Nat) :
    ∀ (as : List Nat) (ys : List α), s_l_chain cells (as ++ [b]) ys stop →
      ∃ xs x, ys = xs ++ [x] ∧ s_l_chain cells as xs b
        ∧ cells b = some { elem := some x, next := some stop }
  | [], [], h => by simp [s_l_chain] at h
  | [], [y], h => ⟨[], y, rfl, trivial, by simpa [s_l_chain] using h⟩
  | [], _ :: _ :: _, h => by simp [s_l_chain] at h
  | _ :: _, [], h => by simp [s_l_chain] at h
  | a :: as, y :: ys, h => by
    simp only [List.cons_append, s_l_chain] at h
    obtain ⟨xs, x, hys, hch, hb⟩ := s_l_chain_unconcat cells b stop as ys h.2
    refine ⟨y :: xs, x, by simp [hys], ?_, hb⟩
    simp only [s_l_chain]
    refine ⟨?_, hch⟩
    rw [h.1]
    cases as <;> rfl

theorem s_l_list_insert_front_spec {α : Type} (h : s_l_heap α) (l : s_l_list_s)
    (xs : List α) (e : α) (hr : s_l_list_repr h l xs) :
    ∃ h' l', s_l_list_insert_front h (some l) (some e)
        = some (.S_L_LIST_RC_OK, h', some l')
      ∧ s_l_list_repr h' l' (e :: xs) ∧ l'.count = l.count + 1 := by
  obtain ⟨hc, as, hnd, hlt, hback, hch⟩ := hr
  rcases List.eq_nil_or_concat as with rfl | ⟨init, b, has⟩
  on_goal 2 => rw [List.concat_eq_append] at has; subst has
  · have hxs : xs = [] := by
      cases xs with
      | nil => rfl
      | cons _ _ => simp [s_l_chain] at hch
    subst hxs
    simp only [List.getLast?_nil] at hback
    refine ⟨_, _, by simp [s_l_list_insert_front, s_l_list_node_new, hback]; exact ⟨rfl, rfl⟩,
      ⟨by simp [hc], [h.brk], by simp, by simp, by simp, ?_⟩, rfl⟩
    simp [s_l_chain]
  · obtain ⟨xi, xl, rfl, hci, hb⟩ := s_l_chain_unconcat _ b _ init xs hch
    have hback' : l.back = some b := by simpa using hback
    have hbl : b < h.brk := hlt b (by simp)
    have hbne : b ≠ h.brk := Nat.ne_of_lt hbl
    have hbi : b ∉ init := by
      intro hm
      have := List.nodup_append.1 hnd
      exact this.2.2 hm (by simp)
    have hni : h.brk ∉ init := fun hm => Nat.lt_irrefl _ (hlt _ (by simp [hm]))
    refine ⟨_, _, by
      simp [s_l_list_insert_front, s_l_list_node_new, hback', hb, hbne, Ne.symm hbne]
      exact ⟨rfl, rfl⟩, ⟨by simp [hc], h.brk :: (init ++ [b]), ?_, ?_, ?_, ?_⟩, rfl⟩
    · refine List.nodup_cons.2 ⟨?_, hnd⟩
      intro hm
      exact Nat.lt_irrefl _ (hlt _ hm)
    · intro a ha
      simp only [List.mem_cons] at ha
      simp only [s_l_heap_store_brk]
      rcases ha with rfl | ha
      · exact Nat.lt_succ_self _
      · exact Nat.lt_succ_of_lt (hlt a ha)
    · show some b = ((h.brk :: init) ++ [b]).getLast?
      rw [List.getLast?_append]; rfl
    · simp only [s_l_chain, List.headD_cons]
      refine ⟨by cases init <;> simp [Ne.symm hbne], ?_⟩
      refine s_l_chain_concat _ b xl h.brk (by simp) init xi ?_
      refine s_l_chain_frame _ _ init xi b ?_ hci
      intro a ha
      have h1 : a ≠ b := fun h => hbi (h ▸ ha)
      have h2 : a ≠ h.brk := fun h => hni (h ▸ ha)
      simp [h1, h2]

theorem s_l_list_repr_nil {α : Type} (h : s_l_heap α) (l : s_l_list_s)
    (hr : s_l_list_repr h l ([] : List α)) : l = { back := none, count := 0 } := by
  obtain ⟨hc, as, _, _, hback, hch⟩ := hr
  cases as with
  | nil =>
    cases l
    simp only [List.getLast?_nil, List.length_nil] at hback hc
    simp [hback, hc]
  | cons _ _ => simp [s_l_chain] at hch

theorem s_l_list_repr_new {α : Type} (h : s_l_heap α) :
    s_l_list_repr h { back := none, count := 0 } ([] : List α) :=
  ⟨rfl, [], List.nodup_nil, by simp, rfl, trivial⟩

theorem s_l_list_insert_back_spec {α : Type} (h : s_l_heap α) (l : s_l_list_s)
    (xs : List α) (e : α) (hr : s_l_list_repr h l xs) :
    ∃ h' l', s_l_list_insert_back h (some l) (some e)
        = some (.S_L_LIST_RC_OK, h', some l')
      ∧ s_l_list_repr h' l' (xs ++ [e]) ∧ l'.count = l.count + 1 := by
  obtain ⟨hc, as, hnd, hlt, hback, hch⟩ := hr
  rcases List.eq_nil_or_concat as with rfl | ⟨init, b, has⟩
  on_goal 2 => rw [List.concat_eq_append] at has; subst has
  · have hxs : xs = [] := by
      cases xs with
      | nil => rfl
      | cons _ _ => simp [s_l_chain] at hch
    subst hxs
    simp only [List.getLast?_nil] at hback
    refine ⟨_, _, by simp [s_l_list_insert_back, s_l_list_node_new, hback]; exact ⟨rfl, rfl⟩,
      ⟨by simp [hc], [h.brk], by simp, by simp, by simp, ?_⟩, rfl⟩
    simp [s_l_chain]
  · obtain ⟨xi, xl, rfl, hci, hb⟩ := s_l_chain_unconcat _ b _ init xs hch
    have hback' : l.back = some b := by simpa using hback
    have hbl : b < h.brk := hlt b (by simp)
    have hbne : b ≠ h.brk := Nat.ne_of_lt hbl
    have hbi : b ∉ init := by
      intro hm
      have := List.nodup_append.1 hnd
      exact this.2.2 hm (by simp)
    have hni : h.brk ∉ init := fun hm => Nat.lt_irrefl _ (hlt _ (by simp [hm]))
    refine ⟨_, _, by
      simp [s_l_list_insert_back, s_l_list_node_new, hback', hb, hbne, Ne.symm hbne]
      exact ⟨rfl, rfl⟩, ⟨by simp [hc], (init ++ [b]) ++ [h.brk], ?_, ?_, ?_, ?_⟩, rfl⟩
    · refine List.nodup_append.2 ⟨hnd, by simp, ?_⟩
      intro a ha hb'
      simp only [List.mem_singleton] at hb'
      subst hb'
      exact Nat.lt_irrefl _ (hlt _ ha)
    · intro a ha
      simp only [List.mem_append, List.mem_singleton] at ha
      simp only [s_l_heap_store_brk]
      rcases ha with ha | rfl
      · exact Nat.lt_succ_of_lt (hlt a (by simpa using ha))
      · exact Nat.lt_succ_self _
    · simp
    · refine s_l_chain_concat _ h.brk e _ ?_ (init ++ [b]) (xi ++ [xl]) ?_
      · cases init <;> simp [Ne.symm hbne]
      · refine s_l_chain_concat _ b xl h.brk (by simp) init xi ?_
        refine s_l_chain_frame _ _ init xi b ?_ hci
        intro a ha
        have h1 : a ≠ b := fun h => hbi (h ▸ ha)
        have h2 : a ≠ h.brk := fun h => hni (h ▸ ha)
        simp [h1, h2]

theorem s_l_list_remove_front_nil {α : Type} (h : s_l_heap α) (l : s_l_list_s)
    (hr : s_l_list_repr h l ([] : List α)) :
    s_l_list_remove_front h (some l) = some (none, h, some l) := by
  rw [s_l_list_repr_nil h l hr]
  rfl

theorem s_l_list_remove_front_spec {α : Type} (h : s_l_heap α) (l : s_l_list_s)
    (x : α) (xs : List α) (hr : s_l_list_repr h l (x :: xs)) :
    ∃ h' l', s_l_list_remove_front h (some l) = some (some x, h', some l')
      ∧ s_l_list_repr h' l' xs ∧ l'.count + 1 = l.count := by
  obtain ⟨hc, as, hnd, hlt, hback, hch⟩ := hr
  cases as with
  | nil => simp [s_l_chain] at hch
  | cons f rest =>
    simp only [s_l_chain, List.headD_cons] at hch
    obtain ⟨hf, hrest⟩ := hch
    have hcz : l.count ≠ 0 := by simp [hc]
    rcases List.eq_nil_or_concat rest with rfl | ⟨init, b, has⟩
    on_goal 2 => rw [List.concat_eq_append] at has; subst has
    · have hxs : xs = [] := by
        cases xs with
        | nil => rfl
        | cons _ _ => simp [s_l_chain] at hrest
      subst hxs
      have hback' : l.back = some f := by simpa using hback
      refine ⟨_, _, by
        simp [s_l_list_remove_front, hback', hf]
        exact ⟨rfl, rfl⟩, ⟨?_, [], List.nodup_nil, by simp, rfl, trivial⟩, ?_⟩
      · simp [size_t_decrement, hcz] at hc ⊢
        omega
      · simp [size_t_decrement, hcz] at hc ⊢
        omega
    · obtain ⟨xi, xl, rfl, hci, hb⟩ := s_l_chain_unconcat _ b _ init xs hrest
      have hback' : l.back = some b := by
        rw [hback, ← List.cons_append, List.getLast?_append]; rfl
      have hnd' := List.nodup_cons.1 hnd
      have hfb : f ≠ b := fun h => hnd'.1 (by simp [h])
      have hbi : b ∉ init := by
        intro hm
        have := List.nodup_append.1 hnd'.2
        exact this.2.2 hm (by simp)
      have hfi : f ∉ init := fun hm => hnd'.1 (by simp [hm])
      have hf' : h.cells f = some { elem := some x, next := some (init.headD b) } := by
        rw [hf]; cases init <;> rfl
      refine ⟨_, _, by
        simp [s_l_list_remove_front, hback', hb, hf', hfb, Ne.symm hfb]
        exact ⟨rfl, rfl⟩, ⟨?_, init ++ [b], hnd'.2, ?_, ?_, ?_⟩, ?_⟩
      · simp [size_t_decrement, hcz] at hc ⊢
        omega
      · intro a ha
        exact hlt a (List.mem_cons_of_mem _ ha)
      · simp
      · refine s_l_chain_concat _ b xl _ ?_ init xi ?_
        · cases init <;> simp
        · refine s_l_chain_frame _ _ init xi b ?_ hci
          intro a ha
          have h1 : a ≠ b := fun h => hbi (h ▸ ha)
          have h2 : a ≠ f := fun h => hfi (h ▸ ha)
          simp [h1, h2]
      · simp [size_t_decrement, hcz] at hc ⊢
        omega

theorem stack_pick_spec {α : Type} (h : s_l_heap α) (l : s_l_list_s)
    (xs : List α) (hr : s_l_list_repr h l xs) :
    stack_pick h (some l) = some xs.head? := by
  obtain ⟨hc, as, hnd, hlt, hback, hch⟩ := hr
  cases as with
  | nil =>
    cases xs with
    | nil => simp only [List.getLast?_nil] at hback; simp [stack_pick, hback]
    | cons _ _ => simp [s_l_chain] at hch
  | cons f rest =>
    cases xs with
    | nil => simp [s_l_chain] at hch
    | cons x xs =>
      simp only [s_l_chain, List.headD_cons] at hch
      obtain ⟨hf, hrest⟩ := hch
      rcases List.eq_nil_or_concat rest with rfl | ⟨init, b, has⟩
      on_goal 2 => rw [List.concat_eq_append] at has; subst has
      · have hback' : l.back = some f := by simpa using hback
        simp [stack_pick, hback', hf]
      · obtain ⟨xi, xl, rfl, hci, hb⟩ := s_l_chain_unconcat _ b _ init xs hrest
        have hback' : l.back = some b := by
          rw [hback, ← List.cons_append, List.getLast?_append]; rfl
        simp [stack_pick, hback', hb, hf]

theorem queue_pick_spec {α : Type} (h : s_l_heap α) (l : s_l_list_s)
    (xs : List α) (hr : s_l_list_repr h l xs) :
    queue_pick h (some l) = some xs.head? :=
  stack_pick_spec h l xs hr

theorem stack_push_each_spec {α : Type} :
    ∀ (es : List α) (h : s_l_heap α) (s : s_l_list_s) (xs : List α),
      s_l_list_repr h s xs →
      ∃ h1 s1, stack_push_each h (some s) es = some (h1, some s1)
        ∧ s_l_list_repr h1 s1 (es.reverse ++ xs)
  | [], h, s, xs, hr => ⟨h, s, rfl, by simpa using hr⟩
  | e :: es, h, s, xs, hr => by
    obtain ⟨h1, s1, hpush, hr1, _⟩ := s_l_list_insert_front_spec h s xs e hr
    obtain ⟨h2, s2, hrest, hr2⟩ := stack_push_each_spec es h1 s1 (e :: xs) hr1
    refine ⟨h2, s2, ?_, by simpa using hr2⟩
    simp [stack_push_each, stack_push, hpush, hrest]

theorem stack_pop_each_spec {α : Type} :
    ∀ (ys : List α) (h : s_l_heap α) (s : s_l_list_s) (xs : List α),
      s_l_list_repr h s (ys ++ xs) →
      ∃ h1 s1, stack_pop_each h (some s) ys.length = some (ys.map some, h1, some s1)
        ∧ s_l_list_repr h1 s1 xs
  | [], h, s, xs, hr => ⟨h, s, rfl, by simpa using hr⟩
  | y :: ys, h, s, xs, hr => by
    obtain ⟨h1, s1, hpop, hr1, _⟩ := s_l_list_remove_front_spec h s y (ys ++ xs) hr
    obtain ⟨h2, s2, hrest, hr2⟩ := stack_pop_each_spec ys h1 s1 xs hr1
    refine ⟨h2, s2, ?_, hr2⟩
    simp [stack_pop_each, stack_pop, hpop, hrest]

/-- C27. Stack LIFO.  For every well-formed stack `s` (a circular list on the heap holding
a sequence `xs`, top first) and element `e`: `stack_push` returns `STACK_RC_OK`, the count
grows by one and the stack holds `e :: xs`; `stack_pick` then returns `e` (it only reads);
`stack_pop` then returns `e` and leaves a stack holding `xs` with the count it had before
the push.  Hence pushing any elements `es` and popping as many times returns them in the
reverse order and leaves the sequence `xs`; and `stack_pop` on an empty stack returns
absent and changes nothing. -/
theorem stack_lifo {α : Type} (h : s_l_heap α) (s : s_l_list_s) (xs : List α) (e : α)
    (hr : s_l_list_repr h s xs) :
    (∃ h1 s1, stack_push h (some s) (some e) = some (.STACK_RC_OK, h1, some s1)
      ∧ stack_count (some s1) = stack_count (some s) + 1
      ∧ s_l_list_repr h1 s1 (e :: xs)
      ∧ stack_pick h1 (some s1) = some (some e)
      ∧ ∃ h2 s2, stack_pop h1 (some s1) = some (some e, h2, some s2)
        ∧ s_l_list_repr h2 s2 xs
        ∧ stack_count (some s2) = stack_count (some s))
    ∧ (∀ es : List α, ∃ h1 s1 h2 s2,
        stack_push_each h (some s) es = some (h1, some s1)
        ∧ stack_pop_each h1 (some s1) es.length = some (es.reverse.map some, h2, some s2)
        ∧ s_l_list_repr h2 s2 xs)
    ∧ (∀ (h0 : s_l_heap α) (s0 : s_l_list_s), s_l_list_repr h0 s0 ([] : List α) →
        stack_pop h0 (some s0) = some (none, h0, some s0)) := by
  refine ⟨?_, ?_, ?_⟩
  · obtain ⟨h1, s1, hpush, hr1, hc1⟩ := s_l_list_insert_front_spec h s xs e hr
    obtain ⟨h2, s2, hpop, hr2, hc2⟩ := s_l_list_remove_front_spec h1 s1 e xs hr1
    refine ⟨h1, s1, by simp [stack_push, hpush, s_l_list_rc_to_stack_rc], hc1, hr1,
      by simpa using stack_pick_spec h1 s1 (e :: xs) hr1, h2, s2, hpop, hr2, ?_⟩
    simp only [stack_count]
    omega
  · intro es
    obtain ⟨h1, s1, hpush, hr1⟩ := stack_push_each_spec es h s xs hr
    obtain ⟨h2, s2, hpop, hr2⟩ := stack_pop_each_spec es.reverse h1 s1 xs hr1
    rw [List.length_reverse] at hpop
    exact ⟨h1, s1, h2, s2, hpush, hpop, hr2⟩
  · intro h0 s0 hr0
    exact s_l_list_remove_front_nil h0 s0 hr0

theorem stack_two_one_repr : s_l_list_repr stack_two_one_heap stack_two_one [2, 1] :=
  ⟨rfl, [1, 0], by decide, by decide, rfl, by simp [s_l_chain, stack_two_one_heap]⟩

/-- Witness of C27: 3 pushed onto the stack holding 2 and 1. -/
theorem stack_lifo_witness :
    s_l_list_repr stack_two_one_heap stack_two_one [2, 1]
    ∧ ((∃ h1 s1, stack_push stack_two_one_heap (some stack_two_one) (some 3)
          = some (.STACK_RC_OK, h1, some s1)
        ∧ stack_count (some s1) = stack_count (some stack_two_one) + 1
        ∧ s_l_list_repr h1 s1 (3 :: [2, 1])
        ∧ stack_pick h1 (some s1) = some (some 3)
        ∧ ∃ h2 s2, stack_pop h1 (some s1) = some (some 3, h2, some s2)
          ∧ s_l_list_repr h2 s2 [2, 1]
          ∧ stack_count (some s2) = stack_count (some stack_two_one))
      ∧ (∀ es : List Nat, ∃ h1 s1 h2 s2,
          stack_push_each stack_two_one_heap (some stack_two_one) es = some (h1, some s1)
          ∧ stack_pop_each h1 (some s1) es.length = some (es.reverse.map some, h2, some s2)
          ∧ s_l_list_repr h2 s2 [2, 1])
      ∧ (∀ (h0 : s_l_heap Nat) (s0 : s_l_list_s), s_l_list_repr h0 s0 ([] : List Nat) →
          stack_pop h0 (some s0) = some (none, h0, some s0))) :=
  ⟨stack_two_one_repr, stack_lifo stack_two_one_heap stack_two_one [2, 1] 3 stack_two_one_repr⟩

theorem queue_enqueue_each_spec {α : Type} :
    ∀ (es : List α) (h : s_l_heap α) (q : s_l_list_s) (xs : List α),
      s_l_list_repr h q xs →
      ∃ h1 q1, queue_enqueue_each h (some q) es = some (h1, some q1)
        ∧ s_l_list_repr h1 q1 (xs ++ es)
  | [], h, q, xs, hr => ⟨h, q, rfl, by simpa using hr⟩
  | e :: es, h, q, xs, hr => by
    obtain ⟨h1, q1, henq, hr1, _⟩ := s_l_list_insert_back_spec h q xs e hr
    obtain ⟨h2, q2, hrest, hr2⟩ := queue_enqueue_each_spec es h1 q1 (xs ++ [e]) hr1
    refine ⟨h2, q2, ?_, by simpa using hr2⟩
    simp [queue_enqueue_each, queue_enqueue, henq, hrest]

theorem queue_dequeue_each_spec {α : Type} :
    ∀ (ys : List α) (h : s_l_heap α) (q : s_l_list_s),
      s_l_list_repr h q ys →
      ∃ h1 q1, queue_dequeue_each h (some q) ys.length = some (fifo_rounds ys, h1, some q1)
        ∧ s_l_list_repr h1 q1 []
  | [], h, q, hr => ⟨h, q, rfl, hr⟩
  | y :: ys, h, q, hr => by
    obtain ⟨h1, q1, hdeq, hr1, _⟩ := s_l_list_remove_front_spec h q y ys hr
    obtain ⟨h2, q2, hrest, hr2⟩ := queue_dequeue_each_spec ys h1 q1 hr1
    refine ⟨h2, q2, ?_, hr2⟩
    have hpick := queue_pick_spec h q (y :: ys) hr
    simp only [List.head?_cons] at hpick
    simp [queue_dequeue_each, queue_dequeue, hpick, hdeq, hrest, fifo_rounds, queue_count,
      hr1.1]

theorem fifo_rounds_dequeued {α : Type} :
    ∀ es : List α, (fifo_rounds es).map (fun r => r.2.1) = es.map some
  | [] => rfl
  | e :: es => by simp [fifo_rounds, fifo_rounds_dequeued es]

theorem fifo_rounds_picked {α : Type} :
    ∀ es : List α, (fifo_rounds es).map (fun r => r.1) = es.map some
  | [] => rfl
  | e :: es => by simp [fifo_rounds, fifo_rounds_picked es]

theorem fifo_rounds_counts {α : Type} :
    ∀ es : List α, (fifo_rounds es).map (fun r => r.2.2) = (List.range es.length).reverse
  | [] => rfl
  | e :: es => by
    simp [fifo_rounds, fifo_rounds_counts es, List.range_succ]

/-- C28. Queue FIFO.  After the elements `es` have been enqueued, one after the other, onto
the empty queue of `queue_new`, the count is the number of elements and `es.length` rounds
of `queue_pick` followed by `queue_dequeue` go as follows: the round of an element `e`
picks `e`, dequeues `e` and leaves the count at the number of elements still enqueued (one
less than before the round); so the elements come out in the order they were enqueued.  A
further `queue_dequeue` on the emptied queue returns absent and changes nothing. -/
theorem queue_fifo {α : Type} (h : s_l_heap α) (es : List α) :
    ∃ h1 q1 h2 q2,
      queue_enqueue_each h queue_new es = some (h1, some q1)
      ∧ queue_count (some q1) = es.length
      ∧ queue_dequeue_each h1 (some q1) es.length = some (fifo_rounds es, h2, some q2)
      ∧ (fifo_rounds es).map (fun r => r.2.1) = es.map some
      ∧ (fifo_rounds es).map (fun r => r.1) = es.map some
      ∧ (fifo_rounds es).map (fun r => r.2.2) = (List.range es.length).reverse
      ∧ queue_count (some q2) = 0
      ∧ queue_pick h2 (some q2) = some none
      ∧ queue_dequeue h2 (some q2) = some (none, h2, some q2) := by
  obtain ⟨h1, q1, henq, hr1⟩ :=
    queue_enqueue_each_spec es h { back := none, count := 0 } [] (s_l_list_repr_new h)
  simp only [List.nil_append] at hr1
  obtain ⟨h2, q2, hdeq, hr2⟩ := queue_dequeue_each_spec es h1 q1 hr1
  refine ⟨h1, q1, h2, q2, henq, hr1.1, hdeq, ?_, ?_, ?_, hr2.1,
    by simpa using queue_pick_spec h2 q2 [] hr2, s_l_list_remove_front_nil h2 q2 hr2⟩
  · exact fifo_rounds_dequeued es
  · exact fifo_rounds_picked es
  · exact fifo_rounds_counts es

/-! ## Deque on the circular doubly linked list -/

@[simp] theorem d_l_heap_store_cells {α : Type} (h : d_l_heap α) (a : Nat)
    (node : d_l_list_node_s α) (a' : Nat) :
    (h.store a node).cells a' = if a' = a then some node else h.cells a' := by
  simp [d_l_heap.store, Function.update_apply]

@[simp] theorem d_l_heap_free_cells {α : Type} (h : d_l_heap α) (a a' : Nat) :
    (h.free a).cells a' = if a' = a then none else h.cells a' := by
  simp [d_l_heap.free, Function.update_apply]

@[simp] theorem d_l_heap_store_brk {α : Type} (h : d_l_heap α) (a : Nat)
    (node : d_l_list_node_s α) : (h.store a node).brk = h.brk := rfl

@[simp] theorem d_l_heap_free_brk {α : Type} (h : d_l_heap α) (a : Nat) :
    (h.free a).brk = h.brk := rfl

theorem d_l_chain_length {α : Type} (cells : Nat → Option (d_l_list_node_s α)) :
    ∀ (as : List Nat) (xs : List α) (p stop : Nat), d_l_chain cells p as xs stop →
      as.length = xs.length
  | [], [], _, _, _ => rfl
  | [], _ :: _, _, _, h => by simp [d_l_chain] at h
  | _ :: _, [], _, _, h => by simp [d_l_chain] at h
  | a :: as, _ :: xs, _, stop, h => by
    simp only [d_l_chain] at h
    simp [d_l_chain_length cells as xs a stop h.2]

theorem d_l_chain_frame {α : Type} (cells cells' : Nat → Option (d_l_list_node_s α)) :
    ∀ (as : List Nat) (xs : List α) (p stop : Nat), (∀ a ∈ as, cells' a = cells a) →
      d_l_chain cells p as xs stop → d_l_chain cells' p as xs stop
  | [], [], _, _, _, _ => trivial
  | [], _ :: _, _, _, _, h => by simp [d_l_chain] at h
  | _ :: _, [], _, _, _, h => by simp [d_l_chain] at h
  | a :: as, _ :: xs, _, stop, hf, h => by
    simp only [d_l_chain] at h ⊢
    exact ⟨(hf a (List.mem_cons_self _ _)).trans h.1,
      d_l_chain_frame cells cells' as xs a stop
        (fun b hb => hf b (List.mem_cons_of_mem _ hb)) h.2⟩

theorem d_l_chain_concat {α : Type} (cells : Nat → Option (d_l_list_node_s α)) (b : Nat)
    (x : α) (stop : Nat) :
    ∀ (as : List Nat) (xs : List α) (p : Nat),
      cells b = some { elem := some x, prev := some (as.getLastD p), next := some stop } →
      d_l_chain cells p as xs b →
      d_l_chain cells p (as ++ [b]) (xs ++ [x]) stop
  | [], [], _, hb, _ => by simpa [d_l_chain] using hb
  | [], _ :: _, _, _, h => by simp [d_l_chain] at h
  | _ :: _, [], _, _, h => by simp [d_l_chain] at h
  | a :: as, y :: xs, p, hb, h => by
    simp only [d_l_chain] at h
    have hb' : cells b
        = some { elem := some x, prev := some (as.getLastD a), next := some stop } := by
      rw [hb]; cases as <;> simp [List.getLastD]
    have ih := d_l_chain_concat cells b x stop as xs a hb' h.2
    simp only [List.cons_append, d_l_chain]
    refine ⟨?_, ih⟩
    rw [h.1]
    cases as <;> rfl

theorem d_l_chain_unconcat {α : Type} (cells : Nat → Option (d_l_list_node_s α)) (b : Nat)
    (stop : Nat) :
    ∀ (as : List Nat) (ys : List α) (p : Nat), d_l_chain cells p (as ++ [b]) ys stop →
      ∃ xs x, ys = xs ++ [x] ∧ d_l_chain cells p as xs b
        ∧ cells b
          = some { elem := some x, prev := some (as.getLastD p), next := some stop }
  | [], [], _, h => by simp [d_l_chain] at h
  | [], [y], _, h => ⟨[], y, rfl, trivial, by simpa [d_l_chain] using h⟩
  | [], _ :: _ :: _, _, h => by simp [d_l_chain] at h
  | _ :: _, [], _, h => by simp [d_l_chain] at h
  | a :: as, y :: ys, p, h => by
    simp only [List.cons_append, d_l_chain] at h
    obtain ⟨xs, x, hys, hch, hb⟩ := d_l_chain_unconcat cells b stop as ys a h.2
    refine ⟨y :: xs, x, by simp [hys], ?_, ?_⟩
    · simp only [d_l_chain]
      refine ⟨?_, hch⟩
      rw [h.1]
      cases as <;> rfl
    · rw [hb]; cases as <;> simp [List.getLastD]

theorem getLastD_cons_eq (a : Nat) (as : List Nat) (d : Nat) :
    (a :: as).getLastD d = as.getLastD a := by
  cases as <;> simp [List.getLastD]

theorem getLastD_concat_eq (as : List Nat) (b d : Nat) : (as ++ [b]).getLastD d = b := by
  simp [List.getLastD_eq_getLast?]

theorem headD_concat_eq (as : List Nat) (b d : Nat) : (as ++ [b]).headD d = as.headD b := by
  cases as <;> rfl

theorem d_l_list_repr_nil {α : Type} (h : d_l_heap α) (l : d_l_list_s)
    (hr : d_l_list_repr h l ([] : List α)) : l = { front := none, count := 0 } := by
  obtain ⟨hc, as, _, _, hfront, hch⟩ := hr
  cases as with
  | nil =>
    cases l
    simp only [List.head?_nil, List.length_nil] at hfront hc
    simp [hfront, hc]
  | cons _ _ => simp [d_l_chain] at hch

theorem d_l_list_repr_new {α : Type} (h : d_l_heap α) :
    d_l_list_repr h { front := none, count := 0 } ([] : List α) :=
  ⟨rfl, [], List.nodup_nil, by simp, rfl, trivial⟩

theorem d_l_list_repr_single {α : Type} (h : d_l_heap α) (f : Nat) (x : α) (c : Nat)
    (hc : c = 1) (hf : f < h.brk)
    (hcell : h.cells f = some { elem := some x, prev := some f, next := some f }) :
    d_l_list_repr h { front := some f, count := c } [x] :=
  ⟨by simp [hc], [f], by simp, by simpa using hf, rfl, by simpa [d_l_chain] using hcell⟩

theorem d_l_list_repr_ring {α : Type} (h : d_l_heap α) (f b : Nat) (mid : List Nat)
    (x xl : α) (xm : List α) (c : Nat) (hc : c = xm.length + 2)
    (hnd : (f :: (mid ++ [b])).Nodup) (hlt : ∀ a ∈ f :: (mid ++ [b]), a < h.brk)
    (hf : h.cells f = some { elem := some x, prev := some b, next := some (mid.headD b) })
    (hmid : d_l_chain h.cells f mid xm b)
    (hb : h.cells b = some { elem := some xl, prev := some (mid.getLastD f), next := some f }) :
    d_l_list_repr h { front := some f, count := c } (x :: (xm ++ [xl])) := by
  refine ⟨by simp [hc], f :: (mid ++ [b]), hnd, hlt, rfl, ?_⟩
  simp only [d_l_chain, getLastD_cons_eq, getLastD_concat_eq, List.headD_cons,
    headD_concat_eq]
  exact ⟨hf, d_l_chain_concat _ b xl f mid xm f hb hmid⟩

theorem d_l_list_repr_cases {α : Type} (h : d_l_heap α) (l : d_l_list_s) (xs : List α)
    (hr : d_l_list_repr h l xs) :
    (xs = [] ∧ l = { front := none, count := 0 })
    ∨ (∃ f x, xs = [x] ∧ l = { front := some f, count := 1 } ∧ f < h.brk
        ∧ h.cells f = some { elem := some x, prev := some f, next := some f })
    ∨ (∃ f b mid x xm xl, xs = x :: (xm ++ [xl])
        ∧ l = { front := some f, count := xm.length + 2 }
        ∧ (f :: (mid ++ [b])).Nodup ∧ (∀ a ∈ f :: (mid ++ [b]), a < h.brk)
        ∧ h.cells f = some { elem := some x, prev := some b, next := some (mid.headD b) }
        ∧ d_l_chain h.cells f mid xm b
        ∧ h.cells b
          = some { elem := some xl, prev := some (mid.getLastD f), next := some f }) := by
  obtain ⟨hc, as, hnd, hlt, hfront, hch⟩ := hr
  cases as with
  | nil =>
    cases xs with
    | nil => exact Or.inl ⟨rfl, d_l_list_repr_nil h l ⟨hc, [], hnd, hlt, hfront, hch⟩⟩
    | cons _ _ => simp [d_l_chain] at hch
  | cons f rest =>
    cases xs with
    | nil => simp [d_l_chain] at hch
    | cons x xs =>
      right
      rcases List.eq_nil_or_concat rest with rfl | ⟨mid, b, has⟩
      on_goal 2 => rw [List.concat_eq_append] at has; subst has
      · left
        simp only [d_l_chain, List.getLastD, List.headD_cons, List.headD_nil] at hch
        have hxs : xs = [] := by
          cases xs with
          | nil => rfl
          | cons _ _ => simp [d_l_chain] at hch
        subst hxs
        refine ⟨f, x, rfl, ?_, hlt f (by simp), by simpa [List.getLast] using hch.1⟩
        cases l
        simp only [List.head?_cons, List.length_singleton] at hfront hc
        simp [hfront, hc]
      · right
        simp only [d_l_chain, getLastD_cons_eq, getLastD_concat_eq, List.headD_cons,
          headD_concat_eq] at hch
        obtain ⟨hf, hrest⟩ := hch
        obtain ⟨xm, xl, rfl, hmid, hb⟩ := d_l_chain_unconcat _ b _ mid xs f hrest
        refine ⟨f, b, mid, x, xm, xl, rfl, ?_, hnd, hlt, hf, hmid, hb⟩
        cases l
        simp only [List.head?_cons, List.length_cons, List.length_append,
          List.length_singleton] at hfront hc
        simp [hfront, hc]

theorem d_l_list_link_before_single {α : Type} (h : d_l_heap α) (f : Nat) (x : α)
    (e : Option α) (hf : f < h.brk)
    (hcell : h.cells f = some { elem := some x, prev := some f, next := some f }) :
    ∃ h5, d_l_list_link_before (d_l_list_node_new h e).1 f h.brk = some h5
      ∧ h5.brk = h.brk + 1
      ∧ h5.cells f = some { elem := some x, prev := some h.brk, next := some h.brk }
      ∧ h5.cells h.brk = some { elem := e, prev := some f, next := some f } := by
  have hne : f ≠ h.brk := Nat.ne_of_lt hf
  refine ⟨_, by
    simp [d_l_list_link_before, d_l_list_node_new, hcell, hne, Ne.symm hne]
    rfl, ?_, ?_, ?_⟩
  · rfl
  · simp
  · simp [Ne.symm hne]

theorem d_l_list_link_before_ring {α : Type} (h : d_l_heap α) (f b : Nat) (mid : List Nat)
    (x xl : α) (xm : List α) (e : Option α)
    (hnd : (f :: (mid ++ [b])).Nodup) (hlt : ∀ a ∈ f :: (mid ++ [b]), a < h.brk)
    (hf : h.cells f = some { elem := some x, prev := some b, next := some (mid.headD b) })
    (hmid : d_l_chain h.cells f mid xm b)
    (hb : h.cells b = some { elem := some xl, prev := some (mid.getLastD f), next := some f }) :
    ∃ h5, d_l_list_link_before (d_l_list_node_new h e).1 f h.brk = some h5
      ∧ h5.brk = h.brk + 1
      ∧ h5.cells f
        = some { elem := some x, prev := some h.brk, next := some (mid.headD b) }
      ∧ d_l_chain h5.cells f mid xm b
      ∧ h5.cells b
        = some { elem := some xl, prev := some (mid.getLastD f), next := some h.brk }
      ∧ h5.cells h.brk = some { elem := e, prev := some b, next := some f } := by
  have hfn : f ≠ h.brk := Nat.ne_of_lt (hlt f (by simp))
  have hbn : b ≠ h.brk := Nat.ne_of_lt (hlt b (by simp))
  have hnd' := List.nodup_cons.1 hnd
  have hfb : f ≠ b := fun h => hnd'.1 (by simp [h])
  have hbi : b ∉ mid := fun hm => (List.nodup_append.1 hnd'.2).2.2 hm (by simp)
  have hfi : f ∉ mid := fun hm => hnd'.1 (by simp [hm])
  have hni : h.brk ∉ mid := fun hm => Nat.lt_irrefl _ (hlt _ (by simp [hm]))
  refine ⟨_, by
    simp [d_l_list_link_before, d_l_list_node_new, hf, hb, hfn, hbn, Ne.symm hfn,
      Ne.symm hbn, hfb, Ne.symm hfb]
    rfl, ?_, ?_, ?_, ?_, ?_⟩
  · rfl
  · simp
  · refine d_l_chain_frame _ _ mid xm f b ?_ hmid
    intro a ha
    have h1 : a ≠ b := fun h => hbi (h ▸ ha)
    have h2 : a ≠ f := fun h => hfi (h ▸ ha)
    have h3 : a ≠ h.brk := fun h => hni (h ▸ ha)
    simp [h1, h2, h3]
  · simp [Ne.symm hfb]
  · simp [Ne.symm hfn, Ne.symm hbn]

theorem d_l_list_insert_front_spec {α : Type} (h : d_l_heap α) (l : d_l_list_s)
    (xs : List α) (e : α) (hr : d_l_list_repr h l xs) :
    ∃ h' l', d_l_list_insert_front h (some l) (some e)
        = some (.D_L_LIST_RC_OK, h', some l')
      ∧ d_l_list_repr h' l' (e :: xs) := by
  rcases d_l_list_repr_cases h l xs hr with ⟨rfl, rfl⟩ | ⟨f, x, rfl, rfl, hf, hcell⟩
    | ⟨f, b, mid, x, xm, xl, rfl, rfl, hnd, hlt, hf, hmid, hb⟩
  · refine ⟨_, _, rfl, ?_⟩
    exact d_l_list_repr_single _ h.brk e _ rfl (Nat.lt_succ_self _)
      (by simp [d_l_list_node_new])
  · obtain ⟨h5, hlink, hbrk, hf5, hn5⟩ := d_l_list_link_before_single h f x (some e) hf hcell
    simp only [d_l_list_node_new] at hlink
    refine ⟨h5, { front := some h.brk, count := 1 + 1 }, ?_, ?_⟩
    · simp [d_l_list_insert_front, d_l_list_node_new, hlink]
    have := d_l_list_repr_ring h5 h.brk f [] e x [] 2 rfl
      (by simp; exact (Nat.ne_of_lt hf).symm)
      (by simp [hbrk]; exact Nat.lt_succ_of_lt hf)
      (by simpa using hn5) trivial (by simpa using hf5)
    simpa using this
  · obtain ⟨h5, hlink, hbrk, hf5, hmid5, hb5, hn5⟩ :=
      d_l_list_link_before_ring h f b mid x xl xm (some e) hnd hlt hf hmid hb
    simp only [d_l_list_node_new] at hlink
    refine ⟨h5, { front := some h.brk, count := xm.length + 2 + 1 }, ?_, ?_⟩
    · simp [d_l_list_insert_front, d_l_list_node_new, hlink]
    have := d_l_list_repr_ring h5 h.brk b (f :: mid) e xl (x :: xm) (xm.length + 2 + 1)
      (by simp)
      (by
        refine List.nodup_cons.2 ⟨fun hm => Nat.lt_irrefl _ (hlt _ hm), hnd⟩)
      (by
        intro a ha
        rw [hbrk]
        rcases List.mem_cons.1 ha with rfl | ha
        · exact Nat.lt_succ_self _
        · exact Nat.lt_succ_of_lt (hlt a ha))
      (by simpa using hn5)
      (by simp only [d_l_chain]; exact ⟨hf5, hmid5⟩)
      (by rw [getLastD_cons_eq]; exact hb5)
    simpa using this

theorem d_l_list_insert_back_spec {α : Type} (h : d_l_heap α) (l : d_l_list_s)
    (xs : List α) (e : α) (hr : d_l_list_repr h l xs) :
    ∃ h' l', d_l_list_insert_back h (some l) (some e)
        = some (.D_L_LIST_RC_OK, h', some l')
      ∧ d_l_list_repr h' l' (xs ++ [e]) := by
  rcases d_l_list_repr_cases h l xs hr with ⟨rfl, rfl⟩ | ⟨f, x, rfl, rfl, hf, hcell⟩
    | ⟨f, b, mid, x, xm, xl, rfl, rfl, hnd, hlt, hf, hmid, hb⟩
  · refine ⟨_, _, rfl, ?_⟩
    exact d_l_list_repr_single _ h.brk e _ rfl (Nat.lt_succ_self _)
      (by simp [d_l_list_node_new])
  · obtain ⟨h5, hlink, hbrk, hf5, hn5⟩ := d_l_list_link_before_single h f x (some e) hf hcell
    simp only [d_l_list_node_new] at hlink
    refine ⟨h5, { front := some f, count := 1 + 1 }, ?_, ?_⟩
    · simp [d_l_list_insert_back, d_l_list_node_new, hlink]
    have := d_l_list_repr_ring h5 f h.brk [] x e [] 2 rfl
      (by simp; exact Nat.ne_of_lt hf)
      (by simp [hbrk]; exact Nat.lt_succ_of_lt hf)
      (by simpa using hf5) trivial (by simpa using hn5)
    simpa using this
  · obtain ⟨h5, hlink, hbrk, hf5, hmid5, hb5, hn5⟩ :=
      d_l_list_link_before_ring h f b mid x xl xm (some e) hnd hlt hf hmid hb
    simp only [d_l_list_node_new] at hlink
    refine ⟨h5, { front := some f, count := xm.length + 2 + 1 }, ?_, ?_⟩
    · simp [d_l_list_insert_back, d_l_list_node_new, hlink]
    have := d_l_list_repr_ring h5 f h.brk (mid ++ [b]) x e (xm ++ [xl]) (xm.length + 2 + 1)
      (by simp)
      (by
        have : (f :: (mid ++ [b])) ++ [h.brk] = f :: ((mid ++ [b]) ++ [h.brk]) := rfl
        rw [← this]
        refine List.nodup_append.2 ⟨hnd, by simp, ?_⟩
        intro a ha hb'
        simp only [List.mem_singleton] at hb'
        subst hb'
        exact Nat.lt_irrefl _ (hlt _ ha))
      (by
        intro a ha
        rw [hbrk]
        have : a ∈ (f :: (mid ++ [b])) ++ [h.brk] := by simpa using ha
        rcases List.mem_append.1 this with ha | ha
        · exact Nat.lt_succ_of_lt (hlt a ha)
        · simp only [List.mem_singleton] at ha
          subst ha
          exact Nat.lt_succ_self _)
      (by rw [headD_concat_eq]; exact hf5)
      (d_l_chain_concat _ b xl h.brk mid xm f hb5 hmid5)
      (by rw [getLastD_concat_eq]; exact hn5)
    simpa using this

theorem d_l_list_remove_back_nil {α : Type} (h : d_l_heap α) (l : d_l_list_s)
    (hr : d_l_list_repr h l ([] : List α)) :
    d_l_list_remove_back h (some l) = some (none, h, some l) := by
  rw [d_l_list_repr_nil h l hr]
  rfl

theorem d_l_list_remove_front_nil {α : Type} (h : d_l_heap α) (l : d_l_list_s)
    (hr : d_l_list_repr h l ([] : List α)) :
    d_l_list_remove_front h (some l) = some (none, h, some l) := by
  rw [d_l_list_repr_nil h l hr]
  rfl

theorem d_l_list_remove_back_spec {α : Type} (h : d_l_heap α) (l : d_l_list_s)
    (xs : List α) (x : α) (hr : d_l_list_repr h l (xs ++ [x])) :
    ∃ h' l', d_l_list_remove_back h (some l) = some (some x, h', some l')
      ∧ d_l_list_repr h' l' xs := by
  rcases d_l_list_repr_cases h l _ hr with ⟨hnil, _⟩ | ⟨f, x', hxs, rfl, hf, hcell⟩
    | ⟨f, b, mid, x0, xm, xl, hxs, rfl, hnd, hlt, hf, hmid, hb⟩
  · simp at hnil
  · have hx : xs = [] ∧ x = x' := by
      have := List.append_inj' (show xs ++ [x] = [] ++ [x'] from hxs) rfl
      simpa using this
    obtain ⟨rfl, rfl⟩ := hx
    refine ⟨h.free f, { front := none, count := 0 }, ?_, d_l_list_repr_new _⟩
    simp [d_l_list_remove_back, hcell, size_t_decrement]
  · have hx : xs = x0 :: xm ∧ x = xl := by
      have := List.append_inj' (show xs ++ [x] = (x0 :: xm) ++ [xl] from hxs) rfl
      simpa using this
    obtain ⟨rfl, rfl⟩ := hx
    have hnd' := List.nodup_cons.1 hnd
    have hfb : f ≠ b := fun h => hnd'.1 (by simp [h])
    rcases List.eq_nil_or_concat mid with rfl | ⟨mid', c, has⟩
    on_goal 2 => rw [List.concat_eq_append] at has; subst has
    · have hxm : xm = [] := by
        cases xm with
        | nil => rfl
        | cons _ _ => simp [d_l_chain] at hmid
      subst hxm
      simp only [List.headD_nil, List.getLastD] at hf hb
      refine ⟨_, { front := some f, count := 1 }, by
        simp [d_l_list_remove_back, hf, hb, hfb, Ne.symm hfb, size_t_decrement]
        rfl, ?_⟩
      · exact d_l_list_repr_single _ f x0 _ rfl (hlt f (by simp)) (by simp [hfb])
    · obtain ⟨xm', xc, rfl, hmid', hc⟩ := d_l_chain_unconcat _ c _ mid' xm f hmid
      rw [getLastD_concat_eq] at hb
      rw [headD_concat_eq] at hf
      have hcb : c ≠ b := by
        intro h
        have := (List.nodup_append.1 hnd'.2).2.2 (show c ∈ mid' ++ [c] by simp)
          (show c ∈ [b] by simp [h])
        exact this
      have hfc : f ≠ c := fun h => hnd'.1 (by simp [h])
      have hbi : b ∉ mid' := fun hm =>
        (List.nodup_append.1 hnd'.2).2.2 (show b ∈ mid' ++ [c] by simp [hm]) (by simp)
      have hfi : f ∉ mid' := fun hm => hnd'.1 (by simp [hm])
      have hci : c ∉ mid' := fun hm =>
        (List.nodup_append.1 (List.nodup_append.1 hnd'.2).1).2.2 hm (by simp)
      refine ⟨_, { front := some f, count := xm'.length + 2 }, by
        simp [d_l_list_remove_back, hf, hb, hc, hfb, Ne.symm hfb, hcb, Ne.symm hcb, hfc,
          Ne.symm hfc, size_t_decrement]
        rfl, ?_⟩
      · refine d_l_list_repr_ring _ f c mid' x0 xc xm' _ rfl ?_ ?_ ?_ ?_ ?_
        · refine List.nodup_cons.2 ⟨?_, (List.nodup_append.1 hnd'.2).1⟩
          intro hm
          exact hnd'.1 (List.mem_append_left _ hm)
        · intro a ha
          refine hlt a ?_
          rcases List.mem_cons.1 ha with rfl | ha
          · simp
          · exact List.mem_cons_of_mem _ (List.mem_append_left _ ha)
        · simp [hfb, hfc]
        · refine d_l_chain_frame _ _ mid' xm' f c ?_ hmid'
          intro a ha
          have h1 : a ≠ b := fun h => hbi (h ▸ ha)
          have h2 : a ≠ f := fun h => hfi (h ▸ ha)
          have h3 : a ≠ c := fun h => hci (h ▸ ha)
          simp [h1, h2, h3]
        · simp [hcb, Ne.symm hfc]

set_option maxHeartbeats 1000000 in
theorem d_l_list_remove_front_spec {α : Type} (h : d_l_heap α) (l : d_l_list_s)
    (x : α) (xs : List α) (hr : d_l_list_repr h l (x :: xs)) :
    ∃ h' l', d_l_list_remove_front h (some l) = some (some x, h', some l')
      ∧ d_l_list_repr h' l' xs := by
  rcases d_l_list_repr_cases h l _ hr with ⟨hnil, _⟩ | ⟨f, x', hxs, rfl, hf, hcell⟩
    | ⟨f, b, mid, x0, xm, xl, hxs, rfl, hnd, hlt, hf, hmid, hb⟩
  · simp at hnil
  · obtain ⟨rfl, rfl⟩ : x = x' ∧ xs = [] := by simpa using hxs
    refine ⟨h.free f, { front := none, count := 0 }, ?_, d_l_list_repr_new _⟩
    simp [d_l_list_remove_front, d_l_list_remove_back, hcell, size_t_decrement]
  · obtain ⟨rfl, rfl⟩ : x = x0 ∧ xs = xm ++ [xl] := by simpa using hxs
    have hnd' := List.nodup_cons.1 hnd
    have hfb : f ≠ b := fun h => hnd'.1 (by simp [h])
    cases mid with
    | nil =>
      have hxm : xm = [] := by
        cases xm with
        | nil => rfl
        | cons _ _ => simp [d_l_chain] at hmid
      subst hxm
      simp only [List.headD_nil, List.getLastD] at hf hb
      have hstep : d_l_list_remove_front h (some { front := some f, count := 0 + 2 })
          = d_l_list_remove_back h (some { front := some b, count := 0 + 2 }) := by
        simp [d_l_list_remove_front, hf]
      refine ⟨_, { front := some b, count := 1 }, by
        rw [List.length_nil, hstep]
        simp [d_l_list_remove_back, hf, hb, hfb, Ne.symm hfb, size_t_decrement]
        rfl, ?_⟩
      exact d_l_list_repr_single _ b xl _ rfl (hlt b (by simp)) (by simp [Ne.symm hfb])
    | cons g mid' =>
      cases xm with
      | nil => simp [d_l_chain] at hmid
      | cons xg xm' =>
        simp only [d_l_chain] at hmid
        obtain ⟨hg, hmid'⟩ := hmid
        rw [getLastD_cons_eq] at hb
        simp only [List.headD_cons] at hf
        have hfg : f ≠ g := fun h => hnd'.1 (by simp [h])
        have hgb : g ≠ b := by
          intro h
          have h1 := List.nodup_cons.1 hnd'.2
          exact h1.1 (by simp [h])
        have hbi : b ∉ mid' := fun hm =>
          (List.nodup_append.1 hnd'.2).2.2 (show b ∈ g :: mid' by simp [hm]) (by simp)
        have hfi : f ∉ mid' := fun hm => hnd'.1 (by simp [hm])
        have hgi : g ∉ mid' := fun hm =>
          (List.nodup_cons.1 hnd'.2).1 (List.mem_append_left _ hm)
        have hstep :
            d_l_list_remove_front h (some { front := some f, count := xm'.length + 1 + 2 })
              = d_l_list_remove_back h
                  (some { front := some g, count := xm'.length + 1 + 2 }) := by
          simp [d_l_list_remove_front, hf]
        refine ⟨_, { front := some g, count := xm'.length + 2 }, by
          rw [List.length_cons, hstep]
          simp [d_l_list_remove_back, hf, hb, hg, hfb, Ne.symm hfb, hgb, Ne.symm hgb, hfg,
            Ne.symm hfg, size_t_decrement]
          rfl, ?_⟩
        refine d_l_list_repr_ring _ g b mid' xg xl xm' _ rfl hnd'.2 ?_ ?_ ?_ ?_
        · intro a ha
          exact hlt a (List.mem_cons_of_mem _ ha)
        · simp [hgb, Ne.symm hfg]
        · refine d_l_chain_frame _ _ mid' xm' g b ?_ hmid'
          intro a ha
          have h1 : a ≠ b := fun h => hbi (h ▸ ha)
          have h2 : a ≠ f := fun h => hfi (h ▸ ha)
          have h3 : a ≠ g := fun h => hgi (h ▸ ha)
          simp [h1, h2, h3]
        · simp [Ne.symm hfb, Ne.symm hgb]

theorem deque_pick_front_spec {α : Type} (h : d_l_heap α) (l : d_l_list_s)
    (xs : List α) (hr : d_l_list_repr h l xs) :
    deque_pick_front h (some l) = some xs.head? := by
  rcases d_l_list_repr_cases h l xs hr with ⟨rfl, rfl⟩ | ⟨f, x, rfl, rfl, hf, hcell⟩
    | ⟨f, b, mid, x, xm, xl, rfl, rfl, hnd, hlt, hf, hmid, hb⟩
  · rfl
  · simp [deque_pick_front, hcell]
  · simp [deque_pick_front, hf]

theorem deque_pick_back_spec {α : Type} (h : d_l_heap α) (l : d_l_list_s)
    (xs : List α) (hr : d_l_list_repr h l xs) :
    deque_pick_back h (some l) = some xs.getLast? := by
  rcases d_l_list_repr_cases h l xs hr with ⟨rfl, rfl⟩ | ⟨f, x, rfl, rfl, hf, hcell⟩
    | ⟨f, b, mid, x, xm, xl, rfl, rfl, hnd, hlt, hf, hmid, hb⟩
  · rfl
  · simp [deque_pick_back, hcell]
  · have : (x :: (xm ++ [xl])).getLast? = some xl := by
      rw [← List.cons_append, List.getLast?_append]; rfl
    simp [deque_pick_back, hf, hb, this]

theorem d_l_list_repr_front {α : Type} (h : d_l_heap α) (l : d_l_list_s) (xs : List α)
    (hr : d_l_list_repr h l xs) : l.front = none ↔ xs = [] := by
  rcases d_l_list_repr_cases h l xs hr with ⟨rfl, rfl⟩ | ⟨f, x, rfl, rfl, _, _⟩
    | ⟨f, b, mid, x, xm, xl, rfl, rfl, _, _, _, _, _⟩ <;> simp

/-- C29. The deque refines a finite sequence.  The empty deque of `deque_new` holds the
empty sequence, and for every deque `d` that holds a sequence `xs` (a circular doubly
linked list on the heap, front first): `deque_push_front` returns `DEQUE_RC_OK` and the
deque then holds `e :: xs`; `deque_push_back` returns `DEQUE_RC_OK` and the deque then
holds `xs ++ [e]`; `deque_pop_front` returns the first element (absent when `xs` is empty)
and leaves the rest; `deque_pop_back` returns the last element (absent when `xs` is empty)
and leaves the elements before it; `deque_pick_front` and `deque_pick_back` return the
first and the last element and only read; `deque_count` is the length of `xs`; and `front`
is `NULL` exactly when `xs` is empty. -/
theorem deque_refines_sequence {α : Type} (h : d_l_heap α) (d : d_l_list_s) (xs : List α)
    (hr : d_l_list_repr h d xs) :
    (∀ h0 : d_l_heap α, ∃ d0, deque_new = some d0 ∧ d_l_list_repr h0 d0 ([] : List α))
    ∧ (∀ e : α, ∃ h' d', deque_push_front h (some d) (some e)
          = some (.DEQUE_RC_OK, h', some d')
        ∧ d_l_list_repr h' d' (e :: xs))
    ∧ (∀ e : α, ∃ h' d', deque_push_back h (some d) (some e)
          = some (.DEQUE_RC_OK, h', some d')
        ∧ d_l_list_repr h' d' (xs ++ [e]))
    ∧ (∃ h' d', deque_pop_front h (some d) = some (xs.head?, h', some d')
        ∧ d_l_list_repr h' d' xs.tail)
    ∧ (∃ h' d', deque_pop_back h (some d) = some (xs.getLast?, h', some d')
        ∧ d_l_list_repr h' d' xs.dropLast)
    ∧ deque_pick_front h (some d) = some xs.head?
    ∧ deque_pick_back h (some d) = some xs.getLast?
    ∧ deque_count (some d) = xs.length
    ∧ (d.front = none ↔ xs = []) := by
  refine ⟨fun h0 => ⟨_, rfl, d_l_list_repr_new h0⟩, ?_, ?_, ?_, ?_,
    deque_pick_front_spec h d xs hr, deque_pick_back_spec h d xs hr, hr.1,
    d_l_list_repr_front h d xs hr⟩
  · intro e
    obtain ⟨h', d', hop, hr'⟩ := d_l_list_insert_front_spec h d xs e hr
    exact ⟨h', d', by simp [deque_push_front, hop, d_l_list_rc_to_deque_rc], hr'⟩
  · intro e
    obtain ⟨h', d', hop, hr'⟩ := d_l_list_insert_back_spec h d xs e hr
    exact ⟨h', d', by simp [deque_push_back, hop, d_l_list_rc_to_deque_rc], hr'⟩
  · cases xs with
    | nil => exact ⟨h, d, d_l_list_remove_front_nil h d hr, hr⟩
    | cons x xs => exact d_l_list_remove_front_spec h d x xs hr
  · rcases List.eq_nil_or_concat xs with rfl | ⟨ys, y, hys⟩
    · exact ⟨h, d, d_l_list_remove_back_nil h d hr, hr⟩
    · rw [List.concat_eq_append] at hys
      subst hys
      obtain ⟨h', d', hop, hr'⟩ := d_l_list_remove_back_spec h d ys y hr
      exact ⟨h', d', by simpa [deque_pop_back] using hop, by simpa using hr'⟩

theorem deque_one_two_repr : d_l_list_repr deque_one_two_heap deque_one_two [1, 2] :=
  ⟨rfl, [0, 1], by decide, by decide, rfl, by simp [d_l_chain, deque_one_two_heap]⟩

/-- Witness of C29: the deque holding 1 and 2. -/
theorem deque_refines_sequence_witness :
    d_l_list_repr deque_one_two_heap deque_one_two [1, 2]
    ∧ ((∀ h0 : d_l_heap Nat, ∃ d0, deque_new = some d0 ∧ d_l_list_repr h0 d0 ([] : List Nat))
      ∧ (∀ e : Nat, ∃ h' d', deque_push_front deque_one_two_heap (some deque_one_two) (some e)
            = some (.DEQUE_RC_OK, h', some d')
          ∧ d_l_list_repr h' d' (e :: [1, 2]))
      ∧ (∀ e : Nat, ∃ h' d', deque_push_back deque_one_two_heap (some deque_one_two) (some e)
            = some (.DEQUE_RC_OK, h', some d')
          ∧ d_l_list_repr h' d' ([1, 2] ++ [e]))
      ∧ (∃ h' d', deque_pop_front deque_one_two_heap (some deque_one_two)
            = some ([1, 2].head?, h', some d')
          ∧ d_l_list_repr h' d' [1, 2].tail)
      ∧ (∃ h' d', deque_pop_back deque_one_two_heap (some deque_one_two)
            = some ([1, 2].getLast?, h', some d')
          ∧ d_l_list_repr h' d' [1, 2].dropLast)
      ∧ deque_pick_front deque_one_two_heap (some deque_one_two) = some [1, 2].head?
      ∧ deque_pick_back deque_one_two_heap (some deque_one_two) = some [1, 2].getLast?
      ∧ deque_count (some deque_one_two) = [1, 2].length
      ∧ (deque_one_two.front = none ↔ ([1, 2] : List Nat) = [])) :=
  ⟨deque_one_two_repr,
    deque_refines_sequence deque_one_two_heap deque_one_two [1, 2] deque_one_two_repr⟩

/-! ## Positional insertion and removal on the array -/

theorem size_t_to_int_small (n : Nat) (h : (n : Int) ≤ INT_MAX) : size_t_to_int n = n := by
  have h1 : n < 2 ^ 31 := by
    simp only [INT_MAX] at h
    omega
  have h2 : n % 2 ^ 32 = n := Nat.mod_eq_of_lt (by omega)
  unfold size_t_to_int
  rw [h2, if_pos h1]

theorem array_push_at_loop_spec {α : Type} (p : Nat) :
    ∀ (i : Nat) (elems : Nat → Option (array_node_s α)) (j : Nat),
      array_push_at_loop (p : Int) elems i j
        = if p < j ∧ j ≤ i then elems (j - 1) else elems j
  | 0, elems, j => by
    have : ¬ (p < j ∧ j ≤ 0) := by omega
    rw [array_push_at_loop, if_neg this]
  | i + 1, elems, j => by
    rw [array_push_at_loop]
    by_cases hp : (p : Int) < ((i + 1 : Nat) : Int)
    · rw [if_pos hp, array_push_at_loop_spec p i]
      have hp' : p < i + 1 := by omega
      by_cases hj : p < j ∧ j ≤ i
      · have h1 : j - 1 ≠ i + 1 := by omega
        have h2 : p < j ∧ j ≤ i + 1 := by omega
        simp [hj, h1, h2]
      · by_cases hji : j = i + 1
        · subst hji
          simp [hp']
        · have h2 : ¬ (p < j ∧ j ≤ i + 1) := by omega
          simp [hj, hji, h2]
    · rw [if_neg hp]
      have h2 : ¬ (p < j ∧ j ≤ i + 1) := by omega
      simp [h2]

theorem array_pop_at_loop_spec {α : Type} :
    ∀ (rounds : Nat) (elems : Nat → Option (array_node_s α)) (i j : Nat),
      array_pop_at_loop elems i rounds j
        = if i ≤ j ∧ j < i + rounds then elems (j + 1) else elems j
  | 0, elems, i, j => by
    have : ¬ (i ≤ j ∧ j < i + 0) := by omega
    rw [array_pop_at_loop, if_neg this]
  | rounds + 1, elems, i, j => by
    rw [array_pop_at_loop, array_pop_at_loop_spec rounds]
    by_cases hj : i + 1 ≤ j ∧ j < i + 1 + rounds
    · have h1 : j + 1 ≠ i := by omega
      have h2 : i ≤ j ∧ j < i + (rounds + 1) := by omega
      simp [hj, h1, h2]
    · by_cases hji : j = i
      · subst hji
        simp
      · have h2 : ¬ (i ≤ j ∧ j < i + (rounds + 1)) := by omega
        simp [hj, hji, h2]

theorem array_push_at_ok {α : Type} (a : array_s α) (e : Option α) (p : Nat)
    (hfull : a.count < a.length) (hp : p ≤ a.count) (hc : (a.count : Int) ≤ INT_MAX) :
    array_push_at (some a) e (p : Int)
      = (.ARRAY_RC_OK,
          some { a with
            elems := fun j =>
              if j = p then some { elem := e }
              else if p < j ∧ j ≤ a.count then a.elems (j - 1) else a.elems j
            count := a.count + 1 }) := by
  have hne : a.count ≠ a.length := Nat.ne_of_lt hfull
  have hguard : ¬ ((p : Int) < 0 ∨ (p : Int) > (a.count : Int)) := by omega
  have helems : Function.update (array_push_at_loop (p : Int) a.elems a.count) p
        (array_node_new e)
      = fun j =>
          if j = p then some { elem := e }
          else if p < j ∧ j ≤ a.count then a.elems (j - 1) else a.elems j := by
    funext j
    simp only [Function.update_apply, array_push_at_loop_spec, array_node_new]
  unfold array_push_at
  simp only [hne, if_false, size_t_to_int_small a.count hc, hguard, Int.toNat_ofNat, helems]

theorem array_pop_at_ok {α : Type} (a : array_s α) (p : Nat)
    (hp : p < a.count) (hc : (a.count : Int) ≤ INT_MAX) :
    array_pop_at (some a) (p : Int)
      = some ((array_node_destroy (a.elems p)).1,
          some { a with
            elems := fun j =>
              if j = a.count - 1 then none
              else if p ≤ j ∧ j < a.count - 1 then a.elems (j + 1)
              else if j = p then none else a.elems j
            count := a.count - 1 }) := by
  have hcast := size_t_to_int_small a.count hc
  have hg1 : ¬ (a.count < 1 ∨ (p : Int) < 0) := by omega
  have hg2 : ¬ ((a.count : Int) = INT_MIN) := by
    simp only [INT_MIN]
    omega
  have hg3 : ¬ ((p : Int) > (a.count : Int) - 1) := by omega
  have hrounds : ((a.count : Int) - 1 - (p : Int)).toNat = a.count - 1 - p := by omega
  have hd : (array_node_destroy (a.elems p)).2 = none := by
    unfold array_node_destroy
    cases a.elems p <;> rfl
  have helems : Function.update
        (array_pop_at_loop (Function.update a.elems p (array_node_destroy (a.elems p)).2) p
          (a.count - 1 - p)) (a.count - 1) none
      = fun j =>
          if j = a.count - 1 then none
          else if p ≤ j ∧ j < a.count - 1 then a.elems (j + 1)
          else if j = p then none else a.elems j := by
    funext j
    simp only [Function.update_apply, array_pop_at_loop_spec]
    rw [hd]
    have : p + (a.count - 1 - p) = a.count - 1 := by omega
    rw [this]
    by_cases h1 : j = a.count - 1
    · simp [h1]
    · by_cases h2 : p ≤ j ∧ j < a.count - 1
      · have h3 : j + 1 ≠ p := by omega
        simp [h1, h2, h3]
      · simp [h1, h2]
  unfold array_pop_at
  simp only [hg1, if_false, hcast, hg2, hg3, Int.toNat_ofNat, hrounds, helems]

theorem array_push_pop_elems {α : Type} (elems : Nat → Option (array_node_s α))
    (e : Option α) (p c j : Nat) (hp : p ≤ c) (hj : j ≠ c) :
    (if j = c + 1 - 1 then none
      else if p ≤ j ∧ j < c + 1 - 1 then
        (if j + 1 = p then some { elem := e }
          else if p < j + 1 ∧ j + 1 ≤ c then elems (j + 1 - 1) else elems (j + 1))
      else if j = p then none
      else if j = p then some { elem := e }
      else if p < j ∧ j ≤ c then elems (j - 1) else elems j)
      = elems j := by
  have h1 : ¬ (j = c + 1 - 1) := by omega
  rw [if_neg h1]
  by_cases h2 : p ≤ j ∧ j < c + 1 - 1
  · have h3 : ¬ (j + 1 = p) := by omega
    have h4 : p < j + 1 ∧ j + 1 ≤ c := by omega
    rw [if_pos h2, if_neg h3, if_pos h4, Nat.add_sub_cancel]
  · have h3 : ¬ (j = p) := by omega
    have h4 : ¬ (p < j ∧ j ≤ c) := by omega
    rw [if_neg h2, if_neg h3, if_neg h3, if_neg h4]

/-- C30, as amended.  Array positional insert and remove, for arrays whose count fits the
`int` positions.  On an array that is not full (`count < length`) with `count ≤ INT_MAX`,
for every `pos` with `0 ≤ pos ≤ count`, `array_push_at` returns `ARRAY_RC_OK`, puts `e` at
index `pos`, moves the element of every index `i` with `pos ≤ i < count` to index `i + 1`,
keeps the elements below `pos` in place, increases the count by one and keeps the length;
when also `count < INT_MAX`, a following `array_pop_at` at `pos` returns `e` and restores
the elements of all indices below `count`, the count and the length (the whole array, when
the slot at index `count` was `NULL` before).  On an array that is not full, a `pos < 0`
or `pos > count` gives `ARRAY_RC_INVALID_POS` and the array is unchanged. -/
theorem array_push_at_then_pop_at {α : Type} (a : array_s α) (e : Option α)
    (hfull : a.count < a.length) :
    (∀ pos : Int, 0 ≤ pos → pos ≤ a.count → (a.count : Int) ≤ INT_MAX →
      ∃ a', array_push_at (some a) e pos = (.ARRAY_RC_OK, some a')
        ∧ a'.elems pos.toNat = some { elem := e }
        ∧ (∀ i, pos.toNat ≤ i → i < a.count → a'.elems (i + 1) = a.elems i)
        ∧ (∀ i, i < pos.toNat → a'.elems i = a.elems i)
        ∧ a'.count = a.count + 1 ∧ a'.length = a.length
        ∧ ((a.count : Int) < INT_MAX →
            ∃ a'', array_pop_at (some a') pos = some (e, some a'')
              ∧ (∀ i, i < a.count → a''.elems i = a.elems i)
              ∧ a''.count = a.count ∧ a''.length = a.length
              ∧ (a.elems a.count = none → a'' = a)))
    ∧ (∀ pos : Int, pos ≤ INT_MAX → (pos < 0 ∨ (a.count : Int) < pos) →
        array_push_at (some a) e pos = (.ARRAY_RC_INVALID_POS, some a)) := by
  constructor
  · intro pos h0 hle hc
    obtain ⟨p, rfl⟩ := Int.eq_ofNat_of_zero_le h0
    have hp : p ≤ a.count := by omega
    refine ⟨_, array_push_at_ok a e p hfull hp hc, ?_, ?_, ?_, rfl, rfl, ?_⟩
    · simp
    · intro i hpi hic
      simp only [Int.toNat_ofNat] at hpi
      have h1 : ¬ (i + 1 = p) := by omega
      have h2 : p < i + 1 ∧ i + 1 ≤ a.count := by omega
      show (if i + 1 = p then some { elem := e }
        else if p < i + 1 ∧ i + 1 ≤ a.count then a.elems (i + 1 - 1) else a.elems (i + 1))
        = a.elems i
      rw [if_neg h1, if_pos h2, Nat.add_sub_cancel]
    · intro i hip
      simp only [Int.toNat_ofNat] at hip
      have h1 : ¬ (i = p) := by omega
      have h2 : ¬ (p < i ∧ i ≤ a.count) := by omega
      show (if i = p then some { elem := e }
        else if p < i ∧ i ≤ a.count then a.elems (i - 1) else a.elems i) = a.elems i
      rw [if_neg h1, if_neg h2]
    · intro hc'
      have hc2 : ((a.count + 1 : Nat) : Int) ≤ INT_MAX := by
        simp only [INT_MAX] at hc' ⊢
        omega
      have hpop := array_pop_at_ok
        ({ length := a.length,
           elems := fun j =>
              if j = p then some { elem := e }
              else if p < j ∧ j ≤ a.count then a.elems (j - 1) else a.elems j,
           count := a.count + 1 } : array_s α) p (Nat.lt_succ_of_le hp) hc2
      refine ⟨{ length := a.length,
                elems := fun j =>
                  if j = a.count + 1 - 1 then none
                  else if p ≤ j ∧ j < a.count + 1 - 1 then
                    (if j + 1 = p then some { elem := e }
                      else if p < j + 1 ∧ j + 1 ≤ a.count then a.elems (j + 1 - 1)
                      else a.elems (j + 1))
                  else if j = p then none
                  else if j = p then some { elem := e }
                  else if p < j ∧ j ≤ a.count then a.elems (j - 1) else a.elems j,
                count := a.count + 1 - 1 }, ?_, ?_, ?_, rfl, ?_⟩
      · rw [hpop]
        simp only [array_node_destroy, if_true]
      · intro i hic
        exact array_push_pop_elems a.elems e p a.count i hp (Nat.ne_of_lt hic)
      · show a.count + 1 - 1 = a.count
        omega
      · intro hnull
        have hfun : (fun j =>
            if j = a.count + 1 - 1 then none
            else if p ≤ j ∧ j < a.count + 1 - 1 then
              (if j + 1 = p then some { elem := e }
                else if p < j + 1 ∧ j + 1 ≤ a.count then a.elems (j + 1 - 1)
                else a.elems (j + 1))
            else if j = p then none
            else if j = p then some { elem := e }
            else if p < j ∧ j ≤ a.count then a.elems (j - 1) else a.elems j) = a.elems := by
          funext i
          by_cases hic : i = a.count
          · subst hic
            rw [if_pos (show a.count = a.count + 1 - 1 by omega)]
            exact hnull.symm
          · exact array_push_pop_elems a.elems e p a.count i hp hic
        rw [hfun, Nat.add_sub_cancel]
  · intro pos hmax hpos
    have hne : a.count ≠ a.length := Nat.ne_of_lt hfull
    have hguard : pos < 0 ∨ pos > size_t_to_int a.count := by
      rcases hpos with h | h
      · exact Or.inl h
      · right
        rw [size_t_to_int_small a.count (by omega)]
        exact h
    simp [array_push_at, hne, hguard]

/-- Counterexample to C30 as stated: the array of capacity `2^31 + 1` that holds `2^31`
elements is not full and position 0 lies between 0 and its count, yet `array_push_at` at
position 0 returns `ARRAY_RC_INVALID_POS` and leaves the array as it was, because
`(int)a->count` is negative. -/
theorem array_push_at_counterexample :
    array_of_many.count < array_of_many.length
    ∧ (0 : Int) ≤ 0
    ∧ (0 : Int) ≤ (array_of_many.count : Int)
    ∧ array_push_at (some array_of_many) (some 7) 0
        = (.ARRAY_RC_INVALID_POS, some array_of_many)
    ∧ (array_push_at (some array_of_many) (some 7) 0).1 ≠ .ARRAY_RC_OK := by
  have hcast : size_t_to_int array_of_many.count = -(2 ^ 31) := by
    simp [size_t_to_int, array_of_many]
  have hne : array_of_many.count ≠ array_of_many.length := by
    simp [array_of_many]
  have hpush : array_push_at (some array_of_many) (some 7) 0
      = (.ARRAY_RC_INVALID_POS, some array_of_many) := by
    unfold array_push_at
    simp only [hne, if_false, hcast]
    rfl
  refine ⟨by simp [array_of_many], le_refl _, by simp [array_of_many], hpush, ?_⟩
  rw [hpush]
  decide

/-- Witness of C30 as amended: 15 pushed into the array holding 10, 20 and 30. -/
theorem array_push_at_then_pop_at_witness :
    array_of_three.count < array_of_three.length
    ∧ ((∀ pos : Int, 0 ≤ pos → pos ≤ array_of_three.count →
          (array_of_three.count : Int) ≤ INT_MAX →
        ∃ a', array_push_at (some array_of_three) (some 15) pos = (.ARRAY_RC_OK, some a')
          ∧ a'.elems pos.toNat = some { elem := some 15 }
          ∧ (∀ i, pos.toNat ≤ i → i < array_of_three.count →
              a'.elems (i + 1) = array_of_three.elems i)
          ∧ (∀ i, i < pos.toNat → a'.elems i = array_of_three.elems i)
          ∧ a'.count = array_of_three.count + 1 ∧ a'.length = array_of_three.length
          ∧ ((array_of_three.count : Int) < INT_MAX →
              ∃ a'', array_pop_at (some a') pos = some (some 15, some a'')
                ∧ (∀ i, i < array_of_three.count → a''.elems i = array_of_three.elems i)
                ∧ a''.count = array_of_three.count ∧ a''.length = array_of_three.length
                ∧ (array_of_three.elems array_of_three.count = none → a'' = array_of_three)))
      ∧ (∀ pos : Int, pos ≤ INT_MAX → (pos < 0 ∨ (array_of_three.count : Int) < pos) →
          array_push_at (some array_of_three) (some 15) pos
            = (.ARRAY_RC_INVALID_POS, some array_of_three))) :=
  ⟨by decide, array_push_at_then_pop_at array_of_three (some 15) (by decide)⟩

/-! ## Capacity of the array -/

theorem array_step_capacity {α : Type} (a : array_s α) (hle : a.count ≤ a.length)
    (op : array_op α) (r : Option (array_s α)) (h : array_step (some a) op = some r) :
    ∃ a', r = some a' ∧ a'.count ≤ a'.length ∧ a'.length = a.length := by
  cases op with
  | push_back e =>
    simp only [array_step, array_push_back, Option.some.injEq] at h
    subst h
    by_cases hf : a.count = a.length
    · rw [if_pos hf]
      exact ⟨a, rfl, hle, rfl⟩
    · rw [if_neg hf]
      exact ⟨_, rfl, Nat.succ_le_of_lt (Nat.lt_of_le_of_ne hle hf), rfl⟩
  | push_front e =>
    simp only [array_step, array_push_front, Option.some.injEq] at h
    subst h
    by_cases hf : a.count = a.length
    · rw [if_pos hf]
      exact ⟨a, rfl, hle, rfl⟩
    · rw [if_neg hf]
      exact ⟨_, rfl, Nat.succ_le_of_lt (Nat.lt_of_le_of_ne hle hf), rfl⟩
  | push_at e pos =>
    simp only [array_step, array_push_at, Option.some.injEq] at h
    subst h
    by_cases hf : a.count = a.length
    · rw [if_pos hf]
      exact ⟨a, rfl, hle, rfl⟩
    · rw [if_neg hf]
      by_cases hg : pos < 0 ∨ pos > size_t_to_int a.count
      · rw [if_pos hg]
        exact ⟨a, rfl, hle, rfl⟩
      · rw [if_neg hg]
        exact ⟨_, rfl, Nat.succ_le_of_lt (Nat.lt_of_le_of_ne hle hf), rfl⟩
  | pop_back =>
    simp only [array_step, array_pop_back, Option.some.injEq] at h
    subst h
    by_cases hf : a.count < 1
    · rw [if_pos hf]
      exact ⟨a, rfl, hle, rfl⟩
    · rw [if_neg hf]
      exact ⟨_, rfl, Nat.le_trans (Nat.sub_le a.count 1) hle, rfl⟩
  | pop_front =>
    simp only [array_step, array_pop_front] at h
    by_cases hf : a.count < 1
    · rw [if_pos hf] at h
      obtain rfl := Option.some.inj h
      exact ⟨a, rfl, hle, rfl⟩
    · rw [if_neg hf] at h
      by_cases hm : size_t_to_int a.count = INT_MIN
      · rw [if_pos hm] at h
        exact absurd h (by simp)
      · rw [if_neg hm] at h
        obtain rfl := Option.some.inj h
        exact ⟨_, rfl, Nat.le_trans (Nat.sub_le a.count 1) hle, rfl⟩
  | pop_at pos =>
    simp only [array_step, array_pop_at] at h
    by_cases hf : a.count < 1 ∨ pos < 0
    · rw [if_pos hf] at h
      obtain rfl := Option.some.inj h
      exact ⟨a, rfl, hle, rfl⟩
    · rw [if_neg hf] at h
      by_cases hm : size_t_to_int a.count = INT_MIN
      · rw [if_pos hm] at h
        exact absurd h (by simp)
      · rw [if_neg hm] at h
        by_cases hg : pos > size_t_to_int a.count - 1
        · rw [if_pos hg] at h
          obtain rfl := Option.some.inj h
          exact ⟨a, rfl, hle, rfl⟩
        · rw [if_neg hg] at h
          obtain rfl := Option.some.inj h
          exact ⟨_, rfl, Nat.le_trans (Nat.sub_le a.count 1) hle, rfl⟩
  | clear d =>
    simp only [array_step, array_clear, Option.some.injEq] at h
    subst h
    by_cases hf : a.count = 0
    · rw [if_pos hf]
      exact ⟨a, rfl, hle, rfl⟩
    · rw [if_neg hf]
      exact ⟨_, rfl, Nat.zero_le _, rfl⟩

theorem array_step_total {α : Type} (a : array_s α) (hle : a.count ≤ a.length)
    (hmax : (a.length : Int) ≤ INT_MAX) (op : array_op α) :
    ∃ a', array_step (some a) op = some (some a') := by
  have hc : (a.count : Int) ≤ INT_MAX := by
    have : (a.count : Int) ≤ (a.length : Int) := by exact_mod_cast hle
    omega
  have hm : ¬ (size_t_to_int a.count = INT_MIN) := by
    rw [size_t_to_int_small a.count hc]
    simp only [INT_MIN]
    omega
  cases op with
  | push_back e =>
    obtain ⟨a', h, _⟩ := array_step_capacity a hle (.push_back e) _ rfl
    exact ⟨a', by rw [← h]; rfl⟩
  | push_front e =>
    obtain ⟨a', h, _⟩ := array_step_capacity a hle (.push_front e) _ rfl
    exact ⟨a', by rw [← h]; rfl⟩
  | push_at e pos =>
    obtain ⟨a', h, _⟩ := array_step_capacity a hle (.push_at e pos) _ rfl
    exact ⟨a', by rw [← h]; rfl⟩
  | pop_back =>
    obtain ⟨a', h, _⟩ := array_step_capacity a hle .pop_back _ rfl
    exact ⟨a', by rw [← h]; rfl⟩
  | clear d =>
    obtain ⟨a', h, _⟩ := array_step_capacity a hle (.clear d) _ rfl
    exact ⟨a', by rw [← h]; rfl⟩
  | pop_front =>
    simp only [array_step, array_pop_front]
    by_cases hf : a.count < 1
    · rw [if_pos hf]
      exact ⟨a, rfl⟩
    · rw [if_neg hf, if_neg hm]
      exact ⟨_, rfl⟩
  | pop_at pos =>
    simp only [array_step, array_pop_at]
    by_cases hf : a.count < 1 ∨ pos < 0
    · rw [if_pos hf]
      exact ⟨a, rfl⟩
    · rw [if_neg hf, if_neg hm]
      by_cases hg : pos > size_t_to_int a.count - 1
      · rw [if_pos hg]
        exact ⟨a, rfl⟩
      · rw [if_neg hg]
        exact ⟨_, rfl⟩

theorem array_run_capacity {α : Type} :
    ∀ (ops : List (array_op α)) (a : array_s α) (r : Option (array_s α)),
      a.count ≤ a.length → array_run (some a) ops = some r →
      ∃ a', r = some a' ∧ a'.count ≤ a'.length ∧ a'.length = a.length
  | [], a, r, hle, h => by
    simp only [array_run, Option.some.injEq] at h
    exact ⟨a, h.symm, hle, rfl⟩
  | op :: ops, a, r, hle, h => by
    simp only [array_run] at h
    cases hs : array_step (some a) op with
    | none => simp [hs] at h
    | some r1 =>
      obtain ⟨a1, rfl, hle1, hlen1⟩ := array_step_capacity a hle op r1 hs
      rw [hs] at h
      obtain ⟨a', hr, hle', hlen'⟩ := array_run_capacity ops a1 r hle1 h
      exact ⟨a', hr, hle', hlen'.trans hlen1⟩

theorem array_run_total {α : Type} :
    ∀ (ops : List (array_op α)) (a : array_s α),
      a.count ≤ a.length → (a.length : Int) ≤ INT_MAX →
      ∃ a', array_run (some a) ops = some (some a')
  | [], a, _, _ => ⟨a, rfl⟩
  | op :: ops, a, hle, hmax => by
    obtain ⟨a1, hs⟩ := array_step_total a hle hmax op
    obtain ⟨_, h1, hle1, hlen1⟩ := array_step_capacity a hle op _ hs
    obtain rfl := Option.some.inj h1
    obtain ⟨a', hr⟩ := array_run_total ops a1 hle1 (by rw [hlen1]; exact hmax)
    exact ⟨a', by simp only [array_run, hs, Option.some_bind, hr]⟩

/-- C31. Array capacity.  Every array reached from `array_new n` by calls of
`array_push_back`, `array_push_front`, `array_push_at`, `array_pop_back`,
`array_pop_front`, `array_pop_at` and `array_clear` has `count ≤ length` and the length
`n` (and when `n` fits an `int` every such sequence of calls does reach an array).  On an
array with `count = length` each of the three push functions returns `ARRAY_RC_FULL` and
the array after the call is the array before it. -/
theorem array_capacity {α : Type} (a : array_s α) (e : Option α) (pos : Int)
    (hfull : a.count = a.length) :
    (∀ (n : Nat) (ops : List (array_op α)) (r : Option (array_s α)),
        array_run (array_new n) ops = some r →
        ∃ a', r = some a' ∧ a'.count ≤ a'.length ∧ a'.length = n)
    ∧ (∀ (n : Nat) (ops : List (array_op α)), (n : Int) ≤ INT_MAX →
        ∃ a', array_run (array_new n) ops = some (some a'))
    ∧ array_push_back (some a) e = (.ARRAY_RC_FULL, some a)
    ∧ array_push_front (some a) e = (.ARRAY_RC_FULL, some a)
    ∧ array_push_at (some a) e pos = (.ARRAY_RC_FULL, some a) := by
  refine ⟨?_, ?_, ?_, ?_, ?_⟩
  · intro n ops r h
    exact array_run_capacity ops { length := n, elems := fun _ => none, count := 0 } r
      (Nat.zero_le _) h
  · intro n ops hn
    exact array_run_total ops { length := n, elems := fun _ => none, count := 0 }
      (Nat.zero_le _) hn
  · simp only [array_push_back, hfull, if_true]
  · simp only [array_push_front, hfull, if_true]
  · simp only [array_push_at, hfull, if_true]

/-- Witness of C31: the full array of Part 4 of array-test.c and the element 40. -/
theorem array_capacity_witness :
    array_full.count = array_full.length
    ∧ ((∀ (n : Nat) (ops : List (array_op Nat)) (r : Option (array_s Nat)),
          array_run (array_new n) ops = some r →
          ∃ a', r = some a' ∧ a'.count ≤ a'.length ∧ a'.length = n)
      ∧ (∀ (n : Nat) (ops : List (array_op Nat)), (n : Int) ≤ INT_MAX →
          ∃ a', array_run (array_new n) ops = some (some a'))
      ∧ array_push_back (some array_full) (some 40) = (.ARRAY_RC_FULL, some array_full)
      ∧ array_push_front (some array_full) (some 40) = (.ARRAY_RC_FULL, some array_full)
      ∧ array_push_at (some array_full) (some 40) 1 = (.ARRAY_RC_FULL, some array_full)) :=
  ⟨rfl, array_capacity array_full (some 40) 1 rfl⟩

/-! ## Removal of a node with two children -/

/-- C32. Two-children removal.  For a subtree that satisfies the AVL invariant and the
ordering invariant, whose root has two children and whose root element compares equal to
the probe: when the left subtree is strictly taller than the right one, `tree_node_remove`
returns the root node with the predecessor `p` as its element (the last element of the
left subtree in in-order, which no element of that subtree exceeds), with the left
subtree replaced by the result of removing `p` from it and with the right subtree as it
was; otherwise it returns the root node with the successor `s` (the first element of the
right subtree in in-order) as its element, with the left subtree as it was and the right
subtree replaced by the result of removing `s` from it.  In both cases the root node only
has its height and balance factor recomputed, the result satisfies the AVL invariant and
no rotation takes place at the root. -/
theorem two_children_removal {α : Type} (cmp : α → α → Int) (hc : consistent cmp)
    (x : α) (b h : Int) (l r : tree_node_s α) (e : α)
    (hl : is_null l = false) (hr : is_null r = false)
    (ha : avl (.node x b h l r)) (ho : ordered cmp (.node x b h l r))
    (heq : cmp x e = 0) :
    (true_height l > true_height r →
      ∃ p init l', inorder l = init ++ [p] ∧ (∀ y ∈ inorder l, 0 ≤ cmp y p)
        ∧ tree_node_remove l (some p) (some cmp) = some l'
        ∧ tree_node_remove (.node x b h l r) (some e) (some cmp)
            = some (.node p (node_height r - node_height l')
                (1 + max (node_height l') (node_height r)) l' r)
        ∧ avl (.node p (node_height r - node_height l')
                (1 + max (node_height l') (node_height r)) l' r))
    ∧ (¬ true_height l > true_height r →
      ∃ s rest r', inorder r = s :: rest ∧ (∀ y ∈ inorder r, 0 ≤ cmp s y)
        ∧ tree_node_remove r (some s) (some cmp) = some r'
        ∧ tree_node_remove (.node x b h l r) (some e) (some cmp)
            = some (.node s (node_height r' - node_height l)
                (1 + max (node_height l) (node_height r')) l r')
        ∧ avl (.node s (node_height r' - node_height l)
                (1 + max (node_height l) (node_height r')) l r')) := by
  obtain ⟨lx, lb, lh, ll, lr, rfl⟩ := (is_null_eq_false l).1 hl
  obtain ⟨rx, rb, rh, rl, rr, rfl⟩ := (is_null_eq_false r).1 hr
  obtain ⟨_, hb, hb1, hb2, al, ar⟩ := (avl_node _ _ _ _ _).1 ha
  have htl := avl_node_height_eq_true _ al
  have htr := avl_node_height_eq_true _ ar
  simp only [node_height_node] at hb htl htr
  have c1 : ¬ cmp x e < 0 := by omega
  have c2 : ¬ cmp x e > 0 := by omega
  have hpw := (pairwise_middle _ _ _ _).1 (show
    (inorder (tree_node_s.node lx lb lh ll lr) ++ x
      :: inorder (tree_node_s.node rx rb rh rl rr)).Pairwise (fun a b => 0 ≤ cmp a b) from ho)
  constructor
  · intro hgt
    have c3 : lh > rh := by omega
    obtain ⟨p, mb, mh, ml, mr, hm, init, hin⟩ := tree_node_find_max_spec lr lx lb lh ll
    obtain ⟨l', hrem, al', hlo, hhi⟩ :=
      tree_node_remove_avl _ al (some p) (some cmp)
    simp only [node_height_node] at hlo hhi
    have hav : avl (.node p (node_height (tree_node_s.node rx rb rh rl rr) - node_height l')
        (1 + max (node_height l') (node_height (tree_node_s.node rx rb rh rl rr))) l'
        (.node rx rb rh rl rr)) := by
      refine (avl_node _ _ _ _ _).2 ⟨rfl, rfl, ?_, ?_, al', ar⟩
      · simp only [node_height_node]; omega
      · simp only [node_height_node]; omega
    refine ⟨p, init, l', hin, ?_, hrem, ?_, hav⟩
    · intro y hy
      rw [hin] at hy hpw
      rcases List.mem_append.1 hy with hy | hy
      · have := (List.pairwise_append.1 hpw.1).2.2 y hy p (by simp)
        exact this
      · simp only [List.mem_singleton] at hy
        rw [hy, hc.refl]
    · rw [tree_node_remove_two_left x b h e lx lb lh ll lr rx rb rh rl rr cmp c1 c2 c3
        p mb mh ml mr hm, hrem]
      simp only [Option.some_bind, update_node]
      exact avl_balance_eq _ hav
  · intro hngt
    have c3 : ¬ lh > rh := by omega
    obtain ⟨s, mb, mh, ml, mr, hm, rest, hin⟩ := tree_node_find_min_spec rl rx rb rh rr
    obtain ⟨r', hrem, ar', hlo, hhi⟩ :=
      tree_node_remove_avl _ ar (some s) (some cmp)
    simp only [node_height_node] at hlo hhi
    have hav : avl (.node s (node_height r' - node_height (tree_node_s.node lx lb lh ll lr))
        (1 + max (node_height (tree_node_s.node lx lb lh ll lr)) (node_height r'))
        (.node lx lb lh ll lr) r') := by
      refine (avl_node _ _ _ _ _).2 ⟨rfl, rfl, ?_, ?_, al, ar'⟩
      · simp only [node_height_node]; omega
      · simp only [node_height_node]; omega
    refine ⟨s, rest, r', hin, ?_, hrem, ?_, hav⟩
    · intro y hy
      rw [hin] at hy hpw
      rcases List.mem_cons.1 hy with hy | hy
      · rw [hy, hc.refl]
      · exact (List.pairwise_cons.1 hpw.2.1).1 y hy
    · rw [tree_node_remove_two_right x b h e lx lb lh ll lr rx rb rh rl rr cmp c1 c2 c3
        s mb mh ml mr hm, hrem]
      simp only [Option.some_bind, update_node]
      exact avl_balance_eq _ hav
/-- Witness of C32: the root of the tree of Scenario A, whose subtrees are equally tall,
with a probe of value 20. -/
theorem two_children_removal_witness :
    consistent number_compare
    ∧ is_null (tree_node_s.node (⟨2, 10⟩ : number) 0 1 (.node ⟨1, 5⟩ 0 0 .null .null)
        (.node ⟨3, 15⟩ 0 0 .null .null)) = false
    ∧ is_null (tree_node_s.node (⟨6, 30⟩ : number) 0 1 (.node ⟨5, 25⟩ 0 0 .null .null)
        (.node ⟨7, 35⟩ 0 0 .null .null)) = false
    ∧ avl scenario_a.root ∧ ordered number_compare scenario_a.root
    ∧ number_compare ⟨4, 20⟩ ⟨0, 20⟩ = 0
    ∧ ((true_height (tree_node_s.node (⟨2, 10⟩ : number) 0 1 (.node ⟨1, 5⟩ 0 0 .null .null)
            (.node ⟨3, 15⟩ 0 0 .null .null))
          > true_height (tree_node_s.node (⟨6, 30⟩ : number) 0 1
              (.node ⟨5, 25⟩ 0 0 .null .null) (.node ⟨7, 35⟩ 0 0 .null .null)) →
        ∃ p init l',
          inorder (tree_node_s.node (⟨2, 10⟩ : number) 0 1 (.node ⟨1, 5⟩ 0 0 .null .null)
            (.node ⟨3, 15⟩ 0 0 .null .null)) = init ++ [p]
          ∧ (∀ y ∈ inorder (tree_node_s.node (⟨2, 10⟩ : number) 0 1
                (.node ⟨1, 5⟩ 0 0 .null .null) (.node ⟨3, 15⟩ 0 0 .null .null)),
              0 ≤ number_compare y p)
          ∧ tree_node_remove (tree_node_s.node (⟨2, 10⟩ : number) 0 1
                (.node ⟨1, 5⟩ 0 0 .null .null) (.node ⟨3, 15⟩ 0 0 .null .null)) (some p)
              (some number_compare) = some l'
          ∧ tree_node_remove scenario_a.root (some ⟨0, 20⟩) (some number_compare)
              = some (.node p
                  (node_height (tree_node_s.node (⟨6, 30⟩ : number) 0 1
                    (.node ⟨5, 25⟩ 0 0 .null .null) (.node ⟨7, 35⟩ 0 0 .null .null))
                    - node_height l')
                  (1 + max (node_height l')
                    (node_height (tree_node_s.node (⟨6, 30⟩ : number) 0 1
                      (.node ⟨5, 25⟩ 0 0 .null .null) (.node ⟨7, 35⟩ 0 0 .null .null))))
                  l' (.node ⟨6, 30⟩ 0 1 (.node ⟨5, 25⟩ 0 0 .null .null)
                    (.node ⟨7, 35⟩ 0 0 .null .null)))
          ∧ avl (.node p
                  (node_height (tree_node_s.node (⟨6, 30⟩ : number) 0 1
                    (.node ⟨5, 25⟩ 0 0 .null .null) (.node ⟨7, 35⟩ 0 0 .null .null))
                    - node_height l')
                  (1 + max (node_height l')
                    (node_height (tree_node_s.node (⟨6, 30⟩ : number) 0 1
                      (.node ⟨5, 25⟩ 0 0 .null .null) (.node ⟨7, 35⟩ 0 0 .null .null))))
                  l' (.node ⟨6, 30⟩ 0 1 (.node ⟨5, 25⟩ 0 0 .null .null)
                    (.node ⟨7, 35⟩ 0 0 .null .null))))
      ∧ (¬ true_height (tree_node_s.node (⟨2, 10⟩ : number) 0 1 (.node ⟨1, 5⟩ 0 0 .null .null)
            (.node ⟨3, 15⟩ 0 0 .null .null))
          > true_height (tree_node_s.node (⟨6, 30⟩ : number) 0 1
              (.node ⟨5, 25⟩ 0 0 .null .null) (.node ⟨7, 35⟩ 0 0 .null .null)) →
        ∃ s rest r',
          inorder (tree_node_s.node (⟨6, 30⟩ : number) 0 1 (.node ⟨5, 25⟩ 0 0 .null .null)
            (.node ⟨7, 35⟩ 0 0 .null .null)) = s :: rest
          ∧ (∀ y ∈ inorder (tree_node_s.node (⟨6, 30⟩ : number) 0 1
                (.node ⟨5, 25⟩ 0 0 .null .null) (.node ⟨7, 35⟩ 0 0 .null .null)),
              0 ≤ number_compare s y)
          ∧ tree_node_remove (tree_node_s.node (⟨6, 30⟩ : number) 0 1
                (.node ⟨5, 25⟩ 0 0 .null .null) (.node ⟨7, 35⟩ 0 0 .null .null)) (some s)
              (some number_compare) = some r'
          ∧ tree_node_remove scenario_a.root (some ⟨0, 20⟩) (some number_compare)
              = some (.node s
                  (node_height r' - node_height (tree_node_s.node (⟨2, 10⟩ : number) 0 1
                    (.node ⟨1, 5⟩ 0 0 .null .null) (.node ⟨3, 15⟩ 0 0 .null .null)))
                  (1 + max (node_height (tree_node_s.node (⟨2, 10⟩ : number) 0 1
                      (.node ⟨1, 5⟩ 0 0 .null .null) (.node ⟨3, 15⟩ 0 0 .null .null)))
                    (node_height r'))
                  (.node ⟨2, 10⟩ 0 1 (.node ⟨1, 5⟩ 0 0 .null .null)
                    (.node ⟨3, 15⟩ 0 0 .null .null)) r')
          ∧ avl (.node s
                  (node_height r' - node_height (tree_node_s.node (⟨2, 10⟩ : number) 0 1
                    (.node ⟨1, 5⟩ 0 0 .null .null) (.node ⟨3, 15⟩ 0 0 .null .null)))
                  (1 + max (node_height (tree_node_s.node (⟨2, 10⟩ : number) 0 1
                      (.node ⟨1, 5⟩ 0 0 .null .null) (.node ⟨3, 15⟩ 0 0 .null .null)))
                    (node_height r'))
                  (.node ⟨2, 10⟩ 0 1 (.node ⟨1, 5⟩ 0 0 .null .null)
                    (.node ⟨3, 15⟩ 0 0 .null .null)) r'))) :=
  ⟨number_compare_consistent, rfl, rfl, scenario_a_invariant.balanced, scenario_a_ordered, rfl,
    two_children_removal number_compare number_compare_consistent ⟨4, 20⟩ 0 2 _ _ ⟨0, 20⟩
      rfl rfl scenario_a_invariant.balanced scenario_a_ordered rfl⟩

/-- Evaluation for C33: the numbers 5, 3, 7, 7, 7 (five different references) inserted
into a new tree with duplicates allowed give the tree `five_three_sevens`; `tree_remove`
with a probe of value 5 returns the stored 5, and the tree after the call holds 3, the
first 7 twice, and the third 7: the second 7 is gone although it was not returned, and
the first 7 is stored in two nodes. -/
theorem tree_remove_drops_another_element :
    five_three_sevens_elems.Nodup
    ∧ tree_run number_compare (tree_new true) (insert_all five_three_sevens_elems)
        = some (some five_three_sevens)
    ∧ inorder five_three_sevens.root = [⟨2, 3⟩, ⟨1, 5⟩, ⟨3, 7⟩, ⟨4, 7⟩, ⟨5, 7⟩]
    ∧ ∃ t', tree_remove (some five_three_sevens) (some ⟨9, 5⟩) (some number_compare)
        = some (some ⟨1, 5⟩, some t')
      ∧ inorder t'.root = [⟨2, 3⟩, ⟨3, 7⟩, ⟨3, 7⟩, ⟨5, 7⟩]
      ∧ (⟨4, 7⟩ : number) ∉ inorder t'.root
      ∧ ¬ (inorder t'.root).Perm ((inorder five_three_sevens.root).erase ⟨1, 5⟩) := by
  refine ⟨by decide, by decide, by decide, _, rfl, ?_, ?_, ?_⟩ <;> decide


/-! ## Exact removal and insertion position -/

theorem strictly_ordered_filter_ne {α : Type} (cmp : α → α → Int) (hc : consistent cmp)
    (l1 l2 : List α) (x p : α)
    (hs : (l1 ++ x :: l2).Pairwise fun a b => 0 < cmp a b) (hx : cmp x p = 0) :
    (l1 ++ x :: l2).filter (fun y => decide (cmp y p ≠ 0)) = l1 ++ l2 := by
  obtain ⟨_, _, h1, h2, _⟩ := (pairwise_middle _ _ _ _).1 hs
  have hpx : cmp p x = 0 := hc.eq_symm x p hx
  have e1 : l1.filter (fun y => decide (cmp y p ≠ 0)) = l1 := by
    refine List.filter_eq_self.2 ?_
    intro y hy
    have hyx := h1 y hy
    have : cmp y p ≠ 0 := fun h0 => by
      have := hc.eq_trans y p x h0 hpx
      omega
    simpa using this
  have e2 : l2.filter (fun y => decide (cmp y p ≠ 0)) = l2 := by
    refine List.filter_eq_self.2 ?_
    intro y hy
    have hxy := h2 y hy
    have : cmp y p ≠ 0 := fun h0 => by
      have := hc.eq_trans x p y hx (hc.eq_symm y p h0)
      omega
    simpa using this
  rw [List.filter_append, filter_ne_cons_neg cmp p x l2 hx, e1, e2]

/-- C34. Removal is exact when duplicates are disallowed.  On a tree without duplicates
that satisfies the invariants, used with a consistent comparator: when a stored element
compares equal to the probe, `tree_remove` returns that element `x`, the in-order
sequence after the call is the sequence before it with `x` deleted (all other elements
stay, in the same order), and `tree_find` with any of the other elements as probe returns
that element; when no stored element compares equal to the probe, `tree_remove` returns
`NULL` and the tree after the call is the tree before it. -/
theorem exact_removal {α : Type} (cmp : α → α → Int) (hc : consistent cmp)
    (t : tree_s α) (inv : tree_invariant cmp t) (hd : t.allow_duplicates = false) (p : α) :
    ((∃ x ∈ inorder t.root, cmp x p = 0) →
      ∃ x l1 l2 t', inorder t.root = l1 ++ x :: l2 ∧ cmp x p = 0
        ∧ tree_remove (some t) (some p) (some cmp) = some (some x, some t')
        ∧ inorder t'.root = l1 ++ l2
        ∧ ∀ y ∈ l1 ++ l2, tree_find (some t') (some y) (some cmp) = some y)
    ∧ ((¬ ∃ x ∈ inorder t.root, cmp x p = 0) →
        tree_remove (some t) (some p) (some cmp) = some (none, some t)) := by
  rcases tree_remove_spec cmp hc t inv p with ⟨hno, hrem⟩
    | ⟨removed, root', _, heq, hmem, hrem, _, inv', _, _, _, hfilter⟩
  · exact ⟨fun hex => absurd hex hno, fun _ => hrem⟩
  · refine ⟨fun _ => ?_, fun hno => absurd ⟨removed, hmem, heq⟩ hno⟩
    obtain ⟨l1, l2, hsplit⟩ := List.append_of_mem hmem
    have hs := inv.strict hd
    have hin : inorder root' = l1 ++ l2 := by
      rw [hfilter hd, hsplit]
      exact strictly_ordered_filter_ne cmp hc l1 l2 removed p
        (by rw [← hsplit]; exact hs) heq
    refine ⟨removed, l1, l2, _, hsplit, heq, hrem, hin, ?_⟩
    intro y hy
    have hy' : y ∈ inorder root' := by rw [hin]; exact hy
    have hs' : strictly_ordered cmp root' := inv'.strict hd
    obtain ⟨z, hfind, hz, hzy⟩ :=
      (tree_node_find_elem_spec cmp hc root' inv'.sorted y).1 ⟨y, hy', hc.refl y⟩
    rw [tree_find_some]
    show tree_node_find_elem root' (some y) (some cmp) = some y
    rw [hfind, strictly_ordered_unique cmp hc root' hs' y y z hy' hz (hc.refl y) hzy]

/-- Witness of C34: the probe 20 on the tree of Scenario A. -/
theorem exact_removal_witness :
    consistent number_compare ∧ tree_invariant number_compare scenario_a
    ∧ scenario_a.allow_duplicates = false
    ∧ (((∃ x ∈ inorder scenario_a.root, number_compare x ⟨0, 20⟩ = 0) →
        ∃ x l1 l2 t', inorder scenario_a.root = l1 ++ x :: l2 ∧ number_compare x ⟨0, 20⟩ = 0
          ∧ tree_remove (some scenario_a) (some ⟨0, 20⟩) (some number_compare)
              = some (some x, some t')
          ∧ inorder t'.root = l1 ++ l2
          ∧ ∀ y ∈ l1 ++ l2, tree_find (some t') (some y) (some number_compare) = some y)
      ∧ ((¬ ∃ x ∈ inorder scenario_a.root, number_compare x ⟨0, 20⟩ = 0) →
          tree_remove (some scenario_a) (some ⟨0, 20⟩) (some number_compare)
            = some (none, some scenario_a))) :=
  ⟨number_compare_consistent, scenario_a_invariant, rfl,
    exact_removal number_compare number_compare_consistent scenario_a scenario_a_invariant rfl
      ⟨0, 20⟩⟩

theorem filter_eq_insert {α : Type} (cmp : α → α → Int) (hc : consistent cmp)
    (l1 l2 : List α) (e probe : α) (h2 : ∀ y ∈ l2, cmp y e < 0) :
    (l1 ++ e :: l2).filter (fun y => decide (cmp y probe = 0))
      = (l1 ++ l2).filter (fun y => decide (cmp y probe = 0))
        ++ [e].filter (fun y => decide (cmp y probe = 0)) := by
  by_cases he : cmp e probe = 0
  · have e2 : l2.filter (fun y => decide (cmp y probe = 0)) = [] := by
      refine List.filter_eq_nil_iff.2 ?_
      intro y hy
      have hlt := h2 y hy
      have : cmp y probe ≠ 0 := fun h0 => by
        have := hc.eq_trans y probe e h0 (hc.eq_symm e probe he)
        omega
      simpa using this
    simp [List.filter_append, List.filter_cons, he, e2]
  · simp [List.filter_append, List.filter_cons, he]

theorem tree_run_insert_all_order {α : Type} (cmp : α → α → Int) (hc : consistent cmp)
    (probe : α) :
    ∀ (es : List α) (t : tree_s α), tree_invariant cmp t → t.allow_duplicates = true →
      ∃ t', tree_run cmp (some t) (insert_all es) = some (some t')
        ∧ (inorder t'.root).filter (fun y => decide (cmp y probe = 0))
          = (inorder t.root).filter (fun y => decide (cmp y probe = 0))
            ++ es.filter (fun y => decide (cmp y probe = 0))
  | [], t, _, _ => ⟨t, rfl, by simp⟩
  | e :: es, t, inv, hd => by
    rcases tree_insert_spec cmp hc t inv e with ⟨hf, _⟩
      | ⟨_, root', hins, _, inv', l1, l2, hsplit, hin, _, _, h2⟩
    · rw [hd] at hf
      exact absurd hf (by decide)
    · obtain ⟨t', hrun, hfilter⟩ := tree_run_insert_all_order cmp hc probe es
        { t with root := root', count := t.count + 1 } inv' hd
      refine ⟨t', ?_, ?_⟩
      · simp only [insert_all, List.map_cons, tree_run, tree_step, if_true, hins,
          Option.map_some', Option.some_bind]
        exact hrun
      · rw [hfilter]
        show (inorder root').filter _ ++ _ = _
        rw [hin, hsplit, filter_eq_insert cmp hc l1 l2 e probe h2, List.append_assoc]
        congr 1
        rw [← List.filter_append]
        rfl

/-- C35. Insertion position.  On a tree that satisfies the ordering invariant, used with a
consistent comparator, when `tree_insert` returns `TREE_RC_OK` the in-order sequence
after the call is the sequence before it with `e` put in at one place: every element
before that place is not greater than `e` (`compare x e ≥ 0`) and every element after it
is greater (`compare y e < 0`), so `e` stands immediately after the last element that is
not greater than it and the stored elements keep their relative order.  Hence in a tree
with duplicates allowed that was built from the empty tree by inserting the elements
`es` in turn, the elements that compare equal to a probe appear in the in-order sequence
in the order of their insertion. -/
theorem insertion_position {α : Type} (cmp : α → α → Int) (hc : consistent cmp)
    (t t' : tree_s α) (ho : ordered cmp t.root) (e : α)
    (hins : tree_insert (some t) (some e) (some cmp) = some (.TREE_RC_OK, some t')) :
    (∃ l1 l2, inorder t.root = l1 ++ l2 ∧ inorder t'.root = l1 ++ e :: l2
      ∧ (∀ x ∈ l1, 0 ≤ cmp x e) ∧ (∀ y ∈ l2, cmp y e < 0))
    ∧ (∀ (es : List α) (probe : α),
        ∃ t2, tree_run cmp (tree_new true) (insert_all es) = some (some t2)
          ∧ (inorder t2.root).filter (fun y => decide (cmp y probe = 0))
            = es.filter (fun y => decide (cmp y probe = 0))) := by
  constructor
  · simp only [tree_insert] at hins
    by_cases hdup : is_null (tree_node_find t.root (some e) (some cmp)) = false
        ∧ t.allow_duplicates = false
    · rw [if_pos hdup] at hins
      simp at hins
    · rw [if_neg hdup] at hins
      cases hn : tree_node_insert t.root (some e) (some cmp) t.allow_duplicates with
      | none => simp [hn] at hins
      | some root' =>
        rw [hn] at hins
        simp only [Option.some_bind, Option.some.injEq, Prod.mk.injEq, true_and] at hins
        subst hins
        rcases tree_node_insert_inorder cmp hc _ e t.root ho root' hn with
          ⟨hd, hex, _⟩ | ⟨l1, l2, hsplit, hin, h1, _, h2⟩
        · exact absurd ⟨tree_node_find_complete cmp hc t.root e ho hex, hd⟩ hdup
        · exact ⟨l1, l2, hsplit, hin, h1, h2⟩
  · intro es probe
    obtain ⟨t2, hrun, hfilter⟩ := tree_run_insert_all_order cmp hc probe es
      { root := .null, allow_duplicates := true, count := 0 }
      (tree_invariant_empty cmp true 0 rfl) rfl
    exact ⟨t2, hrun, by simpa using hfilter⟩

/-- Witness of C35: the number 12 inserted into the tree of Scenario A. -/
theorem insertion_position_witness :
    consistent number_compare ∧ ordered number_compare scenario_a.root
    ∧ tree_insert (some scenario_a) (some ⟨8, 12⟩) (some number_compare)
        = some (.TREE_RC_OK, some scenario_a_with_12)
    ∧ ((∃ l1 l2, inorder scenario_a.root = l1 ++ l2
          ∧ inorder scenario_a_with_12.root = l1 ++ (⟨8, 12⟩ : number) :: l2
          ∧ (∀ x ∈ l1, 0 ≤ number_compare x ⟨8, 12⟩)
          ∧ (∀ y ∈ l2, number_compare y ⟨8, 12⟩ < 0))
      ∧ (∀ (es : List number) (probe : number),
          ∃ t2, tree_run number_compare (tree_new true) (insert_all es) = some (some t2)
            ∧ (inorder t2.root).filter (fun y => decide (number_compare y probe = 0))
              = es.filter (fun y => decide (number_compare y probe = 0)))) :=
  ⟨number_compare_consistent, scenario_a_ordered, by decide,
    insertion_position number_compare number_compare_consistent scenario_a
      scenario_a_with_12 scenario_a_ordered ⟨8, 12⟩ (by decide)⟩

/-! ## The rebalancing step and the height bound -/

/-- C36. Rebalancing step.  For a node whose two subtrees satisfy the AVL invariant and
whose freshly recomputed balance factor is `-2` or `+2`: `tree_node_balance` returns a
subtree that satisfies the AVL invariant, so that every node of it has a correct stored
height and a correct balance factor in `{-1, 0, +1}`.  With `-2` the left child is the
heavy one: when its balance factor is `≤ 0` the result is the single right rotation of
the node, otherwise the left child is rotated to the left first and the node is then
rotated to the right.  With `+2` the right child is the heavy one: when its balance
factor is `≥ 0` the result is the single left rotation of the node, otherwise the right
child is rotated to the right first and the node is then rotated to the left.  A node
whose stored balance factor is `-1`, `0` or `+1` is returned unchanged. -/
theorem rebalancing_step {α : Type} (x : α) (b h : Int) (l r : tree_node_s α)
    (al : avl l) (ar : avl r)
    (hb : node_height r - node_height l = -2 ∨ node_height r - node_height l = 2) :
    (∃ t', tree_node_balance (tree_node_update_height_and_balance_factor (.node x b h l r))
        = some t'
      ∧ avl t' ∧ every_node height_correct t' ∧ every_node balance_correct t')
    ∧ (node_height r - node_height l = -2 →
        ∃ lx lb lh ll lr, l = .node lx lb lh ll lr
          ∧ (lb ≤ 0 →
              tree_node_balance (tree_node_update_height_and_balance_factor (.node x b h l r))
                = tree_node_right_rotation
                    (tree_node_update_height_and_balance_factor (.node x b h l r)))
          ∧ (0 < lb →
              tree_node_balance (tree_node_update_height_and_balance_factor (.node x b h l r))
                = (tree_node_left_rotation l).bind fun l' =>
                    tree_node_right_rotation
                      (.node x (node_height r - node_height l)
                        (1 + max (node_height l) (node_height r)) l' r)))
    ∧ (node_height r - node_height l = 2 →
        ∃ rx rb rh rl rr, r = .node rx rb rh rl rr
          ∧ (0 ≤ rb →
              tree_node_balance (tree_node_update_height_and_balance_factor (.node x b h l r))
                = tree_node_left_rotation
                    (tree_node_update_height_and_balance_factor (.node x b h l r)))
          ∧ (rb < 0 →
              tree_node_balance (tree_node_update_height_and_balance_factor (.node x b h l r))
                = (tree_node_right_rotation r).bind fun r' =>
                    tree_node_left_rotation
                      (.node x (node_height r - node_height l)
                        (1 + max (node_height l) (node_height r)) l r')))
    ∧ (∀ (y : α) (b' h' : Int) (l' r' : tree_node_s α), -1 ≤ b' → b' ≤ 1 →
        tree_node_balance (.node y b' h' l' r') = some (.node y b' h' l' r')) := by
  refine ⟨?_, ?_, ?_, ?_⟩
  · obtain ⟨t', ht, at', _⟩ := balance_update_avl x b h l r al ar (by omega) (by omega)
    exact ⟨t', ht, at', avl_every_height_correct t' at', avl_every_balance_correct t' at'⟩
  · intro hm
    cases l with
    | null =>
      have := avl_node_height_ge r ar
      simp only [node_height_null] at hm
      omega
    | node lx lb lh ll lr =>
      refine ⟨lx, lb, lh, ll, lr, rfl, ?_, ?_⟩
      · intro hlb
        simp only [update_node, tree_node_balance, hm, if_true, hlb,
          tree_node_balance_left_left_case]
      · intro hlb
        have : ¬ lb ≤ 0 := by omega
        simp only [update_node, tree_node_balance, hm, if_true, this, if_false,
          tree_node_balance_left_right_case, tree_node_balance_left_left_case]
  · intro hm
    cases r with
    | null =>
      have := avl_node_height_ge l al
      simp only [node_height_null] at hm
      omega
    | node rx rb rh rl rr =>
      have h2 : ¬ ((2 : Int) = -2) := by decide
      refine ⟨rx, rb, rh, rl, rr, rfl, ?_, ?_⟩
      · intro hrb
        have : rb ≥ 0 := hrb
        simp only [update_node, tree_node_balance, hm, h2, if_false, if_true, this,
          tree_node_balance_right_right_case]
      · intro hrb
        have : ¬ rb ≥ 0 := by omega
        simp only [update_node, tree_node_balance, hm, h2, if_false, if_true, this,
          tree_node_balance_right_left_case, tree_node_balance_right_right_case]
  · intro y b' h' l' r' h1 h2
    have e1 : ¬ b' = -2 := by omega
    have e2 : ¬ b' = 2 := by omega
    simp only [tree_node_balance, e1, e2, if_false]
/-- Witness of C36: the node of 15 with no left child and the right child 20 over 25, as
after the insertion of 15, 20 and 25. -/
theorem rebalancing_step_witness :
    avl (.null : tree_node_s number)
    ∧ avl (tree_node_s.node (⟨2, 20⟩ : number) 1 1 .null (.node ⟨3, 25⟩ 0 0 .null .null))
    ∧ (node_height (tree_node_s.node (⟨2, 20⟩ : number) 1 1 .null
            (.node ⟨3, 25⟩ 0 0 .null .null))
          - node_height (.null : tree_node_s number) = -2
        ∨ node_height (tree_node_s.node (⟨2, 20⟩ : number) 1 1 .null
            (.node ⟨3, 25⟩ 0 0 .null .null))
          - node_height (.null : tree_node_s number) = 2)
    ∧ ∃ t', tree_node_balance (tree_node_update_height_and_balance_factor
          (.node (⟨1, 15⟩ : number) 0 0 .null
            (.node ⟨2, 20⟩ 1 1 .null (.node ⟨3, 25⟩ 0 0 .null .null)))) = some t'
      ∧ avl t' ∧ every_node height_correct t' ∧ every_node balance_correct t' :=
  ⟨trivial, by simp [avl], Or.inr rfl,
    (rebalancing_step (⟨1, 15⟩ : number) 0 0 .null
      (.node ⟨2, 20⟩ 1 1 .null (.node ⟨3, 25⟩ 0 0 .null .null)) trivial (by simp [avl])
      (Or.inr rfl)).1⟩

theorem fib_step_le (a c : Nat) (h1 : a ≤ c + 1) (h2 : c ≤ a + 1) :
    Nat.fib (max a c + 3) ≤ Nat.fib (a + 2) + Nat.fib (c + 2) := by
  rcases Nat.le_total c a with hca | hac
  · rw [Nat.max_eq_left hca, show a + 3 = (a + 1) + 2 from rfl, Nat.fib_add_two]
    have : Nat.fib (a + 1) ≤ Nat.fib (c + 2) := Nat.fib_mono (by omega)
    rw [Nat.add_comm]
    exact Nat.add_le_add_left this _
  · rw [Nat.max_eq_right hac, show c + 3 = (c + 1) + 2 from rfl, Nat.fib_add_two]
    have : Nat.fib (c + 1) ≤ Nat.fib (a + 2) := Nat.fib_mono (by omega)
    exact Nat.add_le_add_right this _

theorem avl_fib_le_count {α : Type} (t : tree_node_s α) (h : avl t) :
    Nat.fib ((node_height t + 3).toNat) ≤ node_count t + 1 := by
  induction t with
  | null => simp [node_count]
  | node x b ht l r ihl ihr =>
    obtain ⟨hh, hb, hb1, hb2, al, ar⟩ := (avl_node _ _ _ _ _).1 h
    have hl := ihl al
    have hr := ihr ar
    have gl := avl_node_height_ge l al
    have gr := avl_node_height_ge r ar
    obtain ⟨a, ha⟩ := Int.eq_ofNat_of_zero_le (show 0 ≤ node_height l + 1 by omega)
    obtain ⟨c, hc⟩ := Int.eq_ofNat_of_zero_le (show 0 ≤ node_height r + 1 by omega)
    have e1 : (node_height l + 3).toNat = a + 2 := by omega
    have e2 : (node_height r + 3).toNat = c + 2 := by omega
    have e3 : (node_height (tree_node_s.node x b ht l r) + 3).toNat = max a c + 3 := by
      simp only [node_height_node]
      omega
    rw [e1] at hl
    rw [e2] at hr
    rw [e3]
    have := fib_step_le a c (by omega) (by omega)
    simp only [node_count]
    omega

theorem two_pow_le_fib_sq : ∀ k : Nat, 2 ^ k ≤ Nat.fib (k + 3) ^ 2
  | 0 => by decide
  | 1 => by decide
  | k + 2 => by
    have ih := two_pow_le_fib_sq k
    have h1 : Nat.fib (k + 2 + 3) = Nat.fib (k + 3) + Nat.fib (k + 4) := Nat.fib_add_two
    have h2 : Nat.fib (k + 3) ≤ Nat.fib (k + 4) := Nat.fib_mono (by omega)
    have h3 : 2 * Nat.fib (k + 3) ≤ Nat.fib (k + 2 + 3) := by omega
    calc 2 ^ (k + 2) = 4 * 2 ^ k := by ring
      _ ≤ 4 * Nat.fib (k + 3) ^ 2 := Nat.mul_le_mul_left 4 ih
      _ = (2 * Nat.fib (k + 3)) ^ 2 := by ring
      _ ≤ Nat.fib (k + 2 + 3) ^ 2 := Nat.pow_le_pow_left h3 2

/-- C37. Logarithmic height.  Every sequence of `tree_insert`, `tree_remove` and
`tree_clear` calls on a new tree ends in a tree `t` whose root height `h` (the stored
height, which is the true height; `-1` for the empty tree, `0` for a single node) and
number `n` of stored elements satisfy `Fib (h + 3) ≤ n + 1`, with `Fib 1 = Fib 2 = 1`;
for a non-empty tree it follows that `2 ^ h ≤ (n + 1) ^ 2`.  With a consistent comparator
`n` is the field `count`. -/
theorem logarithmic_height {α : Type} (cmp : α → α → Int) (dup : Bool)
    (ops : List (tree_op α)) :
    Nat.fib 1 = 1 ∧ Nat.fib 2 = 1
    ∧ ∃ t, tree_run cmp (tree_new dup) ops = some (some t)
      ∧ node_height t.root = true_height t.root
      ∧ Nat.fib ((node_height t.root + 3).toNat) ≤ node_count t.root + 1
      ∧ (is_null t.root = false →
          2 ^ (node_height t.root).toNat ≤ (node_count t.root + 1) ^ 2)
      ∧ (consistent cmp → t.count = node_count t.root) := by
  refine ⟨rfl, rfl, ?_⟩
  obtain ⟨t, hrun, ha⟩ := tree_run_avl cmp dup ops
  have hfib := avl_fib_le_count t.root ha
  refine ⟨t, hrun, avl_node_height_eq_true t.root ha, hfib, ?_, ?_⟩
  · intro hnn
    obtain ⟨x, b, h, l, r, hroot⟩ := (is_null_eq_false t.root).1 hnn
    have hge : 0 ≤ node_height t.root := by
      rw [hroot] at ha ⊢
      obtain ⟨hh, _, _, _, al, ar⟩ := (avl_node _ _ _ _ _).1 ha
      have := avl_node_height_ge l al
      simp only [node_height_node]
      omega
    obtain ⟨k, hk⟩ := Int.eq_ofNat_of_zero_le hge
    have e1 : (node_height t.root).toNat = k := by omega
    have e2 : (node_height t.root + 3).toNat = k + 3 := by omega
    rw [e2] at hfib
    rw [e1]
    exact Nat.le_trans (two_pow_le_fib_sq k) (Nat.pow_le_pow_left hfib 2)
  · intro hc
    obtain ⟨t2, hrun2, inv, _⟩ := tree_run_invariant cmp hc dup ops
    rw [hrun] at hrun2
    obtain rfl : t = t2 := Option.some.inj (Option.some.inj hrun2)
    exact inv.counted

/-! ## Equal keys, the absent comparator and the rotations -/

theorem ordered_children_bounded {α : Type} (cmp : α → α → Int) (t : tree_node_s α)
    (ho : ordered cmp t) : children_bounded cmp t := by
  induction t with
  | null => trivial
  | node x b h l r ihl ihr =>
    obtain ⟨hl, hr, h1, h2, _⟩ := (pairwise_middle _ _ _ _).1 (show
      (inorder l ++ x :: inorder r).Pairwise (fun a b => 0 ≤ cmp a b) from ho)
    exact ⟨⟨h1, h2⟩, ihl hl, ihr hr⟩

/-- Counterexample to C38: three numbers of value 7 inserted into a new tree with
duplicates allowed give the tree `three_sevens`, where the first 7 lies in the left subtree
of the second 7, to which it compares equal. -/
theorem equal_keys_on_left_counterexample :
    tree_run number_compare (tree_new true) (insert_all [⟨1, 7⟩, ⟨2, 7⟩, ⟨3, 7⟩])
      = some (some three_sevens)
    ∧ ¬ no_equal_on_left number_compare three_sevens.root := by
  refine ⟨by decide, ?_⟩
  intro h
  exact h.1 ⟨1, 7⟩ (by simp) rfl

/-- C38, as amended.  In a tree with duplicates allowed built from the empty tree by
`tree_insert` calls with a consistent comparator, at every node no element of the left
subtree is greater than the element of the node and no element of the right subtree is
lesser; an element that compares equal to it can lie in either subtree. -/
theorem equal_keys_bounded {α : Type} (cmp : α → α → Int) (hc : consistent cmp)
    (es : List α) :
    ∃ t, tree_run cmp (tree_new true) (insert_all es) = some (some t)
      ∧ children_bounded cmp t.root := by
  obtain ⟨t, hrun, inv, _⟩ := tree_run_invariant cmp hc true (insert_all es)
  exact ⟨t, hrun, ordered_children_bounded cmp t.root inv.sorted⟩

/-- Witness of C38 as amended: the three numbers of value 7. -/
theorem equal_keys_bounded_witness :
    consistent number_compare
    ∧ ∃ t, tree_run number_compare (tree_new true) (insert_all [⟨1, 7⟩, ⟨2, 7⟩, ⟨3, 7⟩])
        = some (some t)
      ∧ children_bounded number_compare t.root :=
  ⟨number_compare_consistent,
    equal_keys_bounded number_compare number_compare_consistent [⟨1, 7⟩, ⟨2, 7⟩, ⟨3, 7⟩]⟩


/-- Counterexample to C39: on the absent root, `tree_node_insert` with an absent
comparator creates a node for the element. -/
theorem tree_node_insert_empty_without_compare_counterexample :
    tree_node_insert (.null : tree_node_s number) (some ⟨1, 5⟩) none true
      = some (.node ⟨1, 5⟩ 0 0 .null .null)
    ∧ tree_node_insert (.null : tree_node_s number) (some ⟨1, 5⟩) none true ≠ some .null := by
  decide

/-- C39, as amended.  Node-level insert with an absent comparator: on every root that is
present, for every non-null element, `tree_node_insert` returns the root unchanged and
creates no node; on the absent root it returns a new node that holds the element, with
height 0, balance factor 0 and no children (the empty root is tested before the
comparator). -/
theorem tree_node_insert_without_compare {α : Type} (e : α) (dup : Bool) :
    (∀ (x : α) (b h : Int) (l r : tree_node_s α),
        tree_node_insert (.node x b h l r) (some e) none dup = some (.node x b h l r))
    ∧ tree_node_insert (.null : tree_node_s α) (some e) none dup
        = some (.node e 0 0 .null .null) :=
  ⟨fun _ _ _ _ _ => rfl, rfl⟩

/-- C40. Rotations preserve the in-order sequence.  On a node with a left child,
`tree_node_right_rotation` returns the left child's node as the new parent, with the old
parent as its right child and the left child's former right subtree as the old parent's
left subtree; the three displaced subtrees `ll`, `lr` and `r` are kept as they are, the
height and the balance factor of the old parent and then of the new parent are
recomputed from the stored heights of their children, and the in-order sequence is the
same.  When the stored heights of the three displaced subtrees are their true heights,
the recomputed heights of the two nodes are their true heights and their balance factors
are the true height of the right subtree minus that of the left.  The same holds,
mirrored, for `tree_node_left_rotation` on a node with a right child. -/
theorem rotations_preserve_inorder {α : Type} (x y : α) (b h cb ch : Int)
    (s1 s2 s3 : tree_node_s α) :
    (tree_node_right_rotation (.node x b h (.node y cb ch s1 s2) s3)
        = some (.node y
            (1 + max (node_height s2) (node_height s3) - node_height s1)
            (1 + max (node_height s1) (1 + max (node_height s2) (node_height s3))) s1
            (.node x (node_height s3 - node_height s2)
              (1 + max (node_height s2) (node_height s3)) s2 s3))
      ∧ inorder (.node y
            (1 + max (node_height s2) (node_height s3) - node_height s1)
            (1 + max (node_height s1) (1 + max (node_height s2) (node_height s3))) s1
            (.node x (node_height s3 - node_height s2)
              (1 + max (node_height s2) (node_height s3)) s2 s3))
          = inorder (.node x b h (.node y cb ch s1 s2) s3)
      ∧ (node_height s1 = true_height s1 → node_height s2 = true_height s2 →
          node_height s3 = true_height s3 →
          1 + max (node_height s2) (node_height s3)
              = true_height (.node x b h s2 s3)
            ∧ node_height s3 - node_height s2 = true_height s3 - true_height s2
            ∧ 1 + max (node_height s1) (1 + max (node_height s2) (node_height s3))
              = true_height (.node y cb ch s1 (.node x b h s2 s3))
            ∧ 1 + max (node_height s2) (node_height s3) - node_height s1
              = true_height (.node x b h s2 s3) - true_height s1))
    ∧ (tree_node_left_rotation (.node x b h s1 (.node y cb ch s2 s3))
        = some (.node y
            (node_height s3 - (1 + max (node_height s1) (node_height s2)))
            (1 + max (1 + max (node_height s1) (node_height s2)) (node_height s3))
            (.node x (node_height s2 - node_height s1)
              (1 + max (node_height s1) (node_height s2)) s1 s2) s3)
      ∧ inorder (.node y
            (node_height s3 - (1 + max (node_height s1) (node_height s2)))
            (1 + max (1 + max (node_height s1) (node_height s2)) (node_height s3))
            (.node x (node_height s2 - node_height s1)
              (1 + max (node_height s1) (node_height s2)) s1 s2) s3)
          = inorder (.node x b h s1 (.node y cb ch s2 s3))
      ∧ (node_height s1 = true_height s1 → node_height s2 = true_height s2 →
          node_height s3 = true_height s3 →
          1 + max (node_height s1) (node_height s2)
              = true_height (.node x b h s1 s2)
            ∧ node_height s2 - node_height s1 = true_height s2 - true_height s1
            ∧ 1 + max (1 + max (node_height s1) (node_height s2)) (node_height s3)
              = true_height (.node y cb ch (.node x b h s1 s2) s3)
            ∧ node_height s3 - (1 + max (node_height s1) (node_height s2))
              = true_height s3 - true_height (.node x b h s1 s2))) := by
  refine ⟨⟨rfl, by simp, ?_⟩, ⟨rfl, by simp, ?_⟩⟩
  · intro h1 h2 h3
    simp only [true_height, h1, h2, h3, and_self]
  · intro h1 h2 h3
    simp only [true_height, h1, h2, h3, and_self]
